import Mathlib

/-!
Shallow embedding of the storage-and-transaction core of the repository
(Python sources under `BinaryTrees/code`): the write-ahead log
(`wal.py`), the buffer pool (`buffer_pool.py`), the LSM tree
(`episode6/lsm_tree.py`), the transaction manager
(`episode8/transaction_manager.py`) and the B-tree (`episode5/btree.py`),
together with proofs and refutations of the specification's claims.

Python `bytes` values are modelled as lists of naturals (each < 256 for
well-formed inputs), Python `str` as lists of characters, Python dicts as
insertion-ordered association lists, and `time.time()` as a logical clock
that increases at every sample.
-/

namespace S2P

/-- Python `bytes` values: a sequence of byte values. -/
abbrev Bytes := List Nat

/-- Lower-case hex digit for a nibble, as produced by `bytes.hex()`. -/
def hexDigitChar (n : Nat) : Char :=
  if n < 10 then Char.ofNat (48 + n) else Char.ofNat (87 + n)

/-- Value of one hex digit, as accepted by `bytes.fromhex` (both cases). -/
def hexCharVal (c : Char) : Option Nat :=
  if 48 ≤ c.toNat ∧ c.toNat ≤ 57 then some (c.toNat - 48)
  else if 97 ≤ c.toNat ∧ c.toNat ≤ 102 then some (c.toNat - 87)
  else if 65 ≤ c.toNat ∧ c.toNat ≤ 70 then some (c.toNat - 55)
  else none

/-- `bytes.hex()`: two lower-case hex digits per byte. -/
def bytesToHex (bs : Bytes) : List Char :=
  bs.flatMap (fun b => [hexDigitChar (b / 16), hexDigitChar (b % 16)])

/-- `bytes.fromhex`: parse pairs of hex digits; fails on malformed input. -/
def hexToBytes : List Char → Option Bytes
  | [] => some []
  | [_] => none
  | c1 :: c2 :: rest => do
    let h ← hexCharVal c1
    let l ← hexCharVal c2
    let tl ← hexToBytes rest
    pure ((16 * h + l) :: tl)

namespace Wal

/-- `LogEntryType` from `wal.py`. -/
inductive LogEntryType
  | BEGIN | COMMIT | ABORT | INSERT | UPDATE | DELETE | CHECKPOINT
deriving DecidableEq, Repr

/-- The `.value` string of a `LogEntryType`. -/
def LogEntryType.value : LogEntryType → List Char
  | .BEGIN => ['B', 'E', 'G', 'I', 'N']
  | .COMMIT => ['C', 'O', 'M', 'M', 'I', 'T']
  | .ABORT => ['A', 'B', 'O', 'R', 'T']
  | .INSERT => ['I', 'N', 'S', 'E', 'R', 'T']
  | .UPDATE => ['U', 'P', 'D', 'A', 'T', 'E']
  | .DELETE => ['D', 'E', 'L', 'E', 'T', 'E']
  | .CHECKPOINT => ['C', 'H', 'E', 'C', 'K', 'P', 'O', 'I', 'N', 'T']

/-- `LogEntryType(s)`: look a type up by its value string; raises
(`none`) on an unknown string. -/
def LogEntryType.ofValue (s : List Char) : Option LogEntryType :=
  if s = LogEntryType.value .BEGIN then some .BEGIN
  else if s = LogEntryType.value .COMMIT then some .COMMIT
  else if s = LogEntryType.value .ABORT then some .ABORT
  else if s = LogEntryType.value .INSERT then some .INSERT
  else if s = LogEntryType.value .UPDATE then some .UPDATE
  else if s = LogEntryType.value .DELETE then some .DELETE
  else if s = LogEntryType.value .CHECKPOINT then some .CHECKPOINT
  else none

/-- `LogEntry` from `wal.py`.  `lsn` is `None` until assigned at append
time; `timestamp` is the `time.time()` sample, modelled as a logical
clock value. -/
structure LogEntry where
  entry_type : LogEntryType
  txn_id : Nat
  table : Option (List Char)
  key : Option Bytes
  value : Option Bytes
  old_value : Option Bytes
  lsn : Option Nat
  timestamp : Nat
deriving DecidableEq, Repr

/-- The JSON object written for one log line by `LogEntry.serialize`
(the fields of the `data` dict; the JSON encoding of this flat record of
strings/ints/nulls is lossless and is not re-modelled). -/
structure SerRec where
  type : List Char
  txn_id : Nat
  table : Option (List Char)
  key : Option (List Char)
  value : Option (List Char)
  old_value : Option (List Char)
  lsn : Option Nat
  timestamp : Nat
deriving DecidableEq, Repr

/-- `self.key.hex() if self.key else None`: Python truthiness sends both
`None` and the empty byte string to `None`. -/
def serializeBytesField : Option Bytes → Option (List Char)
  | some b => if b = [] then none else some (bytesToHex b)
  | none => none

/-- `LogEntry.serialize` from `wal.py` (the `data` dict it builds). -/
def LogEntry.serialize (e : LogEntry) : SerRec :=
  { type := e.entry_type.value
    txn_id := e.txn_id
    table := e.table
    key := serializeBytesField e.key
    value := serializeBytesField e.value
    old_value := serializeBytesField e.old_value
    lsn := e.lsn
    timestamp := e.timestamp }

/-- `bytes.fromhex(obj['key']) if obj.get('key') else None`: truthiness
sends `None` and `""` to `None`; malformed hex raises (outer `none`). -/
def deserializeBytesField : Option (List Char) → Option (Option Bytes)
  | some h => if h = [] then some none else (hexToBytes h).map some
  | none => some none

/-- `LogEntry.deserialize` from `wal.py`; fails (`none`) where Python
raises (unknown type string, malformed hex). -/
def LogEntry.deserialize (r : SerRec) : Option LogEntry := do
  let et ← LogEntryType.ofValue r.type
  let k ← deserializeBytesField r.key
  let v ← deserializeBytesField r.value
  let ov ← deserializeBytesField r.old_value
  pure { entry_type := et
         txn_id := r.txn_id
         table := r.table
         key := k
         value := v
         old_value := ov
         lsn := r.lsn
         timestamp := r.timestamp }

/-! ### Recovery (`WriteAheadLog.recover`) -/

/-- The recovery `storage` dict: Python dict keys are the entries'
(possibly `None`) keys, values the entries' (possibly `None`) values. -/
abbrev Storage := Option Bytes → Option (Option Bytes)

def emptyStorage : Storage := fun _ => none

def storeSet (st : Storage) (k : Option Bytes) (v : Option Bytes) : Storage :=
  fun k' => if k' = k then some v else st k'

def storeDel (st : Storage) (k : Option Bytes) : Storage :=
  fun k' => if k' = k then none else st k'

/-- One REDO step: `storage[key] = value` for INSERT/UPDATE, delete the
key for DELETE (the code's membership test before `del` is
equivalent), skip other entry types. -/
def redoEntry (st : Storage) (e : LogEntry) : Storage :=
  match e.entry_type with
  | .INSERT => storeSet st e.key e.value
  | .UPDATE => storeSet st e.key e.value
  | .DELETE => storeDel st e.key
  | _ => st

def redoList (st : Storage) (es : List LogEntry) : Storage :=
  es.foldl redoEntry st

/-- One UNDO step: restore `old_value` where present, else delete the
key if the entry was an INSERT; only mutation entry types act. -/
def undoEntry (st : Storage) (e : LogEntry) : Storage :=
  if e.entry_type = .INSERT ∨ e.entry_type = .UPDATE ∨ e.entry_type = .DELETE then
    match e.old_value with
    | some ov => storeSet st e.key (some ov)
    | none => if e.entry_type = .INSERT then storeDel st e.key else st
  else st

/-- UNDO processes a transaction's entries in reverse log order. -/
def undoList (st : Storage) (es : List LogEntry) : Storage :=
  es.reverse.foldl undoEntry st

/-- Append an entry to its transaction's group
(`transactions[e.txn_id].append(e)`), creating the group on first
occurrence, as a Python dict does. -/
def groupAdd (g : List (Nat × List LogEntry)) (e : LogEntry) :
    List (Nat × List LogEntry) :=
  if g.any (fun p => p.1 == e.txn_id) then
    g.map (fun p => if p.1 == e.txn_id then (p.1, p.2 ++ [e]) else p)
  else g ++ [(e.txn_id, [e])]

def groupByTxn (es : List LogEntry) : List (Nat × List LogEntry) :=
  es.foldl groupAdd []

/-- `transactions[t]` (always present for a tracked transaction). -/
def groupGet (g : List (Nat × List LogEntry)) (t : Nat) : List LogEntry :=
  (((g.find? (fun p => p.1 == t)).map (fun p => p.2)).getD [])

/-- The ids holding a COMMIT entry in the scanned range (the
`committed_txns` set; membership only). -/
def committedIds (es : List LogEntry) : List Nat :=
  ((es.filter (fun e => e.entry_type == .COMMIT)).map (fun e => e.txn_id)).dedup

/-- Iteration order of the `committed_txns` set of small ints: CPython
iterates a set of small naturals in hash-slot order, which for ids below
the table size is ascending id order. -/
def committedSorted (es : List LogEntry) : List Nat :=
  (committedIds es).insertionSort (fun a b => a ≤ b)

/-- The entries of the scanned range whose lsn is at least the last
checkpoint lsn (entries in the log file always carry an lsn). -/
def scannedEntries (cp : Nat) (log : List LogEntry) : List LogEntry :=
  log.filter (fun e => decide (cp ≤ e.lsn.getD 0))

/-- `WriteAheadLog.recover` from `wal.py`: group the scanned entries by
transaction, REDO every committed transaction (set-iteration order over
the committed ids, each transaction's entries in log order), then UNDO
every uncommitted transaction (skipping the checkpoint
pseudo-transaction 0) in reverse log order. -/
def recover (cp : Nat) (log : List LogEntry) (storage : Storage) : Storage :=
  let scanned := scannedEntries cp log
  let transactions := groupByTxn scanned
  let committed := committedIds scanned
  let st1 := (committedSorted scanned).foldl
    (fun st t => redoList st (groupGet transactions t)) storage
  transactions.foldl
    (fun st p => if p.1 ∈ committed ∨ p.1 = 0 then st else undoList st p.2) st1

/-- Reference order for the REDO phase as the code performs it:
committed transactions in ascending id order, each transaction's
entries in log order, flattened into one sequence. -/
def perTxnSeq (es : List LogEntry) : List LogEntry :=
  (committedSorted es).flatMap (fun t => es.filter (fun e => e.txn_id == t))

/-- A log with two committed transactions whose INSERTs to key `[2]`
interleave (the later log entry belongs to the smaller id), plus an
uncommitted UPDATE carrying an `old_value`. -/
def interleavedLog : List LogEntry :=
  [⟨.BEGIN, 1, none, none, none, none, some 0, 0⟩,
   ⟨.INSERT, 1, none, some [1], some [10], none, some 1, 0⟩,
   ⟨.BEGIN, 2, none, none, none, none, some 2, 0⟩,
   ⟨.INSERT, 2, none, some [1], some [20], none, some 3, 0⟩,
   ⟨.INSERT, 2, none, some [2], some [21], none, some 4, 0⟩,
   ⟨.INSERT, 1, none, some [2], some [11], none, some 5, 0⟩,
   ⟨.COMMIT, 1, none, none, none, none, some 6, 0⟩,
   ⟨.COMMIT, 2, none, none, none, none, some 7, 0⟩,
   ⟨.BEGIN, 3, none, none, none, none, some 8, 0⟩,
   ⟨.UPDATE, 3, none, some [3], some [30], some [99], some 9, 0⟩]

/-- A fully committed single-transaction log. -/
def committedOnlyLog : List LogEntry :=
  [⟨.BEGIN, 1, none, none, none, none, some 0, 0⟩,
   ⟨.INSERT, 1, none, some [1], some [10], none, some 1, 0⟩,
   ⟨.COMMIT, 1, none, none, none, none, some 2, 0⟩]

end Wal

namespace BPool

/-! ### `BufferPool` from `buffer_pool.py` -/

abbrev PageData := List Nat

/-- The simulated `disk_storage` dict. -/
abbrev Disk := Nat → Option PageData

/-- `BufferPool` state.  `cache` models the `OrderedDict`: head is the
least recently used page, tail the most recently used. -/
structure BufferPool where
  capacity : Nat
  page_size : Nat
  cache : List (Nat × PageData)
  dirty_pages : List Nat
  hits : Nat
  misses : Nat
  evictions : Nat
  disk_reads : Nat
  disk_writes : Nat
deriving Repr

/-- `BufferPool.__init__`. -/
def init (capacity_mb page_size : Nat) : BufferPool :=
  { capacity := capacity_mb * 1024 * 1024 / page_size
    page_size := page_size
    cache := []
    dirty_pages := []
    hits := 0, misses := 0, evictions := 0, disk_reads := 0, disk_writes := 0 }

/-- `page_id in self.cache` / `self.cache[page_id]`. -/
def cacheGet (c : List (Nat × PageData)) (id : Nat) : Option PageData :=
  (c.find? (fun p => p.1 == id)).map (fun p => p.2)

/-- `OrderedDict.move_to_end`: the entry keeps its data and becomes
most recently used. -/
def moveToEnd (c : List (Nat × PageData)) (id : Nat) : List (Nat × PageData) :=
  match cacheGet c id with
  | none => c
  | some d => (c.filter (fun p => p.1 != id)) ++ [(id, d)]

/-- `_disk_read`: missing pages read as zero-filled. -/
def _disk_read (bp : BufferPool) (disk : Disk) (id : Nat) : PageData :=
  (disk id).getD (List.replicate bp.page_size 0)

/-- `_disk_write`: store the page and count the write. -/
def _disk_write (bp : BufferPool) (disk : Disk) (id : Nat) (data : PageData) :
    BufferPool × Disk :=
  ({ bp with disk_writes := bp.disk_writes + 1 },
   fun i => if i = id then some data else disk i)

/-- `_evict_lru_page`: pop the least recently used page and write it
through when dirty.  (On an empty cache CPython would raise `KeyError`;
that point is unreachable while the capacity is positive.) -/
def _evict_lru_page (bp : BufferPool) (disk : Disk) : BufferPool × Disk :=
  match bp.cache with
  | [] => (bp, disk)
  | (vid, vdata) :: rest =>
    let bp := { bp with cache := rest, evictions := bp.evictions + 1 }
    if vid ∈ bp.dirty_pages then
      let (bp, disk) := _disk_write bp disk vid vdata
      ({ bp with dirty_pages := bp.dirty_pages.filter (fun i => i != vid) }, disk)
    else (bp, disk)

/-- `get_page`: cache hit counts a hit and touches the LRU order; a miss
reads through, evicts the LRU page when at capacity, and inserts the
page as most recently used. -/
def get_page (bp : BufferPool) (disk : Disk) (id : Nat) :
    BufferPool × Disk × PageData :=
  match cacheGet bp.cache id with
  | some data =>
    ({ bp with hits := bp.hits + 1, cache := moveToEnd bp.cache id }, disk, data)
  | none =>
    let bp := { bp with misses := bp.misses + 1, disk_reads := bp.disk_reads + 1 }
    let data := _disk_read bp disk id
    let (bp, disk) :=
      if bp.capacity ≤ bp.cache.length then _evict_lru_page bp disk else (bp, disk)
    ({ bp with cache := bp.cache ++ [(id, data)] }, disk, data)

/-- `put_page`: overwrite in cache, mark most recently used, mark dirty;
never writes through. -/
def put_page (bp : BufferPool) (id : Nat) (data : PageData) : BufferPool :=
  { bp with
    cache := (bp.cache.filter (fun p => p.1 != id)) ++ [(id, data)]
    dirty_pages := if id ∈ bp.dirty_pages then bp.dirty_pages else bp.dirty_pages ++ [id] }

/-- One iteration of the `flush_dirty_pages` loop: a dirty page still
in the cache is written through and dropped from the dirty set. -/
def flushStep (st : BufferPool × Disk) (id : Nat) : BufferPool × Disk :=
  match cacheGet st.1.cache id with
  | some data =>
    let (b, d) := _disk_write st.1 st.2 id data
    ({ b with dirty_pages := b.dirty_pages.filter (fun i => i != id) }, d)
  | none => st

/-- `flush_dirty_pages`: iterate over a snapshot (`list(...)`) of the
dirty set. -/
def flush_dirty_pages (bp : BufferPool) (disk : Disk) : BufferPool × Disk :=
  bp.dirty_pages.foldl flushStep (bp, disk)

/-- The operations a caller can issue against one pool and disk. -/
inductive BOp
  | getp (id : Nat)
  | putp (id : Nat) (data : PageData)
  | flush
deriving DecidableEq, Repr

def stepB (st : BufferPool × Disk) : BOp → BufferPool × Disk
  | .getp id => let (bp, disk, _) := get_page st.1 st.2 id; (bp, disk)
  | .putp id data => (put_page st.1 id data, st.2)
  | .flush => flush_dirty_pages st.1 st.2

def runB (st : BufferPool × Disk) (ops : List BOp) : BufferPool × Disk :=
  ops.foldl stepB st

/-- Number of `get_page` calls in a list of operations. -/
def countGets (ops : List BOp) : Nat :=
  (ops.filter (fun op => match op with | .getp _ => true | _ => false)).length

end BPool

namespace Lsm

/-! ### `LSMTree` from `episode6/lsm_tree.py`

The development is parameterised over `pyHash`, modelling Python's
builtin `hash` on byte strings (any function works for every proof
below; witnesses instantiate it concretely). -/

/-- The tombstone marker `b'__TOMBSTONE__'`. -/
def TOMBSTONE : Bytes := [95, 95, 84, 79, 77, 66, 83, 84, 79, 78, 69, 95, 95]

/-- Python dict assignment `d[k] = v`: update in place when the key
exists, else append (insertion order preserved). -/
def dictSet (d : List (Bytes × Bytes)) (k v : Bytes) : List (Bytes × Bytes) :=
  if d.any (fun p => p.1 == k) then
    d.map (fun p => if p.1 == k then (p.1, v) else p)
  else d ++ [(k, v)]

/-- Python `d.get(k)`. -/
def dictGet (d : List (Bytes × Bytes)) (k : Bytes) : Option Bytes :=
  (d.find? (fun p => p.1 == k)).map (fun p => p.2)

/-- `dict(pairs)`: later pairs override earlier ones for an equal key. -/
def dictOfPairs (pairs : List (Bytes × Bytes)) : List (Bytes × Bytes) :=
  pairs.foldl (fun d p => dictSet d p.1 p.2) []

/-- Lexicographic order on byte strings, as Python compares `bytes`. -/
def bytesLe (a b : Bytes) : Bool :=
  match a, b with
  | [], _ => true
  | _ :: _, [] => false
  | x :: xs, y :: ys => if x = y then bytesLe xs ys else x ≤ y

/-- `sorted(d.items())`: keys are distinct in a dict, so comparing by
key decides; Python's sort is stable, modelled by a stable insertion
sort. -/
def sortPairs (pairs : List (Bytes × Bytes)) : List (Bytes × Bytes) :=
  List.insertionSort (fun p q => bytesLe p.1 q.1 = true) pairs

/-- `MemTable` from `lsm_tree.py`. -/
structure MemTable where
  data : List (Bytes × Bytes)
  max_size : Nat
deriving Repr

def MemTable.put (m : MemTable) (k v : Bytes) : MemTable :=
  { m with data := dictSet m.data k v }

def MemTable.get (m : MemTable) (k : Bytes) : Option Bytes :=
  dictGet m.data k

def MemTable.is_full (m : MemTable) : Bool :=
  m.max_size ≤ m.data.length

/-- `SSTable`: `data = dict(sorted_items)`; its `keys` list is the key
projection of `data` (sorted at construction). -/
structure SSTable where
  data : List (Bytes × Bytes)
deriving Repr

def MemTable.to_sstable (m : MemTable) : SSTable :=
  ⟨dictOfPairs (sortPairs m.data)⟩

def SSTable.get (s : SSTable) (k : Bytes) : Option Bytes :=
  dictGet s.data k

/-- `BloomFilter` from `lsm_tree.py`. -/
structure BloomFilter where
  size : Nat
  bits : List Bool
deriving Repr

def BloomFilter.init (size : Nat) : BloomFilter :=
  ⟨size, List.replicate size false⟩

variable (pyHash : Bytes → Nat)

/-- `_hash_functions`: three probe indices modulo the filter size. -/
def hashFunctions (size : Nat) (key : Bytes) : List Nat :=
  [pyHash key % size, pyHash key.reverse % size, (pyHash key * 31) % size]

/-- `BloomFilter.add`: set the probe bits. -/
def BloomFilter.add (bf : BloomFilter) (key : Bytes) : BloomFilter :=
  { bf with
    bits := (hashFunctions pyHash bf.size key).foldl (fun bs i => bs.set i true) bf.bits }

/-- `BloomFilter.might_contain`: all probe bits set. -/
def BloomFilter.might_contain (bf : BloomFilter) (key : Bytes) : Bool :=
  (hashFunctions pyHash bf.size key).all (fun i => bf.bits.getD i false)

/-- `LSMTree` state. -/
structure LSMTree where
  memtable : MemTable
  sstables : List SSTable
  bloom_filters : List BloomFilter
  write_count : Nat
  read_count : Nat
deriving Repr

/-- `LSMTree.__init__(memtable_size)`. -/
def LSMTree.init (memtable_size : Nat) : LSMTree :=
  ⟨⟨[], memtable_size⟩, [], [], 0, 0⟩

/-- `_flush_memtable`: seal the memtable into an SSTable appended as
newest, build its bloom filter over the sorted keys, reset the
memtable. -/
def LSMTree.flushMemtable (s : LSMTree) : LSMTree :=
  let sstable := s.memtable.to_sstable
  let bloom := (sstable.data.map (fun p => p.1)).foldl
    (fun b k => b.add pyHash k) (BloomFilter.init (sstable.data.length * 10))
  { s with
    sstables := s.sstables ++ [sstable]
    bloom_filters := s.bloom_filters ++ [bloom]
    memtable := ⟨[], s.memtable.max_size⟩ }

/-- `put`: write to the memtable, count the write, flush when full. -/
def LSMTree.put (s : LSMTree) (k v : Bytes) : LSMTree :=
  let s := { s with memtable := s.memtable.put k v, write_count := s.write_count + 1 }
  if s.memtable.is_full then s.flushMemtable pyHash else s

/-- The SSTable scan of `get`: newest to oldest, each table consulted
only when its bloom filter does not rule the key out. -/
def scanTables (k : Bytes) : List (SSTable × BloomFilter) → Option Bytes
  | [] => none
  | (sstable, bloom) :: rest =>
    if bloom.might_contain pyHash k then
      match sstable.get k with
      | some v => some v
      | none => scanTables k rest
    else scanTables k rest

/-- The value `get` returns: memtable first, then the SSTables newest
first. -/
def LSMTree.getValue (s : LSMTree) (k : Bytes) : Option Bytes :=
  match s.memtable.get k with
  | some v => some v
  | none => scanTables pyHash k (s.sstables.reverse.zip s.bloom_filters.reverse)

/-- `get`: counts the read and returns the visible value. -/
def LSMTree.get (s : LSMTree) (k : Bytes) : LSMTree × Option Bytes :=
  ({ s with read_count := s.read_count + 1 }, s.getValue pyHash k)

/-- `delete`: write the tombstone marker into the memtable (no write
count, no flush check). -/
def LSMTree.delete (s : LSMTree) (k : Bytes) : LSMTree :=
  { s with memtable := s.memtable.put k TOMBSTONE }

/-- The merge loop of `compact`: SSTables newest first; a pair is kept
when its key was not seen yet and its value is not the tombstone. -/
def mergeData (sstables : List SSTable) : List (Bytes × Bytes) :=
  sstables.reverse.foldl
    (fun md sstable =>
      sstable.data.foldl
        (fun md p =>
          if md.any (fun q => q.1 == p.1) || p.2 == TOMBSTONE then md
          else md ++ [(p.1, p.2)])
        md)
    []

/-- `compact`: no-op below two SSTables; otherwise replace the whole
SSTable list with one merged SSTable plus a rebuilt bloom filter. -/
def LSMTree.compact (s : LSMTree) : LSMTree :=
  if s.sstables.length < 2 then s
  else
    let items := sortPairs (mergeData s.sstables)
    let sstable : SSTable := ⟨dictOfPairs items⟩
    let bloom := items.foldl (fun b p => b.add pyHash p.1)
      (BloomFilter.init (items.length * 10))
    { s with sstables := [sstable], bloom_filters := [bloom] }

end Lsm

namespace TM

/-! ### `TransactionManager` from `episode8/transaction_manager.py`

Sequential trace semantics: operations execute atomically in order.
`time.time()` is modelled by a logical clock sampled (and advanced) at
each call site — at `Transaction.__init__` and at the version append in
`write`.  A lock request that is incompatible with another holder never
succeeds in a sequential trace (`_would_deadlock` always answers no and
the wait loops); such a step is reported as `blocked` and leaves the
state unchanged. -/

inductive IsolationLevel
  | READ_UNCOMMITTED | READ_COMMITTED | REPEATABLE_READ | SERIALIZABLE
deriving DecidableEq, Repr

inductive LockType
  | SHARED | EXCLUSIVE
deriving DecidableEq, Repr

inductive TxnState
  | ACTIVE | COMMITTED | ABORTED
deriving DecidableEq, Repr

/-- `Transaction` record. -/
structure Transaction where
  txn_id : Nat
  isolation_level : IsolationLevel
  start_time : Nat
  locks_held : List (Bytes × LockType)
  undo_log : List (Bytes × Option Bytes)
  read_set : List Bytes
  write_set : List Bytes
  state : TxnState
deriving DecidableEq, Repr

/-- A fresh transaction record (`Transaction.__init__`). -/
def Transaction.new (id : Nat) (iso : IsolationLevel) (now : Nat) : Transaction :=
  ⟨id, iso, now, [], [], [], [], .ACTIVE⟩

/-- Manager state.  `active_transactions` is the dict in insertion
order; `lock_table` and `versions` are the defaultdicts. -/
structure TMState where
  next_txn_id : Nat
  active_transactions : List (Nat × Transaction)
  lock_table : Bytes → List (Nat × LockType)
  versions : Bytes → List (Nat × Bytes × Nat)
  clock : Nat

def tmInit : TMState :=
  ⟨1, [], fun _ => [], fun _ => [], 0⟩

/-- `self.active_transactions[txn_id]` as a lookup. -/
def lookupTxn (l : List (Nat × Transaction)) (t : Nat) : Option Transaction :=
  (l.find? (fun p => p.1 == t)).map (fun p => p.2)

/-- Mutate the record of one registered transaction. -/
def updateTxn (l : List (Nat × Transaction)) (t : Nat) (f : Transaction → Transaction) :
    List (Nat × Transaction) :=
  l.map (fun p => if p.1 == t then (p.1, f p.2) else p)

/-- Set insertion (`set.add`): no duplicates. -/
def setInsert {α : Type} [DecidableEq α] (l : List α) (a : α) : List α :=
  if a ∈ l then l else l ++ [a]

/-- `_acquire_lock`: grant when every other holder is compatible
(SHARED/SHARED only); otherwise the requester waits forever in a
sequential trace (`none`). -/
def acquireLock (s : TMState) (txn_id : Nat) (k : Bytes) (lt : LockType) :
    Option TMState :=
  let holders := s.lock_table k
  let can := holders.all
    (fun h => h.1 == txn_id || !(lt == .EXCLUSIVE || h.2 == .EXCLUSIVE))
  if can then
    some { s with
      lock_table := fun k' =>
        if k' = k then setInsert (s.lock_table k) (txn_id, lt) else s.lock_table k'
      active_transactions := updateTxn s.active_transactions txn_id
        (fun txn => { txn with locks_held := setInsert txn.locks_held (k, lt) }) }
  else none

/-- `_release_all_locks`: discard every `(txn_id, lt)` pair recorded in
the transaction's `locks_held`. -/
def releaseAllLocks (s : TMState) (txn_id : Nat) : TMState :=
  match lookupTxn s.active_transactions txn_id with
  | none => s
  | some txn =>
    { s with
      lock_table := fun k =>
        (s.lock_table k).filter
          (fun h => !(h.1 == txn_id && decide ((k, h.2) ∈ txn.locks_held))) }

/-- `_is_visible`. -/
def isVisible (s : TMState) (txn : Transaction) (version_txn_id : Nat)
    (version_timestamp : Nat) : Bool :=
  if txn.isolation_level == .READ_UNCOMMITTED then true
  else
    let early : Option Bool :=
      match lookupTxn s.active_transactions version_txn_id with
      | some vt =>
        if vt.state != .COMMITTED then some (version_txn_id == txn.txn_id) else none
      | none => none
    match early with
    | some b => b
    | none =>
      if txn.isolation_level == .READ_COMMITTED then true
      else if txn.isolation_level == .REPEATABLE_READ
          || txn.isolation_level == .SERIALIZABLE then
        decide (version_timestamp ≤ txn.start_time)
      else false

/-- Result of one operation. -/
inductive Res
  | newTxn (id : Nat)
  | value (v : Option Bytes)
  | done
  | keyErr
  | blocked
  | serializationFailure
deriving DecidableEq, Repr

/-- `begin`: register a fresh ACTIVE transaction, sampling the clock
for its start time. -/
def beginOp (s : TMState) (iso : IsolationLevel) : TMState × Res :=
  let id := s.next_txn_id
  ({ s with
     next_txn_id := id + 1
     active_transactions :=
       s.active_transactions ++ [(id, Transaction.new id iso s.clock)]
     clock := s.clock + 1 }, .newTxn id)

/-- `read`: under SERIALIZABLE first take a SHARED lock; record the key
in the read set; return the newest visible version's value. -/
def readOp (s : TMState) (txn_id : Nat) (k : Bytes) : TMState × Res :=
  match lookupTxn s.active_transactions txn_id with
  | none => (s, .keyErr)
  | some txn =>
    let locked : Option TMState :=
      if txn.isolation_level == .SERIALIZABLE then acquireLock s txn_id k .SHARED
      else some s
    match locked with
    | none => (s, .blocked)
    | some s1 =>
      let s2 := { s1 with
        active_transactions := updateTxn s1.active_transactions txn_id
          (fun t => { t with read_set := setInsert t.read_set k }) }
      let found := (s2.versions k).reverse.find?
        (fun e => isVisible s2 txn e.1 e.2.2)
      (s2, .value (found.map (fun e => e.2.1)))

/-- `write`: take the EXCLUSIVE lock, record the pre-write visible
value in the undo log (via `read`, which also touches the read set),
append an uncommitted version stamped with the clock, record the key in
the write set. -/
def writeOp (s : TMState) (txn_id : Nat) (k v : Bytes) : TMState × Res :=
  match lookupTxn s.active_transactions txn_id with
  | none => (s, .keyErr)
  | some _ =>
    match acquireLock s txn_id k .EXCLUSIVE with
    | none => (s, .blocked)
    | some s1 =>
      match readOp s1 txn_id k with
      | (s2, .value old) =>
        let s3 := { s2 with
          active_transactions := updateTxn s2.active_transactions txn_id
            (fun t => { t with undo_log := t.undo_log ++ [(k, old)] }) }
        let s4 := { s3 with
          versions := fun k' =>
            if k' = k then s3.versions k ++ [(txn_id, v, s3.clock)] else s3.versions k'
          clock := s3.clock + 1
          active_transactions := updateTxn s3.active_transactions txn_id
            (fun t => { t with write_set := setInsert t.write_set k }) }
        (s4, .done)
      | (s2, r) => (s2, r)

/-- `_validate_serializable`: reject when any other registered
transaction wrote a key of this transaction's write set and has an
earlier start time. -/
def validateSerializable (s : TMState) (txn : Transaction) : Bool :=
  !(txn.write_set.any (fun k =>
    s.active_transactions.any (fun p =>
      p.1 != txn.txn_id && decide (k ∈ p.2.write_set)
        && decide (p.2.start_time < txn.start_time))))

/-- `abort`: strip this transaction's uncommitted versions from every
key of the undo log (in reverse), mark ABORTED, release all locks,
deregister. -/
def abortOp (s : TMState) (txn_id : Nat) : TMState × Res :=
  match lookupTxn s.active_transactions txn_id with
  | none => (s, .keyErr)
  | some txn =>
    let s1 := txn.undo_log.reverse.foldl
      (fun st p =>
        { st with
          versions := fun k' =>
            if k' = p.1 then (st.versions p.1).filter (fun e => e.1 != txn_id)
            else st.versions k' })
      s
    let s2 := { s1 with
      active_transactions := updateTxn s1.active_transactions txn_id
        (fun t => { t with state := .ABORTED }) }
    let s3 := releaseAllLocks s2 txn_id
    ({ s3 with
       active_transactions := s3.active_transactions.filter (fun p => p.1 != txn_id) },
     .done)

/-- `commit`: SERIALIZABLE validation first — on failure the
transaction is aborted and the failure signalled; otherwise mark
COMMITTED, release all locks, deregister. -/
def commitOp (s : TMState) (txn_id : Nat) : TMState × Res :=
  match lookupTxn s.active_transactions txn_id with
  | none => (s, .keyErr)
  | some txn =>
    if txn.isolation_level == .SERIALIZABLE && !(validateSerializable s txn) then
      ((abortOp s txn_id).1, .serializationFailure)
    else
      let s1 := { s with
        active_transactions := updateTxn s.active_transactions txn_id
          (fun t => { t with state := .COMMITTED }) }
      let s2 := releaseAllLocks s1 txn_id
      ({ s2 with
         active_transactions := s2.active_transactions.filter (fun p => p.1 != txn_id) },
       .done)

/-- Caller operations. -/
inductive Op
  | beginTxn (iso : IsolationLevel)
  | readK (t : Nat) (k : Bytes)
  | writeK (t : Nat) (k v : Bytes)
  | commitT (t : Nat)
  | abortT (t : Nat)
deriving DecidableEq, Repr

def step (s : TMState) : Op → TMState × Res
  | .beginTxn iso => beginOp s iso
  | .readK t k => readOp s t k
  | .writeK t k v => writeOp s t k v
  | .commitT t => commitOp s t
  | .abortT t => abortOp s t

def run (s : TMState) (ops : List Op) : TMState :=
  ops.foldl (fun s op => (step s op).1) s

/-- The results of a whole trace, in order. -/
def runOuts (s : TMState) (ops : List Op) : List Res :=
  (ops.foldl (fun (acc : TMState × List Res) op =>
    let (s', r) := step acc.1 op
    (s', acc.2 ++ [r])) (s, [])).2

/-- State invariant maintained by every trace from `tmInit`:
registered transaction records carry their own id, all registered ids
and all version owners are below `next_txn_id`, every key holding a
version owned by a registered transaction appears in that
transaction's undo log, and every lock-table entry is recorded in its
owner's `locks_held`. -/
def INVtm (s : TMState) : Prop :=
  (∀ p ∈ s.active_transactions, p.2.txn_id = p.1) ∧
  (∀ p ∈ s.active_transactions, p.1 < s.next_txn_id) ∧
  (∀ k e, e ∈ s.versions k → e.1 < s.next_txn_id) ∧
  (∀ p ∈ s.active_transactions, ∀ k e, e ∈ s.versions k → e.1 = p.1 →
    ∃ o, (k, o) ∈ p.2.undo_log) ∧
  (∀ k h, h ∈ s.lock_table k →
    ∃ txn, lookupTxn s.active_transactions h.1 = some txn ∧ (k, h.2) ∈ txn.locks_held)

/-- Key `k` holds a version owned by `T`. -/
def Pver (s : TMState) (k : Bytes) (T : Nat) : Prop :=
  ∃ e ∈ s.versions k, e.1 = T

/-- Walk predicate for the commit half of C1: `T` is below the id
counter and either its version at `k` survives or `T` is deregistered. -/
def Wkeep (s : TMState) (k : Bytes) (T : Nat) : Prop :=
  T < s.next_txn_id ∧
    (Pver s k T ∨ lookupTxn s.active_transactions T = none)

/-- Walk predicate for the abort half of C1: no version anywhere is
owned by `T`, `T` is deregistered, and `T` is below the id counter. -/
def Gone (s : TMState) (T : Nat) : Prop :=
  (∀ k e, e ∈ s.versions k → e.1 ≠ T) ∧
  lookupTxn s.active_transactions T = none ∧
  T < s.next_txn_id

end TM

namespace BT

/-! ### `BTree` from `episode5/btree.py`

Keys are Python ints; values are modelled as ints as well (their type
never matters to the algorithm). -/

inductive BTreeNode where
  | node (keys : List Int) (values : List Int) (children : List BTreeNode)
      (is_leaf : Bool)
deriving Repr

def BTreeNode.keys : BTreeNode → List Int
  | .node ks _ _ _ => ks

def BTreeNode.values : BTreeNode → List Int
  | .node _ vs _ _ => vs

def BTreeNode.children : BTreeNode → List BTreeNode
  | .node _ _ cs _ => cs

def BTreeNode.leaf : BTreeNode → Bool
  | .node _ _ _ l => l

mutual

def BTreeNode.height : BTreeNode → Nat
  | .node _ _ cs _ => 1 + heightList cs

def heightList : List BTreeNode → Nat
  | [] => 0
  | c :: cs => max c.height (heightList cs)

end

/-- `is_full`: `len(keys) >= order - 1`. -/
def BTreeNode.is_full (n : BTreeNode) (order : Nat) : Bool :=
  order - 1 ≤ n.keys.length

/-- The descent index computed by the `while i >= 0 and key < keys[i]`
loops: the number of keys that are not greater than `key` when scanning
from the right. -/
def childIndex (keys : List Int) (key : Int) : Nat :=
  keys.length - (keys.reverse.takeWhile (fun kk => key < kk)).length

/-- Leaf insertion: shift greater keys right and place the key (the
parallel `values` list shifts identically). -/
def leafIns (n : BTreeNode) (key value : Int) : BTreeNode :=
  let i := childIndex n.keys key
  .node (n.keys.insertIdx i key) (n.values.insertIdx i value) n.children n.leaf

/-- The two halves and promoted median of `_split_child`'s child:
`mid = len(keys) // 2`; the left half keeps `keys[:mid]` and (when
internal) `children[:mid+1]`, the right half gets `keys[mid+1:]` and
(when internal) `children[mid+1:]`. -/
def splitChildNode (child : BTreeNode) : BTreeNode × (Int × Int) × BTreeNode :=
  let mid := child.keys.length / 2
  let left : BTreeNode := .node (child.keys.take mid) (child.values.take mid)
    (if child.leaf then child.children else child.children.take (mid + 1)) child.leaf
  let right : BTreeNode := .node (child.keys.drop (mid + 1)) (child.values.drop (mid + 1))
    (if child.leaf then [] else child.children.drop (mid + 1)) child.leaf
  (left, (child.keys.getD mid 0, child.values.getD mid 0), right)

/-- `_split_child parent index`: promote the median into the parent at
`index` and replace the child with its two halves. -/
def splitChild (parent : BTreeNode) (index : Nat) : BTreeNode :=
  match parent.children.get? index with
  | none => parent
  | some child =>
    let (l, m, r) := splitChildNode child
    .node (parent.keys.insertIdx index m.1) (parent.values.insertIdx index m.2)
      ((parent.children.set index l).insertIdx (index + 1) r) parent.leaf

/-- Replace child `i` of a node (the functional form of Python's
in-place recursion into `node.children[i]`). -/
def setChildAt (n : BTreeNode) (i : Nat) (c : BTreeNode) : BTreeNode :=
  .node n.keys n.values (n.children.set i c) n.leaf

theorem height_le_heightList {c : BTreeNode} {cs : List BTreeNode} (h : c ∈ cs) :
    c.height ≤ heightList cs := by
  induction cs with
  | nil => cases h
  | cons d cs ih =>
    rw [heightList]
    rcases List.mem_cons.mp h with rfl | h'
    · exact Nat.le_max_left _ _
    · exact le_trans (ih h') (Nat.le_max_right _ _)

theorem heightList_le_of_subset {cs cs' : List BTreeNode}
    (h : ∀ c ∈ cs', c ∈ cs) : heightList cs' ≤ heightList cs := by
  induction cs' with
  | nil => exact Nat.zero_le _
  | cons d cs' ih =>
    rw [heightList]
    exact max_le (height_le_heightList (h d (List.mem_cons_self d cs')))
      (ih fun c hc => h c (List.mem_cons_of_mem d hc))

theorem height_lt_of_mem {c n : BTreeNode} (h : c ∈ n.children) :
    c.height < n.height := by
  obtain ⟨ks, vs, cs, leaf⟩ := n
  simp only [BTreeNode.children] at h
  calc c.height ≤ heightList cs := height_le_heightList h
    _ < 1 + heightList cs := by omega
    _ = BTreeNode.height (.node ks vs cs leaf) := by rw [BTreeNode.height]

theorem mem_insertIdx_cases {α : Type} {a b : α} {n : Nat} {l : List α}
    (h : a ∈ l.insertIdx n b) : a = b ∨ a ∈ l := by
  by_cases hn : n ≤ l.length
  · exact (List.mem_insertIdx hn).mp h
  · rw [List.insertIdx_of_length_lt _ _ _ (by omega)] at h
    exact Or.inr h

theorem splitChildNode_left_height_le (child : BTreeNode) :
    (splitChildNode child).1.height ≤ child.height := by
  obtain ⟨ks, vs, cs, leaf⟩ := child
  simp only [splitChildNode, BTreeNode.keys, BTreeNode.values, BTreeNode.children,
    BTreeNode.leaf, BTreeNode.height]
  have : heightList (if leaf = true then cs else cs.take (ks.length / 2 + 1)) ≤
      heightList cs := by
    split
    · exact le_refl _
    · exact heightList_le_of_subset fun c hc => List.mem_of_mem_take hc
  omega

theorem splitChildNode_right_height_le (child : BTreeNode) :
    (splitChildNode child).2.2.height ≤ child.height := by
  obtain ⟨ks, vs, cs, leaf⟩ := child
  simp only [splitChildNode, BTreeNode.keys, BTreeNode.values, BTreeNode.children,
    BTreeNode.leaf, BTreeNode.height]
  have : heightList (if leaf = true then [] else cs.drop (ks.length / 2 + 1)) ≤
      heightList cs := by
    split
    · exact Nat.zero_le _
    · exact heightList_le_of_subset fun c hc => List.mem_of_mem_drop hc
  omega

theorem height_lt_of_mem_splitChild {n c' : BTreeNode} {i : Nat}
    (hmem : c' ∈ (splitChild n i).children) : c'.height < n.height := by
  rw [splitChild] at hmem
  match hidx : n.children.get? i with
  | none => rw [hidx] at hmem; exact height_lt_of_mem hmem
  | some child =>
    rw [hidx] at hmem
    have hchild : child ∈ n.children := List.get?_mem hidx
    simp only [BTreeNode.children] at hmem
    rcases mem_insertIdx_cases hmem with rfl | hmem'
    · exact lt_of_le_of_lt (splitChildNode_right_height_le child) (height_lt_of_mem hchild)
    · rcases List.mem_or_eq_of_mem_set hmem' with hmem'' | rfl
      · exact height_lt_of_mem hmem''
      · exact lt_of_le_of_lt (splitChildNode_left_height_le child) (height_lt_of_mem hchild)

/-- `_insert_non_full`: insert directly into a leaf; in an internal
node pick the child, split it first when full (stepping right past the
promoted median when the key is greater), then recurse. -/
def insertNonFull (order : Nat) (n : BTreeNode) (key value : Int) : BTreeNode :=
  if n.leaf = true then leafIns n key value
  else
    let i := childIndex n.keys key
    match hc : n.children.get? i with
    | none => n
    | some c =>
      if c.is_full order then
        let p := splitChild n i
        let j := if p.keys.getD i 0 < key then i + 1 else i
        match hp : p.children.get? j with
        | none => p
        | some c' => setChildAt p j (insertNonFull order c' key value)
      else
        setChildAt n i (insertNonFull order c key value)
termination_by n.height
decreasing_by
  · exact height_lt_of_mem_splitChild (List.get?_mem hp)
  · exact height_lt_of_mem (List.get?_mem hc)

def insertNonFullF : Nat → Nat → BTreeNode → Int → Int → BTreeNode
  | 0, _, n, _, _ => n
  | fuel + 1, order, n, key, value =>
    if n.leaf = true then leafIns n key value
    else
      let i := childIndex n.keys key
      match n.children.get? i with
      | none => n
      | some c =>
        if c.is_full order then
          let p := splitChild n i
          let j := if p.keys.getD i 0 < key then i + 1 else i
          match p.children.get? j with
          | none => p
          | some c' => setChildAt p j (insertNonFullF fuel order c' key value)
        else
          setChildAt n i (insertNonFullF fuel order c key value)

structure BTree where
  root : BTreeNode
  order : Nat
  size : Nat
deriving Repr

/-- `BTree.__init__(order)`. -/
def BTree.new (order : Nat) : BTree :=
  ⟨.node [] [] [] true, order, 0⟩

/-- `insert`: split a full root under a fresh internal root first, then
insert into the (now non-full) root. -/
def BTree.insert (t : BTree) (key value : Int) : BTree :=
  let t :=
    if t.root.is_full t.order then
      { t with root := splitChild (.node [] [] [t.root] false) 0 }
    else t
  { t with root := insertNonFull t.order t.root key value, size := t.size + 1 }

/-- Build a tree from a list of (key, value) inserts. -/
def buildTree (order : Nat) (ops : List (Int × Int)) : BTree :=
  ops.foldl (fun t p => t.insert p.1 p.2) (BTree.new order)

/-- `insert` with the recursion depth made explicit (it is bounded by
the root height, so the two agree). -/
def BTree.insertF (t : BTree) (key value : Int) : BTree :=
  let t :=
    if t.root.is_full t.order then
      { t with root := splitChild (.node [] [] [t.root] false) 0 }
    else t
  { t with
    root := insertNonFullF t.root.height t.order t.root key value
    size := t.size + 1 }

def buildTreeF (order : Nat) (ops : List (Int × Int)) : BTree :=
  ops.foldl (fun t p => t.insertF p.1 p.2) (BTree.new order)

/-- All nodes of a tree are at equal leaf depth `d`. -/
def EqDepth : Nat → BTreeNode → Prop
  | 0, n => n.leaf = true
  | d + 1, n => n.leaf = false ∧ ∀ c ∈ n.children, EqDepth d c

/-- Structural validity for order `M`: every node holds at most `M-1`
keys, every non-root node at least `M/2 - 1` keys (the bound the code's
split actually maintains), `values` parallels `keys`, leaves have no
children, internal nodes have one more child than keys. -/
inductive Valid (M : Nat) : Bool → BTreeNode → Prop
  | mk {ks : List Int} {vs : List Int} {cs : List BTreeNode} {leaf : Bool}
      {root : Bool} :
      ks.length ≤ M - 1 →
      (root = false → M / 2 - 1 ≤ ks.length) →
      vs.length = ks.length →
      (leaf = true → cs = []) →
      (leaf = false → cs.length = ks.length + 1) →
      (∀ c ∈ cs, Valid M false c) →
      Valid M root (.node ks vs cs leaf)

end BT

/-! ## Theorems -/

/-! ### C8: WAL `LogEntry` round-trip -/

theorem hexCharVal_hexDigitChar : ∀ n < 16, hexCharVal (hexDigitChar n) = some n := by
  decide

theorem hexToBytes_bytesToHex :
    ∀ bs : Bytes, (∀ b ∈ bs, b < 256) → hexToBytes (bytesToHex bs) = some bs := by
  intro bs h
  induction bs with
  | nil => rfl
  | cons b bs ih =>
    have hb : b < 256 := h b (List.mem_cons_self _ _)
    have h1 : hexCharVal (hexDigitChar (b / 16)) = some (b / 16) :=
      hexCharVal_hexDigitChar _ (by omega)
    have h2 : hexCharVal (hexDigitChar (b % 16)) = some (b % 16) :=
      hexCharVal_hexDigitChar _ (by omega)
    have h3 := ih fun x hx => h x (List.mem_cons_of_mem _ hx)
    have hsplit : bytesToHex (b :: bs) =
        hexDigitChar (b / 16) :: hexDigitChar (b % 16) :: bytesToHex bs := by
      simp [bytesToHex]
    rw [hsplit, hexToBytes, h1, h2, h3]
    have : 16 * (b / 16) + b % 16 = b := by omega
    simp [this]

theorem bytesToHex_ne_nil {bs : Bytes} (h : bs ≠ []) : bytesToHex bs ≠ [] := by
  cases bs with
  | nil => exact absurd rfl h
  | cons b tl => simp [bytesToHex]

theorem deserialize_serialize_field {ob : Option Bytes} (hne : ob ≠ some [])
    (hv : ∀ b ∈ ob.getD [], b < 256) :
    Wal.deserializeBytesField (Wal.serializeBytesField ob) = some ob := by
  cases ob with
  | none => rfl
  | some b =>
    have hb : b ≠ [] := fun hnil => hne (by rw [hnil])
    rw [Wal.serializeBytesField]
    simp only [hb, if_false]
    rw [Wal.deserializeBytesField]
    simp only [bytesToHex_ne_nil hb, if_false]
    rw [hexToBytes_bytesToHex b hv]
    rfl

theorem ofValue_value (t : Wal.LogEntryType) :
    Wal.LogEntryType.ofValue t.value = some t := by
  cases t <;> rfl

/-- C8 (counterexample): the round-trip claim fails for an entry whose
`key` is the empty byte string — Python truthiness serialises `b''` as
`null`, and it deserialises back as `None`, not `b''`. -/
theorem claim_C8_counterexample :
    Wal.LogEntry.deserialize (Wal.LogEntry.serialize
      ⟨.INSERT, 1, none, some [], none, none, some 0, 0⟩) ≠
      some ⟨.INSERT, 1, none, some [], none, none, some 0, 0⟩ := by
  decide

/-- C8 (amended): `deserialize(serialize(e))` reconstructs `e` field
for field for every `LogEntry` whose `key`, `value` and `old_value` are
not the empty byte string (they may be absent); empty byte strings come
back as absent instead. -/
theorem claim_C8 (e : Wal.LogEntry)
    (hk : e.key ≠ some []) (hv : e.value ≠ some []) (ho : e.old_value ≠ some [])
    (hbk : ∀ b ∈ e.key.getD [], b < 256)
    (hbv : ∀ b ∈ e.value.getD [], b < 256)
    (hbo : ∀ b ∈ e.old_value.getD [], b < 256) :
    Wal.LogEntry.deserialize (Wal.LogEntry.serialize e) = some e := by
  rw [Wal.LogEntry.deserialize, Wal.LogEntry.serialize]
  simp only [ofValue_value, deserialize_serialize_field hk hbk,
    deserialize_serialize_field hv hbv, deserialize_serialize_field ho hbo]
  rfl

/-- C8 witness: the amended round-trip evaluated at a concrete entry. -/
theorem claim_C8_witness :
    Wal.LogEntry.deserialize (Wal.LogEntry.serialize
      ⟨.UPDATE, 7, some ['u'], some [0, 255], some [171], none, some 3, 5⟩) =
      some ⟨.UPDATE, 7, some ['u'], some [0, 255], some [171], none, some 3, 5⟩ :=
  claim_C8 ⟨.UPDATE, 7, some ['u'], some [0, 255], some [171], none, some 3, 5⟩
    (by decide) (by decide) (by decide) (by decide) (by decide) (by decide)

/-! ### C9: BufferPool accounting -/

namespace BPool

theorem cacheGet_cons_of_pos {p : Nat × PageData} {c : List (Nat × PageData)}
    {id : Nat} (h : p.1 = id) : cacheGet (p :: c) id = some p.2 := by
  rw [cacheGet, List.find?_cons_of_pos _ (by simp [h])]
  rfl

theorem cacheGet_cons_of_neg {p : Nat × PageData} {c : List (Nat × PageData)}
    {id : Nat} (h : ¬p.1 = id) : cacheGet (p :: c) id = cacheGet c id := by
  rw [cacheGet, List.find?_cons_of_neg _ (by simp [h])]
  rfl

theorem cacheGet_filter_ne {c : List (Nat × PageData)} {id id' : Nat} (h : id' ≠ id) :
    cacheGet (c.filter (fun p => p.1 != id)) id' = cacheGet c id' := by
  induction c with
  | nil => rfl
  | cons p c ih =>
    rw [List.filter_cons]
    by_cases hq : p.1 = id
    · rw [if_neg (by simp [hq]), cacheGet_cons_of_neg (by omega)]
      exact ih
    · rw [if_pos (by simp [hq])]
      by_cases hp : p.1 = id'
      · rw [cacheGet_cons_of_pos hp, cacheGet_cons_of_pos hp]
      · rw [cacheGet_cons_of_neg hp, cacheGet_cons_of_neg hp]
        exact ih

theorem cacheGet_filter_self (c : List (Nat × PageData)) (id : Nat) :
    cacheGet (c.filter (fun p => p.1 != id)) id = none := by
  induction c with
  | nil => rfl
  | cons p c ih =>
    rw [List.filter_cons]
    by_cases hq : p.1 = id
    · rw [if_neg (by simp [hq])]
      exact ih
    · rw [if_pos (by simp [hq]), cacheGet_cons_of_neg hq]
      exact ih

theorem cacheGet_append_single {c : List (Nat × PageData)} {id id' : Nat} {d : PageData} :
    cacheGet (c ++ [(id, d)]) id' =
      (cacheGet c id').or (if id' = id then some d else none) := by
  rw [cacheGet, List.find?_append, cacheGet]
  cases hf : (c.find? (fun p => p.1 == id')) with
  | some p => rfl
  | none =>
    by_cases h : id' = id
    · rw [List.find?_cons_of_pos _ (by simp [h])]
      simp [h]
    · rw [List.find?_cons_of_neg _ (by simp only [beq_iff_eq]; exact fun hh => h hh.symm)]
      simp [h]

theorem cacheGet_isSome_moveToEnd {c : List (Nat × PageData)} {id id' : Nat} :
    (cacheGet (moveToEnd c id) id').isSome = (cacheGet c id').isSome := by
  rw [moveToEnd]
  cases hg : cacheGet c id with
  | none => rfl
  | some d =>
    rw [cacheGet_append_single]
    by_cases h : id' = id
    · subst h
      rw [cacheGet_filter_self]
      simp [hg]
    · rw [cacheGet_filter_ne h]
      cases hg' : cacheGet c id' <;> simp [h]

/-- Reachability invariant: every dirty page is cached. -/
def BInv (bp : BufferPool) : Prop :=
  ∀ id ∈ bp.dirty_pages, (cacheGet bp.cache id).isSome = true

theorem flushAux (xs : List Nat) (st : BufferPool × Disk) :
    (xs.foldl flushStep st).1.cache = st.1.cache ∧
    (xs.foldl flushStep st).1.hits = st.1.hits ∧
    (xs.foldl flushStep st).1.misses = st.1.misses ∧
    (∀ id ∈ (xs.foldl flushStep st).1.dirty_pages, id ∈ st.1.dirty_pages) ∧
    ((∀ id ∈ st.1.dirty_pages, id ∈ xs) →
      (∀ id ∈ st.1.dirty_pages, (cacheGet st.1.cache id).isSome = true) →
      (xs.foldl flushStep st).1.dirty_pages = []) := by
  induction xs generalizing st with
  | nil =>
    refine ⟨rfl, rfl, rfl, fun id h => h, fun hsub _ => ?_⟩
    rw [List.foldl_nil]
    cases hd : st.1.dirty_pages with
    | nil => rfl
    | cons a tl => exact absurd (hsub a (by rw [hd]; exact List.mem_cons_self a tl)) (by simp)
  | cons x xs ih =>
    have hstep : (flushStep st x).1.cache = st.1.cache ∧
        (flushStep st x).1.hits = st.1.hits ∧
        (flushStep st x).1.misses = st.1.misses ∧
        (∀ id ∈ (flushStep st x).1.dirty_pages, id ∈ st.1.dirty_pages ∧ id ≠ x ∨
          id ∈ st.1.dirty_pages ∧ cacheGet st.1.cache x = none) := by
      rw [flushStep]
      cases hg : cacheGet st.1.cache x with
      | none => exact ⟨rfl, rfl, rfl, fun id h => Or.inr ⟨h, rfl⟩⟩
      | some d =>
        refine ⟨rfl, rfl, rfl, fun id h => Or.inl ?_⟩
        simp only [_disk_write, List.mem_filter] at h
        exact ⟨h.1, by simpa using h.2⟩
    obtain ⟨hc, hh, hm, hd⟩ := hstep
    obtain ⟨ihc, ihh, ihm, ihd, ihe⟩ := ih (flushStep st x)
    rw [List.foldl_cons]
    refine ⟨ihc.trans hc, ihh.trans hh, ihm.trans hm,
      fun id h => ((hd id (ihd id h)).elim And.left And.left), fun hsub hpres => ?_⟩
    refine ihe (fun id h => ?_) (fun id h => ?_)
    · rcases hd id h with ⟨h1, hne⟩ | ⟨h1, hnone⟩
      · rcases List.mem_cons.mp (hsub id h1) with h3 | h3
        · exact absurd h3 hne
        · exact h3
      · rcases List.mem_cons.mp (hsub id h1) with h3 | h3
        · exact absurd (hpres id h1) (by rw [h3, hnone]; simp)
        · exact h3
    · rw [hc]
      exact hpres id ((hd id h).elim And.left And.left)

theorem isSome_or_left {a b : Option PageData} (h : a.isSome = true) :
    (a.or b).isSome = true := by
  cases a with
  | none => simp at h
  | some x => rfl

theorem mem_setInsert {α : Type} [DecidableEq α] {l : List α} {a b : α}
    (h : b ∈ S2P.TM.setInsert l a) : b ∈ l ∨ b = a := by
  rw [S2P.TM.setInsert] at h
  split at h
  · exact Or.inl h
  · rcases List.mem_append.mp h with h' | h'
    · exact Or.inl h'
    · exact Or.inr (List.mem_singleton.mp h')

theorem get_page_hit {bp : BufferPool} {disk : Disk} {id : Nat} {data : PageData}
    (h : cacheGet bp.cache id = some data) :
    get_page bp disk id =
      ({ bp with hits := bp.hits + 1, cache := moveToEnd bp.cache id }, disk, data) := by
  simp [get_page, h]

theorem get_page_miss_noevict {bp : BufferPool} {disk : Disk} {id : Nat}
    (h : cacheGet bp.cache id = none) (hcap : ¬ bp.capacity ≤ bp.cache.length) :
    get_page bp disk id =
      ({ bp with
          misses := bp.misses + 1
          disk_reads := bp.disk_reads + 1
          cache := bp.cache ++ [(id, _disk_read bp disk id)] }, disk,
        _disk_read bp disk id) := by
  simp [get_page, h, hcap, _disk_read]

theorem get_page_miss_evict_nil {bp : BufferPool} {disk : Disk} {id : Nat}
    (h : cacheGet bp.cache id = none) (hcap : bp.capacity ≤ bp.cache.length)
    (hc : bp.cache = []) :
    get_page bp disk id =
      ({ bp with
          misses := bp.misses + 1
          disk_reads := bp.disk_reads + 1
          cache := [(id, _disk_read bp disk id)] }, disk, _disk_read bp disk id) := by
  have h' := h
  rw [hc] at h'
  have hcap' := hcap
  rw [hc] at hcap'
  simp only [List.length_nil, Nat.le_zero] at hcap'
  simp [get_page, h', hcap, hcap', _evict_lru_page, hc, _disk_read]

theorem get_page_miss_evict_dirty {bp : BufferPool} {disk : Disk} {id vid : Nat}
    {vdata : PageData} {rest : List (Nat × PageData)}
    (h : cacheGet bp.cache id = none) (hcap : bp.capacity ≤ bp.cache.length)
    (hc : bp.cache = (vid, vdata) :: rest) (hd : vid ∈ bp.dirty_pages) :
    get_page bp disk id =
      ({ bp with
          misses := bp.misses + 1
          disk_reads := bp.disk_reads + 1
          evictions := bp.evictions + 1
          disk_writes := bp.disk_writes + 1
          cache := rest ++ [(id, _disk_read bp disk id)]
          dirty_pages := bp.dirty_pages.filter (fun i => i != vid) },
        (fun i => if i = vid then some vdata else disk i), _disk_read bp disk id) := by
  have h' := h
  rw [hc] at h'
  have hcap' := hcap
  rw [hc] at hcap'
  simp only [List.length_cons] at hcap'
  simp [get_page, h', hcap, hcap', _evict_lru_page, hc, hd, _disk_write, _disk_read]

theorem get_page_miss_evict_clean {bp : BufferPool} {disk : Disk} {id vid : Nat}
    {vdata : PageData} {rest : List (Nat × PageData)}
    (h : cacheGet bp.cache id = none) (hcap : bp.capacity ≤ bp.cache.length)
    (hc : bp.cache = (vid, vdata) :: rest) (hd : vid ∉ bp.dirty_pages) :
    get_page bp disk id =
      ({ bp with
          misses := bp.misses + 1
          disk_reads := bp.disk_reads + 1
          evictions := bp.evictions + 1
          cache := rest ++ [(id, _disk_read bp disk id)] },
        disk, _disk_read bp disk id) := by
  have h' := h
  rw [hc] at h'
  have hcap' := hcap
  rw [hc] at hcap'
  simp only [List.length_cons] at hcap'
  simp [get_page, h', hcap, hcap', _evict_lru_page, hc, hd, _disk_read]

theorem BInv_step (st : BufferPool × Disk) (op : BOp) (h : BInv st.1) :
    BInv (stepB st op).1 := by
  cases op with
  | getp id =>
    show BInv (get_page st.1 st.2 id).1
    cases hg : cacheGet st.1.cache id with
    | some data =>
      rw [get_page_hit hg]
      intro i hi
      rw [cacheGet_isSome_moveToEnd]
      exact h i hi
    | none =>
      by_cases hcap : st.1.capacity ≤ st.1.cache.length
      · cases hc : st.1.cache with
        | nil =>
          rw [get_page_miss_evict_nil hg hcap hc]
          intro i hi
          exact absurd (h i hi) (by rw [hc]; simp [cacheGet, List.find?])
        | cons v rest =>
          obtain ⟨vid, vdata⟩ := v
          by_cases hd : vid ∈ st.1.dirty_pages
          · rw [get_page_miss_evict_dirty hg hcap hc hd]
            intro i hi
            simp only [List.mem_filter] at hi
            have hne : i ≠ vid := by simpa using hi.2
            have := h i hi.1
            rw [hc, cacheGet_cons_of_neg (by simpa using hne.symm)] at this
            rw [cacheGet_append_single]
            exact isSome_or_left this
          · rw [get_page_miss_evict_clean hg hcap hc hd]
            intro i hi
            have hne : i ≠ vid := fun hiv => hd (hiv ▸ hi)
            have := h i hi
            rw [hc, cacheGet_cons_of_neg (by simpa using hne.symm)] at this
            rw [cacheGet_append_single]
            exact isSome_or_left this
      · rw [get_page_miss_noevict hg hcap]
        intro i hi
        rw [cacheGet_append_single]
        exact isSome_or_left (h i hi)
  | putp id data =>
    intro i hi
    show (cacheGet ((st.1.cache.filter (fun p => p.1 != id)) ++ [(id, data)]) i).isSome
      = true
    rw [cacheGet_append_single]
    rcases mem_setInsert hi with h' | rfl
    · by_cases hii : i = id
      · subst hii
        rw [cacheGet_filter_self]
        simp
      · rw [cacheGet_filter_ne hii]
        exact isSome_or_left (h i h')
    · rw [cacheGet_filter_self]
      simp
  | flush =>
    intro i hi
    show (cacheGet (st.1.dirty_pages.foldl flushStep st).1.cache i).isSome = true
    obtain ⟨hcache, _, _, hsub, _⟩ := flushAux st.1.dirty_pages st
    rw [hcache]
    exact h i (hsub i hi)

theorem BInv_runB (st : BufferPool × Disk) (ops : List BOp) (h : BInv st.1) :
    BInv (runB st ops).1 := by
  induction ops generalizing st with
  | nil => exact h
  | cons op ops ih => exact ih _ (BInv_step st op h)

theorem counts_step (st : BufferPool × Disk) (op : BOp) :
    (stepB st op).1.hits + (stepB st op).1.misses =
      st.1.hits + st.1.misses + countGets [op] := by
  cases op with
  | getp id =>
    show (get_page st.1 st.2 id).1.hits + (get_page st.1 st.2 id).1.misses = _
    cases hg : cacheGet st.1.cache id with
    | some data =>
      rw [get_page_hit hg]
      simp [countGets] <;> omega
    | none =>
      by_cases hcap : st.1.capacity ≤ st.1.cache.length
      · cases hc : st.1.cache with
        | nil =>
          rw [get_page_miss_evict_nil hg hcap hc]
          simp [countGets] <;> omega
        | cons v rest =>
          obtain ⟨vid, vdata⟩ := v
          by_cases hd : vid ∈ st.1.dirty_pages
          · rw [get_page_miss_evict_dirty hg hcap hc hd]
            simp [countGets] <;> omega
          · rw [get_page_miss_evict_clean hg hcap hc hd]
            simp [countGets] <;> omega
      · rw [get_page_miss_noevict hg hcap]
        simp [countGets] <;> omega
  | putp id data => simp [stepB, put_page, countGets]
  | flush =>
    obtain ⟨_, hh, hm, _, _⟩ := flushAux st.1.dirty_pages st
    show (st.1.dirty_pages.foldl flushStep st).1.hits +
      (st.1.dirty_pages.foldl flushStep st).1.misses = _
    rw [hh, hm]
    simp [countGets]

theorem countGets_cons (op : BOp) (ops : List BOp) :
    countGets (op :: ops) = countGets [op] + countGets ops := by
  rw [countGets, countGets, countGets, List.filter_cons, List.filter_cons]
  by_cases hm : (match op with | BOp.getp _ => true | _ => false) = true
  · simp [hm]
    omega
  · simp [hm]

theorem counts_runB (st : BufferPool × Disk) (ops : List BOp) :
    (runB st ops).1.hits + (runB st ops).1.misses =
      st.1.hits + st.1.misses + countGets ops := by
  induction ops generalizing st with
  | nil => simp [runB, countGets]
  | cons op ops ih =>
    show (runB (stepB st op) ops).1.hits + (runB (stepB st op) ops).1.misses = _
    rw [ih (stepB st op), counts_step st op]
    conv_rhs => rw [countGets_cons]
    omega


end BPool

/-- C9: for every operation sequence against a fresh `BufferPool` with
positive capacity: the hit plus miss counters equal the number of
`get_page` calls; an eviction whose LRU victim is in the dirty set
performs exactly one disk write-through of that page's cached data (and
drops it from the dirty set) before the slot is reused; and after
`flush_dirty_pages` the dirty set is empty. -/
theorem claim_C9 (mb ps : Nat) (disk0 : BPool.Disk) (ops : List BPool.BOp)
    (hcap : 0 < (BPool.init mb ps).capacity) :
    ((BPool.runB (BPool.init mb ps, disk0) ops).1.hits +
        (BPool.runB (BPool.init mb ps, disk0) ops).1.misses = BPool.countGets ops) ∧
    (∀ id vid vdata rest,
      (BPool.runB (BPool.init mb ps, disk0) ops).1.cache = (vid, vdata) :: rest →
      BPool.cacheGet (BPool.runB (BPool.init mb ps, disk0) ops).1.cache id = none →
      (BPool.runB (BPool.init mb ps, disk0) ops).1.capacity ≤
        (BPool.runB (BPool.init mb ps, disk0) ops).1.cache.length →
      vid ∈ (BPool.runB (BPool.init mb ps, disk0) ops).1.dirty_pages →
      (BPool.stepB (BPool.runB (BPool.init mb ps, disk0) ops) (.getp id)).1.disk_writes
          = (BPool.runB (BPool.init mb ps, disk0) ops).1.disk_writes + 1 ∧
        (BPool.stepB (BPool.runB (BPool.init mb ps, disk0) ops) (.getp id)).2 vid
          = some vdata ∧
        vid ∉ (BPool.stepB (BPool.runB (BPool.init mb ps, disk0) ops) (.getp id)).1.dirty_pages) ∧
    (BPool.runB (BPool.init mb ps, disk0) (ops ++ [.flush])).1.dirty_pages = [] := by
  refine ⟨?_, ?_, ?_⟩
  · have := BPool.counts_runB (BPool.init mb ps, disk0) ops
    simpa [BPool.init] using this
  · intro id vid vdata rest hcache hmiss hfull hdirty
    set st := BPool.runB (BPool.init mb ps, disk0) ops with hst
    show (BPool.get_page st.1 st.2 id).1.disk_writes = _ ∧
      (BPool.get_page st.1 st.2 id).2.1 vid = some vdata ∧
      vid ∉ (BPool.get_page st.1 st.2 id).1.dirty_pages
    rw [BPool.get_page_miss_evict_dirty hmiss hfull hcache hdirty]
    refine ⟨rfl, by simp, ?_⟩
    simp
  · rw [BPool.runB, List.foldl_append]
    have hinv : BPool.BInv (BPool.runB (BPool.init mb ps, disk0) ops).1 :=
      BPool.BInv_runB _ ops (fun i hi => absurd hi (by simp [BPool.init]))
    set st := BPool.runB (BPool.init mb ps, disk0) ops with hst
    obtain ⟨_, _, _, _, he⟩ := BPool.flushAux st.1.dirty_pages st
    exact he (fun i hi => hi) hinv

/-- C9 witness: the accounting theorem applied at a concrete pool and
trace. -/
theorem claim_C9_witness :
    0 < (BPool.init 1 4096).capacity ∧
      ((BPool.runB (BPool.init 1 4096, fun _ => none)
          [.putp 0 [7], .getp 0, .getp 1]).1.hits +
        (BPool.runB (BPool.init 1 4096, fun _ => none)
          [.putp 0 [7], .getp 0, .getp 1]).1.misses =
        BPool.countGets [.putp 0 [7], .getp 0, .getp 1]) :=
  ⟨by decide, (claim_C9 1 4096 (fun _ => none) [.putp 0 [7], .getp 0, .getp 1]
    (by decide)).1⟩

/-! ### LSM tree lemmas (C6, C7, C10) -/

namespace Lsm

theorem dictGet_cons_pos {p : Bytes × Bytes} {d : List (Bytes × Bytes)} {k : Bytes}
    (h : p.1 = k) : dictGet (p :: d) k = some p.2 := by
  rw [dictGet, List.find?_cons_of_pos _ (by simp [h])]
  rfl

theorem dictGet_cons_neg {p : Bytes × Bytes} {d : List (Bytes × Bytes)} {k : Bytes}
    (h : ¬p.1 = k) : dictGet (p :: d) k = dictGet d k := by
  rw [dictGet, List.find?_cons_of_neg _ (by simp [h])]
  rfl

theorem find?_eq_none_of_not_any {d : List (Bytes × Bytes)} {k : Bytes}
    (h : ¬d.any (fun p => p.1 == k) = true) :
    d.find? (fun p => p.1 == k) = none := by
  rw [List.find?_eq_none]
  intro x hx hxk
  exact h (List.any_eq_true.mpr ⟨x, hx, hxk⟩)

theorem dictGet_cons_pos_pair {a b k : Bytes} {d : List (Bytes × Bytes)}
    (h : a = k) : dictGet ((a, b) :: d) k = some b :=
  dictGet_cons_pos h

theorem dictGet_mapSet {d : List (Bytes × Bytes)} {k v : Bytes}
    (hany : d.any (fun p => p.1 == k) = true) :
    dictGet (d.map (fun p => if p.1 == k then (p.1, v) else p)) k = some v := by
  induction d with
  | nil => simp at hany
  | cons q d ih =>
    rw [List.map_cons]
    by_cases hq : q.1 = k
    · have he : (if (q.1 == k) = true then (q.1, v) else q) = (q.1, v) := by simp [hq]
      rw [he, dictGet_cons_pos_pair hq]
    · have he : (if (q.1 == k) = true then (q.1, v) else q) = q := by simp [hq]
      rw [he, dictGet_cons_neg hq]
      exact ih (by simpa [hq] using hany)

theorem dictGet_dictSet_self (d : List (Bytes × Bytes)) (k v : Bytes) :
    dictGet (dictSet d k v) k = some v := by
  rw [dictSet]
  by_cases hany : d.any (fun p => p.1 == k) = true
  · rw [if_pos hany]
    exact dictGet_mapSet hany
  · rw [if_neg hany, dictGet, List.find?_append, find?_eq_none_of_not_any hany]
    simp [List.find?]

theorem dictGet_map_preserve {d : List (Bytes × Bytes)} {k v k' : Bytes} (h : k' ≠ k) :
    dictGet (d.map (fun p => if p.1 == k then (p.1, v) else p)) k' = dictGet d k' := by
  induction d with
  | nil => rfl
  | cons q d ih =>
    rw [List.map_cons]
    by_cases hq' : q.1 = k'
    · have hqk : ¬q.1 = k := fun hh => h (by rw [← hq', hh])
      have he : (if (q.1 == k) = true then (q.1, v) else q) = q := by simp [hqk]
      rw [he, dictGet_cons_pos hq', dictGet_cons_pos hq']
    · have h1 : ¬(if (q.1 == k) = true then (q.1, v) else q).1 = k' := by
        split <;> simpa using hq'
      rw [dictGet_cons_neg h1, dictGet_cons_neg hq']
      exact ih

theorem dictGet_dictSet_ne (d : List (Bytes × Bytes)) {k k' : Bytes} (v : Bytes)
    (h : k' ≠ k) : dictGet (dictSet d k v) k' = dictGet d k' := by
  rw [dictSet]
  by_cases hany : d.any (fun p => p.1 == k) = true
  · rw [if_pos hany]
    exact dictGet_map_preserve h
  · rw [if_neg hany, dictGet, List.find?_append]
    have h2 : [(k, v)].find? (fun p => p.1 == k') = none := by
      rw [List.find?_eq_none]
      intro x hx
      rw [List.mem_singleton.mp hx]
      simpa using fun hh => h hh.symm
    rw [h2, dictGet]
    cases d.find? (fun p => p.1 == k') <;> rfl

theorem keys_dictSet_of_any {d : List (Bytes × Bytes)} {k v : Bytes}
    (hany : d.any (fun p => p.1 == k) = true) :
    (dictSet d k v).map Prod.fst = d.map Prod.fst := by
  rw [dictSet, if_pos hany, List.map_map]
  apply List.map_congr_left
  intro p _
  by_cases hq : p.1 = k <;> simp [hq]

theorem keys_dictSet_of_not_any {d : List (Bytes × Bytes)} {k v : Bytes}
    (hany : ¬d.any (fun p => p.1 == k) = true) :
    (dictSet d k v).map Prod.fst = d.map Prod.fst ++ [k] := by
  rw [dictSet, if_neg hany, List.map_append]
  rfl

theorem not_mem_keys_of_not_any {d : List (Bytes × Bytes)} {k : Bytes}
    (hany : ¬d.any (fun p => p.1 == k) = true) : k ∉ d.map Prod.fst := by
  intro hk
  obtain ⟨p, hp, hpk⟩ := List.mem_map.mp hk
  exact hany (List.any_eq_true.mpr ⟨p, hp, by simp [hpk]⟩)

theorem nodup_keys_dictSet {d : List (Bytes × Bytes)} {k v : Bytes}
    (h : (d.map Prod.fst).Nodup) : ((dictSet d k v).map Prod.fst).Nodup := by
  by_cases hany : d.any (fun p => p.1 == k) = true
  · rw [keys_dictSet_of_any hany]
    exact h
  · rw [keys_dictSet_of_not_any hany]
    exact h.append (List.nodup_singleton k)
      (fun a ha hb => not_mem_keys_of_not_any hany ((List.mem_singleton.mp hb) ▸ ha))

theorem dictGet_eq_none_iff {d : List (Bytes × Bytes)} {k : Bytes} :
    dictGet d k = none ↔ k ∉ d.map Prod.fst := by
  rw [dictGet]
  constructor
  · intro h hk
    obtain ⟨p, hp, hpk⟩ := List.mem_map.mp hk
    cases hf : d.find? (fun p => p.1 == k) with
    | some q => rw [hf] at h; cases h
    | none =>
      rw [List.find?_eq_none] at hf
      exact hf p hp (by simp [hpk])
  · intro hk
    rw [find?_eq_none_of_not_any]
    · rfl
    · intro hany
      obtain ⟨p, hp, hpk⟩ := List.any_eq_true.mp hany
      exact hk (List.mem_map.mpr ⟨p, hp, by simpa using hpk⟩)

theorem dictGet_some_mem {d : List (Bytes × Bytes)} {k v : Bytes}
    (h : dictGet d k = some v) : (k, v) ∈ d := by
  rw [dictGet] at h
  cases hf : d.find? (fun p => p.1 == k) with
  | none => rw [hf] at h; cases h
  | some p =>
    rw [hf] at h
    have hp1 : p.1 = k := by simpa using List.find?_some hf
    have hp2 : p.2 = v := by simpa using h
    have : p = (k, v) := Prod.ext hp1 hp2
    exact this ▸ List.mem_of_find?_eq_some hf

theorem dictGet_eq_some_of_mem {d : List (Bytes × Bytes)} {k v : Bytes}
    (hnd : (d.map Prod.fst).Nodup) (hmem : (k, v) ∈ d) : dictGet d k = some v := by
  induction d with
  | nil => cases hmem
  | cons q d ih =>
    rw [List.map_cons, List.nodup_cons] at hnd
    rcases List.mem_cons.mp hmem with rfl | hmem'
    · exact dictGet_cons_pos rfl
    · have hq : ¬q.1 = k := by
        intro hh
        exact hnd.1 (hh ▸ List.mem_map.mpr ⟨(k, v), hmem', rfl⟩)
      rw [dictGet_cons_neg hq]
      exact ih hnd.2 hmem'

theorem dictGet_perm {l l' : List (Bytes × Bytes)} (h : l.Perm l')
    (hnd : (l.map Prod.fst).Nodup) (k : Bytes) : dictGet l k = dictGet l' k := by
  have hnd' : (l'.map Prod.fst).Nodup := ((h.map Prod.fst).nodup_iff).mp hnd
  cases hg : dictGet l k with
  | none =>
    rw [eq_comm, dictGet_eq_none_iff]
    intro hk
    exact (dictGet_eq_none_iff.mp hg) (((h.map Prod.fst).mem_iff).mpr hk)
  | some v =>
    rw [eq_comm]
    exact dictGet_eq_some_of_mem hnd' (h.mem_iff.mp (dictGet_some_mem hg))

theorem foldl_dictSet_disjoint :
    ∀ (l acc : List (Bytes × Bytes)),
      (∀ k, k ∈ l.map Prod.fst → k ∉ acc.map Prod.fst) →
      (l.map Prod.fst).Nodup →
      l.foldl (fun d p => dictSet d p.1 p.2) acc = acc ++ l := by
  intro l
  induction l with
  | nil => intro acc _ _; simp
  | cons p l ih =>
    intro acc hdis hnd
    rw [List.foldl_cons]
    have hp : ¬acc.any (fun q => q.1 == p.1) = true := by
      intro hany
      obtain ⟨q, hq, hqk⟩ := List.any_eq_true.mp hany
      exact hdis p.1 (by simp) (List.mem_map.mpr ⟨q, hq, by simpa using hqk⟩)
    rw [show dictSet acc p.1 p.2 = acc ++ [(p.1, p.2)] from by rw [dictSet, if_neg hp]]
    rw [List.map_cons, List.nodup_cons] at hnd
    rw [ih (acc ++ [(p.1, p.2)]) ?_ hnd.2]
    · simp
    · intro k hk hmem
      rw [List.map_append, List.mem_append] at hmem
      rcases hmem with hmem | hmem
      · exact hdis k (by simp [hk]) hmem
      · simp only [List.map_cons, List.map_nil, List.mem_singleton] at hmem
        exact hnd.1 (hmem ▸ hk)

theorem dictOfPairs_of_nodup {l : List (Bytes × Bytes)}
    (h : (l.map Prod.fst).Nodup) : dictOfPairs l = l := by
  rw [dictOfPairs]
  have := foldl_dictSet_disjoint l [] (by simp) h
  simpa using this

theorem sortPairs_perm (l : List (Bytes × Bytes)) : (sortPairs l).Perm l :=
  List.perm_insertionSort _ l

theorem bits_getD_set_true {bs : List Bool} {i j : Nat}
    (h : bs.getD i false = true) : (bs.set j true).getD i false = true := by
  rw [List.getD_eq_getElem?_getD] at h
  rw [List.getD_eq_getElem?_getD, List.getElem?_set]
  by_cases hij : j = i
  · subst hij
    by_cases hlt : j < bs.length
    · simp [hlt]
    · rw [List.getElem?_eq_none (by omega)] at h
      simp at h
  · simpa [hij] using h

theorem foldl_set_true_getD {idxs : List Nat} {bs : List Bool} {i : Nat}
    (h : bs.getD i false = true) :
    (idxs.foldl (fun b j => b.set j true) bs).getD i false = true := by
  induction idxs generalizing bs with
  | nil => exact h
  | cons j rest ih => exact ih (bits_getD_set_true h)

theorem foldl_set_true_length (idxs : List Nat) (bs : List Bool) :
    (idxs.foldl (fun b j => b.set j true) bs).length = bs.length := by
  induction idxs generalizing bs with
  | nil => rfl
  | cons j rest ih => rw [List.foldl_cons, ih, List.length_set]

theorem foldl_set_true_getD_mem {idxs : List Nat} {bs : List Bool} {i : Nat}
    (hi : i ∈ idxs) (hlt : i < bs.length) :
    (idxs.foldl (fun b j => b.set j true) bs).getD i false = true := by
  induction idxs generalizing bs with
  | nil => cases hi
  | cons j rest ih =>
    rw [List.foldl_cons]
    rcases List.mem_cons.mp hi with rfl | hi'
    · refine foldl_set_true_getD ?_
      rw [List.getD_eq_getElem?_getD, List.getElem?_set]
      simp [hlt]
    · exact ih hi' (by rw [List.length_set]; exact hlt)

variable (pyHash : Bytes → Nat)

theorem add_size (bf : BloomFilter) (k : Bytes) : (bf.add pyHash k).size = bf.size :=
  rfl

theorem add_bits_length (bf : BloomFilter) (k : Bytes) :
    (bf.add pyHash k).bits.length = bf.bits.length :=
  foldl_set_true_length _ _

theorem might_contain_mono {bf : BloomFilter} {k k' : Bytes}
    (h : bf.might_contain pyHash k = true) :
    (bf.add pyHash k').might_contain pyHash k = true := by
  rw [BloomFilter.might_contain, List.all_eq_true] at h ⊢
  intro i hi
  exact foldl_set_true_getD (h i hi)

theorem hashFunctions_lt {n : Nat} (hpos : 0 < n) {k : Bytes} {i : Nat}
    (hi : i ∈ hashFunctions pyHash n k) : i < n := by
  rw [hashFunctions] at hi
  simp only [List.mem_cons, List.not_mem_nil, or_false] at hi
  rcases hi with rfl | rfl | rfl
  · exact Nat.mod_lt _ hpos
  · exact Nat.mod_lt _ hpos
  · exact Nat.mod_lt _ hpos

theorem might_contain_add_self {bf : BloomFilter} {k : Bytes}
    (hsz : bf.bits.length = bf.size) (hpos : 0 < bf.size) :
    (bf.add pyHash k).might_contain pyHash k = true := by
  rw [BloomFilter.might_contain, List.all_eq_true]
  intro i hi
  rw [add_size] at hi
  exact foldl_set_true_getD_mem hi (by rw [hsz]; exact hashFunctions_lt pyHash hpos hi)

theorem fold_add_mono {keys : List Bytes} {b : BloomFilter} {k : Bytes}
    (h : b.might_contain pyHash k = true) :
    ((keys.foldl (fun b kk => b.add pyHash kk) b).might_contain pyHash k) = true := by
  induction keys generalizing b with
  | nil => exact h
  | cons kk rest ih => exact ih (might_contain_mono pyHash h)

theorem fold_add_contains {keys : List Bytes} (b0 : BloomFilter) {k : Bytes}
    (hsz : b0.bits.length = b0.size) (hpos : 0 < b0.size) (hk : k ∈ keys) :
    ((keys.foldl (fun b kk => b.add pyHash kk) b0).might_contain pyHash k) = true := by
  induction keys generalizing b0 with
  | nil => cases hk
  | cons kk rest ih =>
    rw [List.foldl_cons]
    rcases List.mem_cons.mp hk with rfl | hk'
    · exact fold_add_mono pyHash (might_contain_add_self pyHash hsz hpos)
    · exact ih (b0.add pyHash kk)
        (by rw [add_bits_length, add_size]; exact hsz)
        (by rw [add_size]; exact hpos) hk'

theorem to_sstable_perm {m : MemTable} (hnd : (m.data.map Prod.fst).Nodup) :
    (m.to_sstable).data.Perm m.data := by
  rw [MemTable.to_sstable]
  have hperm := sortPairs_perm m.data
  rw [dictOfPairs_of_nodup (((hperm.map Prod.fst).nodup_iff).mpr hnd)]
  exact hperm

theorem to_sstable_nodup {m : MemTable} (hnd : (m.data.map Prod.fst).Nodup) :
    ((m.to_sstable).data.map Prod.fst).Nodup :=
  (((to_sstable_perm hnd).map Prod.fst).nodup_iff).mpr hnd

/-- A flush does not change what `get` returns at any key: the sealed
memtable's SSTable is consulted first, its bloom filter never rules out
one of its keys, and keys absent from it fall through to the older
SSTables. -/
theorem getValue_flush (s : LSMTree) (hnd : (s.memtable.data.map Prod.fst).Nodup)
    (k' : Bytes) :
    (s.flushMemtable pyHash).getValue pyHash k' = s.getValue pyHash k' := by
  have hT := to_sstable_perm hnd
  have hTnd := to_sstable_nodup hnd
  simp only [LSMTree.flushMemtable, LSMTree.getValue]
  set T := s.memtable.to_sstable with hTdef
  set B := ((T.data.map (fun p => p.1)).foldl (fun b k => b.add pyHash k)
    (BloomFilter.init (T.data.length * 10))) with hBdef
  have hzip : ((s.sstables ++ [T]).reverse.zip ((s.bloom_filters ++ [B]).reverse)) =
      (T, B) :: (s.sstables.reverse.zip s.bloom_filters.reverse) := by
    rw [List.reverse_append, List.reverse_append]
    rfl
  rw [hzip]
  have hmem_none : MemTable.get ⟨[], s.memtable.max_size⟩ k' = none := rfl
  rw [hmem_none]
  cases hm : s.memtable.get k' with
  | some v =>
    have hkv : (k', v) ∈ s.memtable.data := dictGet_some_mem hm
    have hk'T : k' ∈ T.data.map (fun p => p.1) :=
      List.mem_map.mpr ⟨(k', v), hT.mem_iff.mpr hkv, rfl⟩
    have hlen : 0 < T.data.length := by
      cases hdata : T.data with
      | nil => rw [hdata] at hk'T; cases hk'T
      | cons a l => simp
    have hbloom : B.might_contain pyHash k' = true := by
      rw [hBdef]
      refine fold_add_contains pyHash _ ?_ ?_ hk'T
      · rw [BloomFilter.init]
        simp
      · rw [BloomFilter.init]
        simpa using hlen
    have hget : T.get k' = some v := by
      rw [SSTable.get, dictGet_perm hT hTnd k']
      exact hm
    rw [scanTables, hbloom]
    simp only [if_true]
    rw [hget]
  | none =>
    have hget : T.get k' = none := by
      rw [SSTable.get, dictGet_eq_none_iff]
      intro hk
      obtain ⟨p, hp, hpk⟩ := List.mem_map.mp hk
      have hmem : p.1 ∈ s.memtable.data.map Prod.fst :=
        List.mem_map.mpr ⟨p, hT.mem_iff.mp hp, rfl⟩
      rw [hpk] at hmem
      exact (dictGet_eq_none_iff.mp hm) hmem
    rw [scanTables, hget]
    by_cases hb : B.might_contain pyHash k' = true
    · rw [if_pos hb]
    · rw [if_neg hb]

end Lsm

/-- C10: after `delete(k)` and before any compaction, `get(k)` returns
the literal tombstone marker bytes `b'__TOMBSTONE__'` rather than
absent; and a caller's `put(k, b'__TOMBSTONE__')` returns the same
value as `delete(k)` at the `get` interface for every key (the only
extra effects of `put` are the write counter and a possible flush,
which does not change any `get` result). -/
theorem claim_C10 (pyHash : Bytes → Nat) (s : Lsm.LSMTree) (k : Bytes)
    (hnd : (s.memtable.data.map Prod.fst).Nodup) :
    ((s.delete k).get pyHash k).2 = some Lsm.TOMBSTONE ∧
    (∀ k', ((s.put pyHash k Lsm.TOMBSTONE).get pyHash k').2 =
      ((s.delete k).get pyHash k').2) := by
  constructor
  · show (s.delete k).getValue pyHash k = some Lsm.TOMBSTONE
    rw [Lsm.LSMTree.getValue]
    have : (s.delete k).memtable.get k = some Lsm.TOMBSTONE := by
      rw [Lsm.LSMTree.delete]
      exact Lsm.dictGet_dictSet_self s.memtable.data k Lsm.TOMBSTONE
    rw [this]
  · intro k'
    show (s.put pyHash k Lsm.TOMBSTONE).getValue pyHash k' =
      (s.delete k).getValue pyHash k'
    rw [Lsm.LSMTree.put]
    simp only
    split
    · rw [Lsm.getValue_flush]
      · rfl
      · exact Lsm.nodup_keys_dictSet hnd
    · rfl

/-- C10 witness: the theorem applied at a concrete tree and key. -/
theorem claim_C10_witness :
    (((Lsm.LSMTree.init 2).delete [107]).get (fun _ => 0) [107]).2 =
      some Lsm.TOMBSTONE :=
  (claim_C10 (fun _ => 0) (Lsm.LSMTree.init 2) [107] (by decide)).1

/-- C6: evaluation of `compact` at the failing input.  Two SSTables:
the older holds `k ↦ v`, the newer holds the tombstone for `k` (plus a
second live key).  The claim (and the code's own doc comment) says the
tombstoned key `k` is dropped entirely from the merged SSTable, but the
merge loop skips the tombstone pair without marking `k` as seen, so the
older value `k ↦ v` survives into the merged SSTable and `get` returns
it again. -/
theorem claim_C6 :
    (let h : Bytes → Nat := fun _ => 0
     let s := ((((Lsm.LSMTree.init 1).put h [107] [118]).delete [107]).put h
       [108] [119]).compact h
     (s.sstables.map (fun t => Lsm.dictGet t.data [107]), (s.get h [107]).2)) =
      ([some [118]], some [118]) := by
  decide

/-- C7 (counterexample): with memtable threshold S = 2, inserting N = 1
distinct key produces 0 SSTables, not `ceil(1/2) = 1`; and `compact()`
(a no-op below two SSTables) leaves 0 SSTables, not exactly one. -/
theorem claim_C7_counterexample :
    (let h : Bytes → Nat := fun _ => 0
     let s := (Lsm.LSMTree.init 2).put h [107] [118]
     (s.sstables.length, ((s.compact h).sstables.length, (1 + 2 - 1) / 2))) =
      (0, 0, 1) := by
  decide

namespace Lsm

theorem zip_reverse {α β : Type} :
    ∀ (l1 : List α) (l2 : List β), l1.length = l2.length →
      l1.reverse.zip l2.reverse = (l1.zip l2).reverse := by
  intro l1
  induction l1 with
  | nil =>
    intro l2 h
    cases l2 with
    | nil => rfl
    | cons b t => simp at h
  | cons a t ih =>
    intro l2 h
    cases l2 with
    | nil => simp at h
    | cons b t2 =>
      have hlen : t.length = t2.length := by simpa using h
      simp only [List.reverse_cons, List.zip_cons_cons]
      rw [List.zip_append (by simp [hlen]), ih t2 hlen]
      simp

theorem flatMap_reverse_perm {α β : Type} (l : List α) (f : α → List β) :
    (l.reverse.flatMap f).Perm (l.flatMap f) := by
  induction l with
  | nil => exact List.Perm.refl _
  | cons a t ih =>
    rw [List.reverse_cons, List.flatMap_append, List.flatMap_cons]
    have h1 : (t.reverse.flatMap f ++ [a].flatMap f).Perm
        ([a].flatMap f ++ t.reverse.flatMap f) := List.perm_append_comm
    have h2 : ([a].flatMap f ++ t.reverse.flatMap f).Perm (f a ++ t.flatMap f) := by
      simp only [List.flatMap_cons, List.flatMap_nil, List.append_nil]
      exact List.Perm.append_left _ ih
    exact h1.trans h2

/-- All pairs stored across the SSTable list. -/
def flatData (ss : List SSTable) : List (Bytes × Bytes) :=
  ss.flatMap (fun t => t.data)

theorem flatMap_zip_fst {β : Type} :
    ∀ (ss : List SSTable) (bs : List BloomFilter), ss.length = bs.length →
      ∀ (f : SSTable → List β),
        (ss.zip bs).flatMap (fun tb => f tb.1) = ss.flatMap f := by
  intro ss
  induction ss with
  | nil => intro bs _ f; rfl
  | cons t ss ih =>
    intro bs h f
    cases bs with
    | nil => simp at h
    | cons b bs =>
      rw [List.zip_cons_cons, List.flatMap_cons, List.flatMap_cons,
        ih bs (by simpa using h) f]

/-- The lookup-relevant well-formedness of an `LSMTree` state: bloom
filters align with SSTables and never rule out a stored key, and keys
are globally unique across memtable and SSTables. -/
def Good (pyHash : Bytes → Nat) (st : LSMTree) : Prop :=
  st.bloom_filters.length = st.sstables.length ∧
  (∀ tb ∈ st.sstables.zip st.bloom_filters, ∀ kk ∈ tb.1.data.map Prod.fst,
    tb.2.might_contain pyHash kk = true) ∧
  ((st.memtable.data ++ flatData st.sstables).map Prod.fst).Nodup

theorem scanTables_finds (pyHash : Bytes → Nat) :
    ∀ (L : List (SSTable × BloomFilter)) {k v : Bytes},
      (∀ tb ∈ L, ∀ kk ∈ tb.1.data.map Prod.fst,
        tb.2.might_contain pyHash kk = true) →
      (L.flatMap (fun tb => tb.1.data.map Prod.fst)).Nodup →
      (k, v) ∈ L.flatMap (fun tb => tb.1.data) →
      scanTables pyHash k L = some v := by
  intro L
  induction L with
  | nil =>
    intro k v _ _ hmem
    simp at hmem
  | cons tb L ih =>
    intro k v hok hnd hmem
    rw [List.flatMap_cons] at hmem hnd
    rw [scanTables]
    rcases List.mem_append.mp hmem with hm | hm
    · have hkk : k ∈ tb.1.data.map Prod.fst := List.mem_map.mpr ⟨(k, v), hm, rfl⟩
      have hb := hok tb (List.mem_cons_self _ _) k hkk
      rw [hb, if_pos rfl]
      have hhnd : (tb.1.data.map Prod.fst).Nodup := (List.nodup_append.mp hnd).1
      have : tb.1.get k = some v := dictGet_eq_some_of_mem hhnd hm
      rw [this]
    · have hkrest : k ∈ L.flatMap (fun tb => tb.1.data.map Prod.fst) := by
        obtain ⟨tb', htb', hp⟩ := List.mem_flatMap.mp hm
        exact List.mem_flatMap.mpr ⟨tb', htb', List.mem_map.mpr ⟨(k, v), hp, rfl⟩⟩
      have hknothead : k ∉ tb.1.data.map Prod.fst := fun hk =>
        (List.nodup_append.mp hnd).2.2 hk hkrest
      have hget : tb.1.get k = none := by
        rw [SSTable.get, dictGet_eq_none_iff]
        exact hknothead
      have hrest := ih (fun tb' h' => hok tb' (List.mem_cons_of_mem _ h'))
        (List.nodup_append.mp hnd).2.1 hm
      by_cases hb : tb.2.might_contain pyHash k = true
      · rw [if_pos hb, hget]
        exact hrest
      · rw [if_neg hb]
        exact hrest

/-- In a `Good` state, every stored pair's value is what `get`
returns. -/
theorem getValue_mem {pyHash : Bytes → Nat} {st : LSMTree} {k v : Bytes}
    (hg : Good pyHash st)
    (hmem : (k, v) ∈ st.memtable.data ++ flatData st.sstables) :
    st.getValue pyHash k = some v := by
  obtain ⟨hlen, hok, hnd⟩ := hg
  rw [List.map_append] at hnd
  have hndm : (st.memtable.data.map Prod.fst).Nodup := (List.nodup_append.mp hnd).1
  rw [LSMTree.getValue]
  rcases List.mem_append.mp hmem with hm | hm
  · have : st.memtable.get k = some v := dictGet_eq_some_of_mem hndm hm
    rw [this]
  · have hkflat : k ∈ (flatData st.sstables).map Prod.fst :=
      List.mem_map.mpr ⟨(k, v), hm, rfl⟩
    have hknotm : k ∉ st.memtable.data.map Prod.fst := fun hk =>
      (List.nodup_append.mp hnd).2.2 hk hkflat
    have hmnone : st.memtable.get k = none := dictGet_eq_none_iff.mpr hknotm
    rw [hmnone]
    have hzip : st.sstables.reverse.zip st.bloom_filters.reverse =
        (st.sstables.zip st.bloom_filters).reverse :=
      zip_reverse _ _ hlen.symm
    have hkeys : ((st.sstables.zip st.bloom_filters).flatMap
        (fun tb => tb.1.data.map Prod.fst)) = (flatData st.sstables).map Prod.fst := by
      rw [flatMap_zip_fst st.sstables st.bloom_filters hlen.symm
        (fun t => t.data.map Prod.fst), flatData, List.map_flatMap]
    have hdata : ((st.sstables.zip st.bloom_filters).flatMap
        (fun tb => tb.1.data)) = flatData st.sstables := by
      rw [flatMap_zip_fst st.sstables st.bloom_filters hlen.symm (fun t => t.data),
        flatData]
    rw [hzip]
    apply scanTables_finds
    · intro tb htb kk hkk
      exact hok tb (List.mem_reverse.mp htb) kk hkk
    · exact ((flatMap_reverse_perm _ _).nodup_iff).mpr
        (hkeys ▸ (List.nodup_append.mp hnd).2.1)
    · exact ((flatMap_reverse_perm _ _).mem_iff).mpr (hdata ▸ hm)

/-- State reached after `put`-ing the distinct pairs `done` into a
fresh tree with threshold `S`: the memtable holds the residual chunk,
one SSTable per full chunk, bloom filters aligned and sound, and the
stored pairs are exactly `done`. -/
def INV (pyHash : Bytes → Nat) (S : Nat) (done : List (Bytes × Bytes))
    (st : LSMTree) : Prop :=
  st.memtable.max_size = S ∧
  st.memtable.data = done.drop (S * (done.length / S)) ∧
  st.sstables.length = done.length / S ∧
  st.bloom_filters.length = st.sstables.length ∧
  (st.memtable.data ++ flatData st.sstables).Perm done ∧
  (∀ tb ∈ st.sstables.zip st.bloom_filters, ∀ kk ∈ tb.1.data.map Prod.fst,
    tb.2.might_contain pyHash kk = true) ∧
  (∀ t ∈ st.sstables, t.data ≠ [])

theorem INV_good {pyHash : Bytes → Nat} {S : Nat} {done : List (Bytes × Bytes)}
    {st : LSMTree} (h : INV pyHash S done st)
    (hnd : (done.map Prod.fst).Nodup) : Good pyHash st :=
  ⟨h.2.2.2.1, h.2.2.2.2.2.1,
    ((h.2.2.2.2.1.map Prod.fst).nodup_iff).mpr hnd⟩

theorem INV_init (pyHash : Bytes → Nat) (S : Nat) :
    INV pyHash S [] (LSMTree.init S) := by
  refine ⟨rfl, by simp [LSMTree.init], by simp [LSMTree.init], rfl,
    List.Perm.refl _, ?_, ?_⟩
  · intro tb htb
    cases htb
  · intro t ht
    cases ht

theorem INV_put {pyHash : Bytes → Nat} {S : Nat} {done : List (Bytes × Bytes)}
    {st : LSMTree} (hS : 1 ≤ S) (h : INV pyHash S done st)
    (hnd : (done.map Prod.fst).Nodup) (p : Bytes × Bytes)
    (hfresh : p.1 ∉ done.map Prod.fst) :
    INV pyHash S (done ++ [p]) (st.put pyHash p.1 p.2) := by
  obtain ⟨hmax, hmem, hsslen, hblen, hperm, hok, hne⟩ := h
  have hmemkeys : p.1 ∉ st.memtable.data.map Prod.fst := by
    intro hk
    refine hfresh ?_
    obtain ⟨q, hq, hqk⟩ := List.mem_map.mp hk
    have : q ∈ done := hperm.mem_iff.mp (List.mem_append.mpr (Or.inl hq))
    exact List.mem_map.mpr ⟨q, this, hqk⟩
  have hnotany : ¬st.memtable.data.any (fun q => q.1 == p.1) = true := by
    intro hany
    obtain ⟨q, hq, hqk⟩ := List.any_eq_true.mp hany
    exact hmemkeys (List.mem_map.mpr ⟨q, hq, by simpa using hqk⟩)
  have hput : (st.memtable.put p.1 p.2).data = st.memtable.data ++ [p] := by
    rw [MemTable.put]
    simp only
    rw [dictSet, if_neg hnotany]
  have hput_max : (st.memtable.put p.1 p.2).max_size = S := hmax
  have hmlen : st.memtable.data.length = done.length % S := by
    rw [hmem, List.length_drop]
    have := Nat.div_add_mod done.length S
    omega
  have hmodlt : done.length % S < S := Nat.mod_lt _ (by omega)
  have hput_len : (st.memtable.put p.1 p.2).data.length = done.length % S + 1 := by
    rw [hput, List.length_append, hmlen]
    simp
  rw [LSMTree.put]
  simp only
  by_cases hfull : S ≤ done.length % S + 1
  · -- the memtable just reached the threshold: flushed
    rw [if_pos (by
      rw [MemTable.is_full]
      simp only [decide_eq_true_eq]
      rw [hput_max, hput_len]
      exact hfull)]
    rw [LSMTree.flushMemtable]
    simp only
    set m1 : MemTable := st.memtable.put p.1 p.2 with hm1
    have hm1nd : (m1.data.map Prod.fst).Nodup := by
      rw [hm1, hput]
      simp only [List.map_append]
      refine List.Nodup.append ?_ (by simp) ?_
      · have hall : ((st.memtable.data ++ flatData st.sstables).map Prod.fst).Nodup :=
          ((hperm.map Prod.fst).nodup_iff).mpr hnd
        rw [List.map_append] at hall
        exact (List.nodup_append.mp hall).1
      · intro a ha hb
        simp only [List.map_cons, List.map_nil, List.mem_singleton] at hb
        exact hmemkeys (hb ▸ ha)
    have hTperm : (m1.to_sstable).data.Perm m1.data := to_sstable_perm hm1nd
    have hTlen : (m1.to_sstable).data.length = S := by
      rw [hTperm.length_eq, hm1, hput_len]
      omega
    have hdm := Nat.div_add_mod done.length S
    have hx : (done ++ [p]).length = S * (done.length / S + 1) := by
      rw [List.length_append]
      simp only [List.length_cons, List.length_nil]
      rw [Nat.mul_succ]
      omega
    refine ⟨hmax, ?_, ?_, ?_, ?_, ?_, ?_⟩
    · show ([] : List (Bytes × Bytes)) = (done ++ [p]).drop _
      rw [eq_comm, List.drop_eq_nil_iff, hx,
        Nat.mul_div_cancel_left _ (by omega : 0 < S)]
    · show (st.sstables ++ [_]).length = (done ++ [p]).length / S
      rw [hx, Nat.mul_div_cancel_left _ (by omega : 0 < S), List.length_append]
      simp only [List.length_cons, List.length_nil]
      omega
    · show (st.bloom_filters ++ [_]).length = (st.sstables ++ [_]).length
      rw [List.length_append, List.length_append]
      simp only [List.length_cons, List.length_nil]
      omega
    · show (([] : List (Bytes × Bytes)) ++
        flatData (st.sstables ++ [m1.to_sstable])).Perm (done ++ [p])
      rw [List.nil_append, flatData, List.flatMap_append]
      simp only [List.flatMap_cons, List.flatMap_nil, List.append_nil]
      have h1 : (st.sstables.flatMap (fun t => t.data) ++ (m1.to_sstable).data).Perm
          (st.sstables.flatMap (fun t => t.data) ++ m1.data) :=
        List.Perm.append_left _ hTperm
      have h2 : (st.sstables.flatMap (fun t => t.data) ++ m1.data).Perm
          ((st.memtable.data ++ [p]) ++ st.sstables.flatMap (fun t => t.data)) := by
        rw [hm1, hput]
        exact List.perm_append_comm
      have h3 : ((st.memtable.data ++ [p]) ++
          st.sstables.flatMap (fun t => t.data)).Perm
          ((st.memtable.data ++ st.sstables.flatMap (fun t => t.data)) ++ [p]) := by
        rw [List.append_assoc, List.append_assoc]
        exact List.Perm.append_left _ List.perm_append_comm
      have h4 : ((st.memtable.data ++ st.sstables.flatMap (fun t => t.data)) ++ [p]).Perm
          (done ++ [p]) := List.Perm.append_right _ (by rw [← flatData]; exact hperm)
      exact ((h1.trans h2).trans h3).trans h4
    · intro tb htb kk hkk
      rw [List.zip_append (by omega)] at htb
      rcases List.mem_append.mp htb with htb' | htb'
      · exact hok tb htb' kk hkk
      · have htbe : tb = (m1.to_sstable,
            ((m1.to_sstable).data.map (fun q => q.1)).foldl
              (fun b kq => b.add pyHash kq)
              (BloomFilter.init ((m1.to_sstable).data.length * 10))) := by
          simpa using htb'
        subst htbe
        refine fold_add_contains pyHash _ (by rw [BloomFilter.init]; simp)
          (by rw [BloomFilter.init]; simp only; rw [hTlen]; omega) ?_
        simpa using hkk
    · intro t ht
      rcases List.mem_append.mp ht with ht' | ht'
      · exact hne t ht'
      · rw [List.mem_singleton.mp ht']
        intro hnil
        rw [hnil] at hTlen
        simp at hTlen
        omega
  · -- no flush
    rw [if_neg (by
      rw [MemTable.is_full]
      simp only [decide_eq_true_eq]
      rw [hput_max, hput_len]
      exact hfull)]
    have hdm := Nat.div_add_mod done.length S
    have hx : (done ++ [p]).length = (done.length % S + 1) + S * (done.length / S) := by
      rw [List.length_append]
      simp only [List.length_cons, List.length_nil]
      omega
    refine ⟨hmax, ?_, ?_, hblen, ?_, hok, hne⟩
    · show (st.memtable.put p.1 p.2).data = (done ++ [p]).drop _
      rw [hput, hx, Nat.add_mul_div_left _ _ (by omega : 0 < S),
        Nat.div_eq_of_lt (by omega : done.length % S + 1 < S), Nat.zero_add,
        List.drop_append_of_le_length (by omega), hmem]
    · show st.sstables.length = (done ++ [p]).length / S
      rw [hx, Nat.add_mul_div_left _ _ (by omega : 0 < S),
        Nat.div_eq_of_lt (by omega : done.length % S + 1 < S), Nat.zero_add]
      exact hsslen
    · show ((st.memtable.put p.1 p.2).data ++ flatData st.sstables).Perm (done ++ [p])
      rw [hput, List.append_assoc]
      have h1 : (st.memtable.data ++ ([p] ++ flatData st.sstables)).Perm
          (st.memtable.data ++ (flatData st.sstables ++ [p])) :=
        List.Perm.append_left _ List.perm_append_comm
      have h2 : (st.memtable.data ++ (flatData st.sstables ++ [p])).Perm
          (done ++ [p]) := by
        rw [← List.append_assoc]
        exact List.Perm.append_right _ hperm
      exact h1.trans h2

theorem INV_foldl {pyHash : Bytes → Nat} {S : Nat} :
    ∀ (rest done : List (Bytes × Bytes)) (st : LSMTree),
      1 ≤ S → INV pyHash S done st → ((done ++ rest).map Prod.fst).Nodup →
      INV pyHash S (done ++ rest)
        (rest.foldl (fun s p => s.put pyHash p.1 p.2) st) := by
  intro rest
  induction rest with
  | nil =>
    intro done st _ h _
    simpa using h
  | cons p rest ih =>
    intro done st hS h hnd
    rw [List.foldl_cons]
    have hfresh : p.1 ∉ done.map Prod.fst := by
      rw [List.map_append] at hnd
      intro hk
      exact (List.nodup_append.mp hnd).2.2 hk (by simp)
    have hnd_done : (done.map Prod.fst).Nodup := by
      rw [List.map_append] at hnd
      exact (List.nodup_append.mp hnd).1
    have h' := INV_put hS h hnd_done p hfresh
    have hnd' : (((done ++ [p]) ++ rest).map Prod.fst).Nodup := by
      rw [List.append_assoc]
      exact hnd
    have := ih (done ++ [p]) _ hS h' hnd'
    rw [List.append_assoc] at this
    exact this

theorem foldl_nested_data {γ : Type} (f : γ → (Bytes × Bytes) → γ) :
    ∀ (L : List SSTable) (init : γ),
      L.foldl (fun acc t => t.data.foldl f acc) init = (flatData L).foldl f init := by
  intro L
  induction L with
  | nil => intro init; rfl
  | cons t L ih =>
    intro init
    rw [List.foldl_cons, flatData, List.flatMap_cons, List.foldl_append, ih]
    rfl

theorem merge_fold_aux :
    ∀ (L acc : List (Bytes × Bytes)),
      (∀ p ∈ L, p.2 ≠ TOMBSTONE) →
      ((acc ++ L).map Prod.fst).Nodup →
      L.foldl (fun md p => if md.any (fun q => q.1 == p.1) || p.2 == TOMBSTONE
        then md else md ++ [(p.1, p.2)]) acc = acc ++ L := by
  intro L
  induction L with
  | nil => intro acc _ _; simp
  | cons p L ih =>
    intro acc hv hnd
    rw [List.foldl_cons]
    have hnotany : ¬acc.any (fun q => q.1 == p.1) = true := by
      intro hany
      obtain ⟨q, hq, hqk⟩ := List.any_eq_true.mp hany
      rw [List.map_append] at hnd
      exact (List.nodup_append.mp hnd).2.2
        (List.mem_map.mpr ⟨q, hq, by simpa using hqk⟩) (by simp)
    have hpt : ¬(p.2 == TOMBSTONE) = true := by simpa using hv p (by simp)
    rw [if_neg (by simp [hnotany, hpt])]
    have hnd' : (((acc ++ [(p.1, p.2)]) ++ L).map Prod.fst).Nodup := by
      rw [List.append_assoc]
      exact hnd
    rw [ih (acc ++ [(p.1, p.2)]) (fun q hq => hv q (List.mem_cons_of_mem _ hq)) hnd',
      List.append_assoc]
    rfl

theorem mergeData_perm {st : LSMTree}
    (hv : ∀ p ∈ flatData st.sstables, p.2 ≠ TOMBSTONE)
    (hndflat : ((flatData st.sstables).map Prod.fst).Nodup) :
    (mergeData st.sstables).Perm (flatData st.sstables) := by
  rw [mergeData, foldl_nested_data]
  have hrev := flatMap_reverse_perm st.sstables (fun t => t.data)
  have hv' : ∀ p ∈ flatData st.sstables.reverse, p.2 ≠ TOMBSTONE :=
    fun p hp => hv p ((flatMap_reverse_perm _ _).mem_iff.mp hp)
  have hnd' : ((flatData st.sstables.reverse).map Prod.fst).Nodup :=
    ((hrev.map Prod.fst).nodup_iff).mpr hndflat
  rw [merge_fold_aux _ [] hv' (by simpa using hnd')]
  simpa [flatData] using hrev

/-- `compact` on at least two SSTables: one merged SSTable holding
exactly the stored pairs, a sound bloom filter, memtable untouched. -/
theorem compact_state {pyHash : Bytes → Nat} {S : Nat} {done : List (Bytes × Bytes)}
    {st : LSMTree} (h2 : 2 ≤ st.sstables.length)
    (hInv : INV pyHash S done st) (hnd : (done.map Prod.fst).Nodup)
    (hv : ∀ p ∈ done, p.2 ≠ TOMBSTONE) :
    (st.compact pyHash).sstables.length = 1 ∧
    Good pyHash (st.compact pyHash) ∧
    ((st.compact pyHash).memtable.data ++
      flatData (st.compact pyHash).sstables).Perm done := by
  obtain ⟨hmax, hmem, hsslen, hblen, hperm, hok, hne⟩ := hInv
  have hndall : ((st.memtable.data ++ flatData st.sstables).map Prod.fst).Nodup :=
    ((hperm.map Prod.fst).nodup_iff).mpr hnd
  have hndflat : ((flatData st.sstables).map Prod.fst).Nodup := by
    rw [List.map_append] at hndall
    exact (List.nodup_append.mp hndall).2.1
  have hflatv : ∀ p ∈ flatData st.sstables, p.2 ≠ TOMBSTONE := fun p hp =>
    hv p (hperm.mem_iff.mp (List.mem_append.mpr (Or.inr hp)))
  have hmg := mergeData_perm hflatv hndflat
  have hitems : (sortPairs (mergeData st.sstables)).Perm (flatData st.sstables) :=
    (sortPairs_perm _).trans hmg
  have hitemsnd : ((sortPairs (mergeData st.sstables)).map Prod.fst).Nodup :=
    ((hitems.map Prod.fst).nodup_iff).mpr hndflat
  have hdict : dictOfPairs (sortPairs (mergeData st.sstables)) =
      sortPairs (mergeData st.sstables) := dictOfPairs_of_nodup hitemsnd
  have hflatne : flatData st.sstables ≠ [] := by
    cases hss : st.sstables with
    | nil => rw [hss] at h2; simp at h2
    | cons t ts =>
      have ht := hne t (by rw [hss]; simp)
      rw [flatData, List.flatMap_cons]
      intro hnil
      rw [List.append_eq_nil] at hnil
      exact ht hnil.1
  have hitemslen : 0 < (sortPairs (mergeData st.sstables)).length := by
    rw [hitems.length_eq]
    cases hfd : flatData st.sstables with
    | nil => exact absurd hfd hflatne
    | cons a l => simp
  have hC : st.compact pyHash = { st with
      sstables := [⟨dictOfPairs (sortPairs (mergeData st.sstables))⟩]
      bloom_filters := [(sortPairs (mergeData st.sstables)).foldl
        (fun b p => b.add pyHash p.1)
        (BloomFilter.init ((sortPairs (mergeData st.sstables)).length * 10))] } := by
    rw [LSMTree.compact, if_neg (by omega)]
  rw [hC]
  refine ⟨rfl, ⟨rfl, ?_, ?_⟩, ?_⟩
  · intro tb htb kk hkk
    have htbe : tb = (⟨dictOfPairs (sortPairs (mergeData st.sstables))⟩,
        (sortPairs (mergeData st.sstables)).foldl (fun b p => b.add pyHash p.1)
          (BloomFilter.init ((sortPairs (mergeData st.sstables)).length * 10))) := by
      simpa using htb
    subst htbe
    simp only at hkk
    rw [hdict] at hkk
    obtain ⟨q, hq, hqk⟩ := List.mem_map.mp hkk
    have : kk ∈ (sortPairs (mergeData st.sstables)).map (fun p => p.1) :=
      List.mem_map.mpr ⟨q, hq, hqk⟩
    have hfold := fold_add_contains pyHash
      (BloomFilter.init ((sortPairs (mergeData st.sstables)).length * 10))
      (by rw [BloomFilter.init]; simp)
      (by rw [BloomFilter.init]; simp only; omega) this
    rw [List.foldl_map] at hfold
    exact hfold
  · show ((st.memtable.data ++
      flatData [⟨dictOfPairs (sortPairs (mergeData st.sstables))⟩]).map Prod.fst).Nodup
    rw [flatData]
    simp only [List.flatMap_cons, List.flatMap_nil, List.append_nil, hdict]
    have hp : (st.memtable.data ++ sortPairs (mergeData st.sstables)).Perm
        (st.memtable.data ++ flatData st.sstables) := List.Perm.append_left _ hitems
    exact ((hp.map Prod.fst).nodup_iff).mpr hndall
  · show (st.memtable.data ++
      flatData [⟨dictOfPairs (sortPairs (mergeData st.sstables))⟩]).Perm done
    rw [flatData]
    simp only [List.flatMap_cons, List.flatMap_nil, List.append_nil, hdict]
    exact (List.Perm.append_left _ hitems).trans hperm

end Lsm

/-- C7 (amended): inserting N distinct keys (none bearing the tombstone
value) into a fresh LSMTree with memtable threshold S ≥ 1 produces
`floor(N/S)` SSTables before compaction (the memtable flushes only when
it reaches S entries, so a partial chunk stays unflushed — `ceil` holds
only when S divides N); after `compact()` exactly one SSTable exists
when at least two existed (`compact` is a no-op below two), and every
key remains retrievable via `get` with its last-written value both
before and after compaction. -/
theorem claim_C7 (pyHash : Bytes → Nat) (S : Nat) (kvs : List (Bytes × Bytes))
    (hS : 1 ≤ S) (hnd : (kvs.map Prod.fst).Nodup)
    (hv : ∀ p ∈ kvs, p.2 ≠ Lsm.TOMBSTONE) :
    (kvs.foldl (fun s p => s.put pyHash p.1 p.2) (Lsm.LSMTree.init S)).sstables.length
      = kvs.length / S ∧
    ((kvs.foldl (fun s p => s.put pyHash p.1 p.2)
        (Lsm.LSMTree.init S)).compact pyHash).sstables.length =
      (if 2 ≤ kvs.length / S then 1 else kvs.length / S) ∧
    (∀ p ∈ kvs,
      ((kvs.foldl (fun s p => s.put pyHash p.1 p.2)
        (Lsm.LSMTree.init S)).get pyHash p.1).2 = some p.2 ∧
      (((kvs.foldl (fun s p => s.put pyHash p.1 p.2)
        (Lsm.LSMTree.init S)).compact pyHash).get pyHash p.1).2 = some p.2) := by
  have hInv0 := Lsm.INV_foldl kvs [] (Lsm.LSMTree.init S) hS
    (Lsm.INV_init pyHash S) (by simpa using hnd)
  rw [List.nil_append] at hInv0
  set st := kvs.foldl (fun s p => s.put pyHash p.1 p.2) (Lsm.LSMTree.init S) with hst
  have hsslen := hInv0.2.2.1
  refine ⟨hsslen, ?_, ?_⟩
  · by_cases h2 : 2 ≤ st.sstables.length
    · rw [(Lsm.compact_state h2 hInv0 hnd hv).1, if_pos (by omega)]
    · rw [Lsm.LSMTree.compact, if_pos (by omega), if_neg (by omega)]
      exact hsslen
  · intro p hp
    constructor
    · show st.getValue pyHash p.1 = some p.2
      exact Lsm.getValue_mem (Lsm.INV_good hInv0 hnd)
        (hInv0.2.2.2.2.1.mem_iff.mpr hp)
    · show (st.compact pyHash).getValue pyHash p.1 = some p.2
      by_cases h2 : 2 ≤ st.sstables.length
      · obtain ⟨_, hgood, hperm'⟩ := Lsm.compact_state h2 hInv0 hnd hv
        exact Lsm.getValue_mem hgood (hperm'.mem_iff.mpr hp)
      · rw [Lsm.LSMTree.compact, if_pos (by omega)]
        exact Lsm.getValue_mem (Lsm.INV_good hInv0 hnd)
          (hInv0.2.2.2.2.1.mem_iff.mpr hp)

/-- C7 witness: the amended theorem at a concrete run (S = 1, two
distinct keys: one SSTable per key before compaction, one after). -/
theorem claim_C7_witness :
    ([([107], [1]), ([108], [2])].foldl
      (fun s p => s.put (fun _ => 0) p.1 p.2) (Lsm.LSMTree.init 1)).sstables.length
      = [([107], [1]), ([108], [2])].length / 1 :=
  (claim_C7 (fun _ => 0) 1 [([107], [1]), ([108], [2])] (by decide) (by decide)
    (by decide)).1

/-! ### WAL recovery lemmas (C2) -/

namespace Wal

theorem groupGet_cons_pos {p : Nat × List LogEntry} {g : List (Nat × List LogEntry)}
    {t : Nat} (h : p.1 = t) : groupGet (p :: g) t = p.2 := by
  rw [groupGet, List.find?_cons_of_pos _ (by simp [h])]
  rfl

theorem groupGet_cons_neg {p : Nat × List LogEntry} {g : List (Nat × List LogEntry)}
    {t : Nat} (h : ¬p.1 = t) : groupGet (p :: g) t = groupGet g t := by
  rw [groupGet, List.find?_cons_of_neg _ (by simp [h])]
  rfl

theorem groupGet_map_add (e : LogEntry) (t : Nat) :
    ∀ g : List (Nat × List LogEntry),
      groupGet (g.map (fun p =>
        if p.1 == e.txn_id then (p.1, p.2 ++ [e]) else p)) t
        = if t = e.txn_id ∧ (g.any (fun p => p.1 == t)) = true
          then groupGet g t ++ [e] else groupGet g t := by
  intro g
  induction g with
  | nil => simp [groupGet]
  | cons p g ih =>
    rw [List.map_cons]
    by_cases hpt : p.1 = t
    · by_cases hte : t = e.txn_id
      · have hpe : (p.1 == e.txn_id) = true := by
          simp only [beq_iff_eq]
          rw [hpt]
          exact hte
        rw [if_pos hpe, groupGet_cons_pos (show ((p.1, p.2 ++ [e]) :
            Nat × List LogEntry).1 = t from hpt),
          if_pos ⟨hte, by rw [List.any_cons]; simp [hpt]⟩,
          groupGet_cons_pos hpt]
      · have hpe : ¬((p.1 == e.txn_id) = true) := by
          simp only [beq_iff_eq]
          rw [hpt]
          exact hte
        rw [if_neg hpe, groupGet_cons_pos hpt,
          if_neg (fun hc => hte hc.1), groupGet_cons_pos hpt]
    · have hkey : ((if (p.1 == e.txn_id) = true then (p.1, p.2 ++ [e]) else p)).1
        = p.1 := by
        split <;> rfl
      rw [groupGet_cons_neg (by rw [hkey]; exact hpt), ih]
      have hany : ((p :: g).any (fun q => q.1 == t))
          = (g.any (fun q => q.1 == t)) := by
        rw [List.any_cons]
        simp [hpt]
      rw [hany]
      simp only [groupGet_cons_neg hpt]

theorem groupGet_groupAdd (g : List (Nat × List LogEntry)) (e : LogEntry) (t : Nat) :
    groupGet (groupAdd g e) t =
      if t = e.txn_id then groupGet g t ++ [e] else groupGet g t := by
  rw [groupAdd]
  by_cases hany : (g.any (fun p => p.1 == e.txn_id)) = true
  · rw [if_pos hany, groupGet_map_add]
    by_cases hte : t = e.txn_id
    · rw [if_pos ⟨hte, by rw [hte]; exact hany⟩, if_pos hte]
    · rw [if_neg (fun hc => hte hc.1), if_neg hte]
  · rw [if_neg hany]
    by_cases hte : t = e.txn_id
    · have hnone : g.find? (fun p => p.1 == t) = none := by
        rw [List.find?_eq_none]
        intro p hp hpt
        apply hany
        rw [List.any_eq_true]
        refine ⟨p, hp, ?_⟩
        simp only [beq_iff_eq] at hpt ⊢
        rw [hpt]
        exact hte
      rw [if_pos hte]
      rw [show groupGet (g ++ [(e.txn_id, [e])]) t = [e] from by
        rw [groupGet, List.find?_append, hnone, Option.none_or,
          List.find?_cons_of_pos _ (by simp [hte])]
        rfl]
      rw [show groupGet g t = [] from by rw [groupGet, hnone]; rfl]
      rfl
    · rw [if_neg hte, groupGet, groupGet, List.find?_append,
        List.find?_cons_of_neg _ (by
          simp only [beq_iff_eq]
          intro hc
          exact hte hc.symm)]
      rw [show (List.find? (fun p => p.1 == t)
        ([] : List (Nat × List LogEntry))) = none from rfl, Option.or_none]

theorem groupGet_fold (t : Nat) :
    ∀ (es : List LogEntry) (g : List (Nat × List LogEntry)),
      groupGet (es.foldl groupAdd g) t
        = groupGet g t ++ es.filter (fun e => e.txn_id == t) := by
  intro es
  induction es with
  | nil => intro g; simp
  | cons e es ih =>
    intro g
    rw [List.foldl_cons, ih, groupGet_groupAdd, List.filter_cons]
    by_cases hte : t = e.txn_id
    · rw [if_pos hte, if_pos (by simp [hte]), List.append_assoc]
      rfl
    · rw [if_neg hte, if_neg (by
        simp only [beq_iff_eq]
        intro hc
        exact hte hc.symm)]

theorem groupGet_groupByTxn (es : List LogEntry) (t : Nat) :
    groupGet (groupByTxn es) t = es.filter (fun e => e.txn_id == t) := by
  have h := groupGet_fold t es []
  rw [groupByTxn]
  simpa [groupGet] using h

theorem redoList_flatMap (f : Nat → List LogEntry) :
    ∀ (ids : List Nat) (st : Storage),
      redoList st (ids.flatMap f)
        = ids.foldl (fun st t => redoList st (f t)) st := by
  intro ids
  induction ids with
  | nil => intro st; rfl
  | cons t ids ih =>
    intro st
    rw [redoList, List.flatMap_cons, List.foldl_append, List.foldl_cons]
    exact ih _

theorem mem_groupAdd_key {g : List (Nat × List LogEntry)} {e : LogEntry}
    {q : Nat × List LogEntry} (h : q ∈ groupAdd g e) :
    (∃ p ∈ g, p.1 = q.1) ∨ q.1 = e.txn_id := by
  rw [groupAdd] at h
  by_cases hany : (g.any (fun p => p.1 == e.txn_id)) = true
  · rw [if_pos hany] at h
    rcases List.mem_map.mp h with ⟨p, hp, he⟩
    left
    refine ⟨p, hp, ?_⟩
    rw [← he]
    split <;> rfl
  · rw [if_neg hany] at h
    rcases List.mem_append.mp h with h1 | h1
    · exact Or.inl ⟨q, h1, rfl⟩
    · right
      rw [List.mem_singleton.mp h1]

theorem mem_fold_groupAdd_key :
    ∀ (es : List LogEntry) (g : List (Nat × List LogEntry))
      (q : Nat × List LogEntry), q ∈ es.foldl groupAdd g →
      (∃ p ∈ g, p.1 = q.1) ∨ ∃ e ∈ es, e.txn_id = q.1 := by
  intro es
  induction es with
  | nil => intro g q h; exact Or.inl ⟨q, h, rfl⟩
  | cons e es ih =>
    intro g q h
    rw [List.foldl_cons] at h
    rcases ih _ q h with h1 | h1
    · rcases h1 with ⟨p, hp, hpq⟩
      rcases mem_groupAdd_key hp with h2 | h2
      · rcases h2 with ⟨p2, hp2, hk⟩
        exact Or.inl ⟨p2, hp2, hk.trans hpq⟩
      · exact Or.inr ⟨e, List.mem_cons_self _ _, h2.symm.trans hpq⟩
    · rcases h1 with ⟨e2, he2, hk⟩
      exact Or.inr ⟨e2, List.mem_cons_of_mem _ he2, hk⟩

theorem mem_groupByTxn_key {es : List LogEntry} {q : Nat × List LogEntry}
    (h : q ∈ groupByTxn es) : ∃ e ∈ es, e.txn_id = q.1 := by
  rcases mem_fold_groupAdd_key es [] q h with h1 | h1
  · rcases h1 with ⟨p, hp, _⟩
    exact absurd hp (List.not_mem_nil p)
  · exact h1

theorem undoFold_id (committed : List Nat) :
    ∀ (l : List (Nat × List LogEntry)) (st : Storage),
      (∀ p ∈ l, p.1 ∈ committed ∨ p.1 = 0) →
      l.foldl (fun st p =>
        if p.1 ∈ committed ∨ p.1 = 0 then st else undoList st p.2) st = st := by
  intro l
  induction l with
  | nil => intro st _; rfl
  | cons p l ih =>
    intro st h
    rw [List.foldl_cons, if_pos (h p (List.mem_cons_self _ _))]
    exact ih st (fun q hq => h q (List.mem_cons_of_mem _ hq))

theorem recover_redo_phase (cp : Nat) (log : List LogEntry) (storage : Storage) :
    recover cp log storage =
      (groupByTxn (scannedEntries cp log)).foldl
        (fun st p =>
          if p.1 ∈ committedIds (scannedEntries cp log) ∨ p.1 = 0 then st
          else undoList st p.2)
        (redoList storage (perTxnSeq (scannedEntries cp log))) := by
  rw [recover]
  congr 1
  rw [perTxnSeq, redoList_flatMap]
  have hfun : (fun (st : Storage) t =>
      redoList st (groupGet (groupByTxn (scannedEntries cp log)) t))
      = (fun (st : Storage) t =>
        redoList st ((scannedEntries cp log).filter (fun e => e.txn_id == t))) := by
    funext st t
    rw [groupGet_groupByTxn]
  rw [hfun]

/-- **C2 counterexample.** On `interleavedLog`, recovery's REDO phase
replays committed transactions grouped per id, so key `[2]` ends at
`[21]` (transaction 2's value) although the log-order replay of all
committed INSERT/UPDATE/DELETE entries ends at `[11]` (the later log
entry); and the UNDO phase writes the uncommitted transaction 3's
recorded `old_value` `[99]` into storage at key `[3]`, so storage does
not contain only committed effects. -/
theorem claim_C2_counterexample :
    recover 0 interleavedLog emptyStorage (some [2]) = some (some [21]) ∧
    redoList emptyStorage ((scannedEntries 0 interleavedLog).filter
      (fun e => decide (e.txn_id ∈ committedIds (scannedEntries 0 interleavedLog))))
      (some [2]) = some (some [11]) ∧
    (some (some [21]) : Option (Option Bytes)) ≠ some (some [11]) ∧
    recover 0 interleavedLog emptyStorage (some [3]) = some (some [99]) := by
  refine ⟨?_, ?_, ?_, ?_⟩ <;> decide

/-- **C2.** Corrected recovery characterisation: the REDO phase applies
the committed transactions' entries grouped per transaction in
ascending id order (each transaction's entries in log order) — the
flattened sequence `perTxnSeq` — not in global log order; the UNDO fold
then processes each uncommitted non-checkpoint group.  When every
scanned entry belongs to a committed transaction, recovery is exactly
the per-transaction replay. -/
theorem claim_C2 (cp : Nat) (log : List LogEntry) (storage : Storage) :
    recover cp log storage =
      (groupByTxn (scannedEntries cp log)).foldl
        (fun st p =>
          if p.1 ∈ committedIds (scannedEntries cp log) ∨ p.1 = 0 then st
          else undoList st p.2)
        (redoList storage (perTxnSeq (scannedEntries cp log))) ∧
    ((∀ e ∈ scannedEntries cp log,
        e.txn_id ∈ committedIds (scannedEntries cp log)) →
      recover cp log storage
        = redoList storage (perTxnSeq (scannedEntries cp log))) := by
  refine ⟨recover_redo_phase cp log storage, ?_⟩
  intro h
  rw [recover_redo_phase]
  apply undoFold_id
  intro p hp
  rcases mem_groupByTxn_key hp with ⟨e, he, hk⟩
  left
  rw [← hk]
  exact h e he

/-- Witness for C2: a log holding one committed transaction satisfies
the side condition, and recovery is the per-transaction replay. -/
theorem claim_C2_witness :
    (∀ e ∈ scannedEntries 0 committedOnlyLog,
      e.txn_id ∈ committedIds (scannedEntries 0 committedOnlyLog)) ∧
    recover 0 committedOnlyLog emptyStorage
      = redoList emptyStorage (perTxnSeq (scannedEntries 0 committedOnlyLog)) :=
  ⟨by decide, (claim_C2 0 committedOnlyLog emptyStorage).2 (by decide)⟩

end Wal

/-! ### BTree invariant lemmas (C5) -/

namespace BT

theorem insertNonFullF_eq (order : Nat) (key value : Int) :
    ∀ (fuel : Nat) (n : BTreeNode), n.height ≤ fuel →
      insertNonFullF fuel order n key value = insertNonFull order n key value := by
  intro fuel
  induction fuel with
  | zero =>
    intro n h
    obtain ⟨ks, vs, cs, leaf⟩ := n
    rw [BTreeNode.height] at h
    omega
  | succ fuel ih =>
    intro n h
    rw [insertNonFull]
    simp only [insertNonFullF]
    by_cases hleaf : n.leaf = true
    · rw [if_pos hleaf, if_pos hleaf]
    · rw [if_neg hleaf, if_neg hleaf]
      cases hget : n.children.get? (childIndex n.keys key) with
      | none => rfl
      | some c =>
        dsimp only
        by_cases hfull : c.is_full order = true
        · rw [if_pos hfull, if_pos hfull]
          cases hget2 : (splitChild n (childIndex n.keys key)).children.get?
            (if (splitChild n (childIndex n.keys key)).keys.getD
                (childIndex n.keys key) 0 < key
              then childIndex n.keys key + 1 else childIndex n.keys key) with
          | none => rfl
          | some c' =>
            dsimp only
            have hc' : c'.height ≤ fuel := by
              have := height_lt_of_mem_splitChild (List.get?_mem hget2)
              omega
            rw [ih c' hc']
        · rw [if_neg hfull, if_neg hfull]
          have hc : c.height ≤ fuel := by
            have := height_lt_of_mem (List.get?_mem hget)
            omega
          rw [ih c hc]

theorem insertF_eq (t : BTree) (key value : Int) :
    t.insertF key value = t.insert key value := by
  rw [BTree.insertF, BTree.insert, insertNonFullF_eq _ key value _ _ (le_refl _)]

theorem buildTreeF_eq (order : Nat) (ops : List (Int × Int)) :
    buildTreeF order ops = buildTree order ops := by
  rw [buildTreeF, buildTree]
  congr 1
  funext t p
  exact insertF_eq t p.1 p.2

theorem valid_keys_le {M : Nat} {root : Bool} {n : BTreeNode}
    (h : Valid M root n) : n.keys.length ≤ M - 1 := by
  rcases h with ⟨h1, _, _, _, _, _⟩
  exact h1

theorem valid_children {M : Nat} {root : Bool} {n : BTreeNode}
    (h : Valid M root n) : ∀ c ∈ n.children, Valid M false c := by
  rcases h with ⟨_, _, _, _, _, h6⟩
  exact h6

theorem valid_to_nonroot {M : Nat} {root : Bool} {n : BTreeNode}
    (h : Valid M root n) (hlow : M / 2 - 1 ≤ n.keys.length) :
    Valid M false n := by
  rcases h with ⟨h1, _, h3, h4, h5, h6⟩
  exact Valid.mk h1 (fun _ => hlow) h3 h4 h5 h6

theorem childIndex_le (ks : List Int) (key : Int) : childIndex ks key ≤ ks.length := by
  rw [childIndex]
  exact Nat.sub_le _ _

theorem leafIns_preserves {M : Nat} {root : Bool} {d : Nat} {n : BTreeNode}
    (hv : Valid M root n) (hd : EqDepth d n) (hleaf : n.leaf = true)
    (hroom : n.keys.length < M - 1) (key value : Int) :
    Valid M root (leafIns n key value) ∧ EqDepth d (leafIns n key value) := by
  rcases hv with ⟨hup, hlow, hvs, hleafc, hint, hkids⟩
  rename_i ks vs cs leaf
  have hroom' : ks.length < M - 1 := hroom
  have hi : childIndex ks key ≤ ks.length := childIndex_le ks key
  have hiv : childIndex ks key ≤ vs.length := by omega
  constructor
  · refine Valid.mk ?_ ?_ ?_ ?_ ?_ ?_
    · show (ks.insertIdx (childIndex ks key) key).length ≤ M - 1
      rw [List.length_insertIdx _ _ hi]
      omega
    · intro hroot
      show M / 2 - 1 ≤ (ks.insertIdx (childIndex ks key) key).length
      rw [List.length_insertIdx _ _ hi]
      have := hlow hroot
      omega
    · show (vs.insertIdx (childIndex ks key) value).length
        = (ks.insertIdx (childIndex ks key) key).length
      rw [List.length_insertIdx _ _ hi, List.length_insertIdx _ _ hiv, hvs]
    · exact hleafc
    · intro hl
      exact absurd (hleaf.symm.trans hl) (by decide)
    · exact hkids
  · cases d with
    | zero => exact hleaf
    | succ d => exact absurd (hleaf.symm.trans hd.1) (by decide)

theorem splitChildNode_valid {M : Nat} (hM : 3 ≤ M) {c : BTreeNode} {rootc : Bool}
    (hv : Valid M rootc c) (hclen : c.keys.length = M - 1) :
    Valid M false (splitChildNode c).1 ∧ Valid M false (splitChildNode c).2.2 := by
  rcases hv with ⟨hup, hlow, hvs, hleafc, hint, hkids⟩
  rename_i ks vs cs leaf
  have hks : ks.length = M - 1 := hclen
  constructor
  · refine Valid.mk ?_ ?_ ?_ ?_ ?_ ?_
    · show (ks.take (ks.length / 2)).length ≤ M - 1
      rw [List.length_take]
      omega
    · intro _
      show M / 2 - 1 ≤ (ks.take (ks.length / 2)).length
      rw [List.length_take]
      omega
    · show (vs.take (ks.length / 2)).length = (ks.take (ks.length / 2)).length
      rw [List.length_take, List.length_take, hvs]
    · intro hl
      have hl' : leaf = true := hl
      show (if leaf = true then cs else cs.take (ks.length / 2 + 1)) = []
      rw [if_pos hl']
      exact hleafc hl'
    · intro hl
      have hl' : leaf = false := hl
      show (if leaf = true then cs else cs.take (ks.length / 2 + 1)).length
        = (ks.take (ks.length / 2)).length + 1
      rw [if_neg (by rw [hl']; decide), List.length_take, List.length_take, hint hl']
      omega
    · intro x hx
      have hx' : x ∈ (if leaf = true then cs else cs.take (ks.length / 2 + 1)) := hx
      by_cases hl : leaf = true
      · rw [if_pos hl] at hx'
        exact hkids x hx'
      · rw [if_neg hl] at hx'
        exact hkids x (List.mem_of_mem_take hx')
  · refine Valid.mk ?_ ?_ ?_ ?_ ?_ ?_
    · show (ks.drop (ks.length / 2 + 1)).length ≤ M - 1
      rw [List.length_drop]
      omega
    · intro _
      show M / 2 - 1 ≤ (ks.drop (ks.length / 2 + 1)).length
      rw [List.length_drop]
      omega
    · show (vs.drop (ks.length / 2 + 1)).length = (ks.drop (ks.length / 2 + 1)).length
      rw [List.length_drop, List.length_drop, hvs]
    · intro hl
      have hl' : leaf = true := hl
      show (if leaf = true then [] else cs.drop (ks.length / 2 + 1)) = []
      rw [if_pos hl']
    · intro hl
      have hl' : leaf = false := hl
      show (if leaf = true then [] else cs.drop (ks.length / 2 + 1)).length
        = (ks.drop (ks.length / 2 + 1)).length + 1
      rw [if_neg (by rw [hl']; decide), List.length_drop, List.length_drop, hint hl']
      omega
    · intro x hx
      have hx' : x ∈ (if leaf = true then [] else cs.drop (ks.length / 2 + 1)) := hx
      by_cases hl : leaf = true
      · rw [if_pos hl] at hx'
        exact absurd hx' (List.not_mem_nil x)
      · rw [if_neg hl] at hx'
        exact hkids x (List.mem_of_mem_drop hx')

theorem splitChildNode_eqDepth {d : Nat} {c : BTreeNode} (h : EqDepth d c) :
    EqDepth d (splitChildNode c).1 ∧ EqDepth d (splitChildNode c).2.2 := by
  obtain ⟨ks, vs, cs, leaf⟩ := c
  cases d with
  | zero => exact ⟨h, h⟩
  | succ d =>
    obtain ⟨hl, hc⟩ := h
    have hl' : leaf = false := hl
    refine ⟨⟨hl, ?_⟩, ⟨hl, ?_⟩⟩
    · intro x hx
      have hx' : x ∈ (if leaf = true then cs else cs.take (ks.length / 2 + 1)) := hx
      rw [if_neg (by rw [hl']; decide)] at hx'
      exact hc x (List.mem_of_mem_take hx')
    · intro x hx
      have hx' : x ∈ (if leaf = true then [] else cs.drop (ks.length / 2 + 1)) := hx
      rw [if_neg (by rw [hl']; decide)] at hx'
      exact hc x (List.mem_of_mem_drop hx')

theorem get?_set_insertIdx_left {α : Type} :
    ∀ (cs : List α) (i : Nat) (l r : α), i < cs.length →
      ((cs.set i l).insertIdx (i + 1) r).get? i = some l := by
  intro cs
  induction cs with
  | nil => intro i l r h; simp at h
  | cons c cs ih =>
    intro i l r h
    cases i with
    | zero => rfl
    | succ i =>
      rw [List.set_cons_succ, List.insertIdx_succ_cons, List.get?_cons_succ]
      exact ih i l r (by simpa using h)

theorem get?_set_insertIdx_right {α : Type} :
    ∀ (cs : List α) (i : Nat) (l r : α), i < cs.length →
      ((cs.set i l).insertIdx (i + 1) r).get? (i + 1) = some r := by
  intro cs
  induction cs with
  | nil => intro i l r h; simp at h
  | cons c cs ih =>
    intro i l r h
    cases i with
    | zero => rfl
    | succ i =>
      rw [List.set_cons_succ, List.insertIdx_succ_cons, List.get?_cons_succ]
      exact ih i l r (by simpa using h)

theorem splitChild_char {M : Nat} (hM : 3 ≤ M) {ks vs : List Int}
    {cs : List BTreeNode} {root rootc : Bool} {i : Nat} {c : BTreeNode} {d : Nat}
    (hv : Valid M root (.node ks vs cs false))
    (hget : cs.get? i = some c)
    (hclen : c.keys.length = M - 1)
    (hcval : Valid M rootc c)
    (hroom : ks.length < M - 1)
    (hdep : EqDepth (d + 1) (.node ks vs cs false)) :
    Valid M root (splitChild (.node ks vs cs false) i) ∧
    EqDepth (d + 1) (splitChild (.node ks vs cs false) i) ∧
    (splitChild (.node ks vs cs false) i).children.get? i
      = some (splitChildNode c).1 ∧
    (splitChild (.node ks vs cs false) i).children.get? (i + 1)
      = some (splitChildNode c).2.2 ∧
    (splitChildNode c).1.keys.length < M - 1 ∧
    (splitChildNode c).2.2.keys.length < M - 1 ∧
    (splitChild (.node ks vs cs false) i).keys.length = ks.length + 1 ∧
    (splitChild (.node ks vs cs false) i).leaf = false := by
  have hlen_i : i < cs.length := by
    by_contra hle
    rw [List.get?_eq_none.mpr (by omega)] at hget
    cases hget
  rcases hv with ⟨hup, hlow, hvs, _, hint, hkids⟩
  have hcs_len : cs.length = ks.length + 1 := hint rfl
  have hileq : i ≤ ks.length := by omega
  have hivleq : i ≤ vs.length := by omega
  have hsc : splitChild (.node ks vs cs false) i
      = .node (ks.insertIdx i (c.keys.getD (c.keys.length / 2) 0))
          (vs.insertIdx i (c.values.getD (c.keys.length / 2) 0))
          ((cs.set i (splitChildNode c).1).insertIdx (i + 1) (splitChildNode c).2.2)
          false := by
    rw [splitChild]
    simp only [BTreeNode.children, hget, BTreeNode.keys, BTreeNode.values,
      BTreeNode.leaf, splitChildNode]
  have hvalhalves := splitChildNode_valid hM hcval hclen
  have hdc : EqDepth d c := hdep.2 c (List.get?_mem hget)
  have hdephalves := splitChildNode_eqDepth hdc
  have hlkeys : (splitChildNode c).1.keys.length = c.keys.length / 2 := by
    obtain ⟨cks, cvs, ccs, cleaf⟩ := c
    show (cks.take (cks.length / 2)).length = cks.length / 2
    rw [List.length_take]
    omega
  have hrkeys : (splitChildNode c).2.2.keys.length
      = c.keys.length - (c.keys.length / 2 + 1) := by
    obtain ⟨cks, cvs, ccs, cleaf⟩ := c
    show (cks.drop (cks.length / 2 + 1)).length = cks.length - (cks.length / 2 + 1)
    rw [List.length_drop]
  refine ⟨?_, ?_, ?_, ?_, ?_, ?_, ?_, ?_⟩
  · rw [hsc]
    refine Valid.mk ?_ ?_ ?_ ?_ ?_ ?_
    · show (ks.insertIdx i _).length ≤ M - 1
      rw [List.length_insertIdx _ _ hileq]
      omega
    · intro hroot
      show M / 2 - 1 ≤ (ks.insertIdx i _).length
      rw [List.length_insertIdx _ _ hileq]
      have := hlow hroot
      omega
    · show (vs.insertIdx i _).length = (ks.insertIdx i _).length
      rw [List.length_insertIdx _ _ hileq, List.length_insertIdx _ _ hivleq, hvs]
    · intro hl
      exact absurd hl (by decide)
    · intro _
      show ((cs.set i _).insertIdx (i + 1) _).length = (ks.insertIdx i _).length + 1
      rw [List.length_insertIdx _ _ (by rw [List.length_set]; omega),
        List.length_set, List.length_insertIdx _ _ hileq]
      omega
    · intro x hx
      rcases mem_insertIdx_cases hx with rfl | hx'
      · exact hvalhalves.2
      · rcases List.mem_or_eq_of_mem_set hx' with hx'' | rfl
        · exact hkids x hx''
        · exact hvalhalves.1
  · rw [hsc]
    refine ⟨rfl, ?_⟩
    intro x hx
    rcases mem_insertIdx_cases hx with rfl | hx'
    · exact hdephalves.2
    · rcases List.mem_or_eq_of_mem_set hx' with hx'' | rfl
      · exact hdep.2 x hx''
      · exact hdephalves.1
  · rw [hsc]
    exact get?_set_insertIdx_left cs i _ _ hlen_i
  · rw [hsc]
    exact get?_set_insertIdx_right cs i _ _ hlen_i
  · rw [hlkeys]
    omega
  · rw [hrkeys]
    omega
  · rw [hsc]
    show (ks.insertIdx i _).length = ks.length + 1
    rw [List.length_insertIdx _ _ hileq]
  · rw [hsc]
    rfl

theorem setChildAt_preserves {M : Nat} {root : Bool} {d : Nat} {p : BTreeNode}
    (hlf : p.leaf = false) (hv : Valid M root p) (hd : EqDepth (d + 1) p)
    {j : Nat} {rec : BTreeNode}
    (hvr : Valid M false rec) (hdr : EqDepth d rec) :
    Valid M root (setChildAt p j rec) ∧ EqDepth (d + 1) (setChildAt p j rec) := by
  rcases hv with ⟨hup, hlow, hvs, hleafc, hint, hkids⟩
  rename_i ks vs cs leaf
  constructor
  · refine Valid.mk hup hlow hvs ?_ ?_ ?_
    · intro hl
      exact absurd (hlf.symm.trans hl) (by decide)
    · intro hl
      show (cs.set j rec).length = ks.length + 1
      rw [List.length_set]
      exact hint hl
    · intro x hx
      rcases List.mem_or_eq_of_mem_set hx with hx' | rfl
      · exact hkids x hx'
      · exact hvr
  · refine ⟨hd.1, ?_⟩
    intro x hx
    rcases List.mem_or_eq_of_mem_set hx with hx' | rfl
    · exact hd.2 x hx'
    · exact hdr

theorem insertNonFullF_preserves (M : Nat) (hM : 3 ≤ M) (key value : Int) :
    ∀ (fuel : Nat) (n : BTreeNode) (root : Bool) (d : Nat),
      Valid M root n → EqDepth d n → n.keys.length < M - 1 →
      Valid M root (insertNonFullF fuel M n key value) ∧
      EqDepth d (insertNonFullF fuel M n key value) := by
  intro fuel
  induction fuel with
  | zero =>
    intro n root d hv hd _
    exact ⟨hv, hd⟩
  | succ fuel ih =>
    intro n root d hv hd hroom
    simp only [insertNonFullF]
    by_cases hleaf : n.leaf = true
    · rw [if_pos hleaf]
      exact leafIns_preserves hv hd hleaf hroom key value
    · rw [if_neg hleaf]
      have hlf : n.leaf = false := by
        cases hnl : n.leaf
        · rfl
        · exact absurd hnl hleaf
      cases d with
      | zero => exact absurd (hlf.symm.trans hd) (by decide)
      | succ d =>
      cases hget : n.children.get? (childIndex n.keys key) with
      | none => exact ⟨hv, hd⟩
      | some c =>
        dsimp only
        have hcval : Valid M false c :=
          valid_children hv c (List.get?_mem hget)
        by_cases hfull : c.is_full M = true
        · rw [if_pos hfull]
          have hclen : c.keys.length = M - 1 := by
            rw [BTreeNode.is_full] at hfull
            have h1 := of_decide_eq_true hfull
            have h2 := valid_keys_le hcval
            omega
          obtain ⟨ks, vs, cs, leaf⟩ := n
          have hlf' : leaf = false := hlf
          subst hlf'
          obtain ⟨hvp, hdp, hgl, hgr, hll, hlr, hpk, hpl⟩ :=
            splitChild_char hM hv hget hclen hcval hroom hd
          by_cases hj : (splitChild (.node ks vs cs false)
              (childIndex (BTreeNode.node ks vs cs false).keys key)).keys.getD
              (childIndex (BTreeNode.node ks vs cs false).keys key) 0 < key
          · rw [if_pos hj]
            cases hget2 : (splitChild (.node ks vs cs false)
                (childIndex (BTreeNode.node ks vs cs false).keys key)).children.get?
                (childIndex (BTreeNode.node ks vs cs false).keys key + 1) with
            | none =>
              rw [hgr] at hget2
              cases hget2
            | some c' =>
              dsimp only
              have hc' : c' = (splitChildNode c).2.2 :=
                Option.some.inj (hget2.symm.trans hgr)
              subst hc'
              have hvr : Valid M false (splitChildNode c).2.2 :=
                valid_children hvp _ (List.get?_mem hgr)
              have hdr : EqDepth d (splitChildNode c).2.2 :=
                hdp.2 _ (List.get?_mem hgr)
              obtain ⟨hvr', hdr'⟩ := ih _ false d hvr hdr hlr
              exact setChildAt_preserves hpl hvp hdp hvr' hdr'
          · rw [if_neg hj]
            cases hget2 : (splitChild (.node ks vs cs false)
                (childIndex (BTreeNode.node ks vs cs false).keys key)).children.get?
                (childIndex (BTreeNode.node ks vs cs false).keys key) with
            | none =>
              rw [hgl] at hget2
              cases hget2
            | some c' =>
              dsimp only
              have hc' : c' = (splitChildNode c).1 :=
                Option.some.inj (hget2.symm.trans hgl)
              subst hc'
              have hvr : Valid M false (splitChildNode c).1 :=
                valid_children hvp _ (List.get?_mem hgl)
              have hdr : EqDepth d (splitChildNode c).1 :=
                hdp.2 _ (List.get?_mem hgl)
              obtain ⟨hvr', hdr'⟩ := ih _ false d hvr hdr hll
              exact setChildAt_preserves hpl hvp hdp hvr' hdr'
        · rw [if_neg hfull]
          have hclen : c.keys.length < M - 1 := by
            rw [BTreeNode.is_full] at hfull
            have h1 : ¬(M - 1 ≤ c.keys.length) := fun hc => hfull (decide_eq_true hc)
            omega
          have hdc : EqDepth d c := hd.2 c (List.get?_mem hget)
          obtain ⟨hvr', hdr'⟩ := ih c false d hcval hdc hclen
          exact setChildAt_preserves hlf hv hd hvr' hdr'

theorem insert_preserves (M : Nat) (hM : 3 ≤ M) (t : BTree) (hord : t.order = M)
    {d : Nat} (hv : Valid M true t.root) (hd : EqDepth d t.root) (key value : Int) :
    ∃ d', Valid M true (t.insert key value).root ∧
      EqDepth d' (t.insert key value).root ∧ (t.insert key value).order = M := by
  rw [BTree.insert]
  by_cases hfull : t.root.is_full t.order = true
  · rw [if_pos hfull]
    have hfull' : t.root.keys.length = M - 1 := by
      rw [BTreeNode.is_full, hord] at hfull
      have h1 := of_decide_eq_true hfull
      have h2 := valid_keys_le hv
      omega
    have hvnr : Valid M false t.root := valid_to_nonroot hv (by omega)
    have hvpar : Valid M true (BTreeNode.node [] [] [t.root] false) := by
      refine Valid.mk ?_ ?_ rfl ?_ ?_ ?_
      · show ([] : List Int).length ≤ M - 1
        simp
      · intro h
        exact absurd h (by decide)
      · intro h
        exact absurd h (by decide)
      · intro _
        rfl
      · intro x hx
        rw [List.mem_singleton.mp hx]
        exact hvnr
    have hdpar : EqDepth (d + 1) (BTreeNode.node [] [] [t.root] false) := by
      refine ⟨rfl, ?_⟩
      intro x hx
      rw [List.mem_singleton.mp hx]
      exact hd
    obtain ⟨hvp, hdp, _, _, _, _, hpk, _⟩ :=
      splitChild_char hM hvpar (show [t.root].get? 0 = some t.root from rfl)
        hfull' hv (by simp; omega) hdpar
    have hroom2 : (splitChild (BTreeNode.node [] [] [t.root] false) 0).keys.length
        < M - 1 := by
      rw [hpk]
      simp
      omega
    have hbridge : insertNonFull t.order
        (splitChild (BTreeNode.node [] [] [t.root] false) 0) key value
        = insertNonFullF (splitChild (BTreeNode.node [] [] [t.root] false) 0).height
            M (splitChild (BTreeNode.node [] [] [t.root] false) 0) key value := by
      rw [hord]
      exact (insertNonFullF_eq M key value _ _ (le_refl _)).symm
    obtain ⟨hvf, hdf⟩ := insertNonFullF_preserves M hM key value
      (splitChild (BTreeNode.node [] [] [t.root] false) 0).height
      (splitChild (BTreeNode.node [] [] [t.root] false) 0) true (d + 1) hvp hdp hroom2
    refine ⟨d + 1, ?_, ?_, hord⟩
    · show Valid M true (insertNonFull t.order
        (splitChild (BTreeNode.node [] [] [t.root] false) 0) key value)
      rw [hbridge]
      exact hvf
    · show EqDepth (d + 1) (insertNonFull t.order
        (splitChild (BTreeNode.node [] [] [t.root] false) 0) key value)
      rw [hbridge]
      exact hdf
  · rw [if_neg hfull]
    have hroom : t.root.keys.length < M - 1 := by
      rw [BTreeNode.is_full, hord] at hfull
      have h1 : ¬(M - 1 ≤ t.root.keys.length) := fun hc => hfull (decide_eq_true hc)
      omega
    have hbridge : insertNonFull t.order t.root key value
        = insertNonFullF t.root.height M t.root key value := by
      rw [hord]
      exact (insertNonFullF_eq M key value _ _ (le_refl _)).symm
    obtain ⟨hvf, hdf⟩ := insertNonFullF_preserves M hM key value
      t.root.height t.root true d hv hd hroom
    refine ⟨d, ?_, ?_, hord⟩
    · show Valid M true (insertNonFull t.order t.root key value)
      rw [hbridge]
      exact hvf
    · show EqDepth d (insertNonFull t.order t.root key value)
      rw [hbridge]
      exact hdf

/-- **C5.** Corrected BTree invariant: for every order `M ≥ 3` and every
sequence of inserts from the empty tree, `Valid M true` holds of the
root — every node holds at most `M-1` keys, every non-root node at
least `M/2 - 1` keys (floor, the bound the code's split actually
maintains — not the claimed `ceil(M/2)-1`), `values` parallels `keys`,
and internal nodes have one more child than keys — and all leaves are
at equal depth. -/
theorem claim_C5 (M : Nat) (hM : 3 ≤ M) (ops : List (Int × Int)) :
    Valid M true (buildTree M ops).root ∧ ∃ d, EqDepth d (buildTree M ops).root := by
  rw [buildTree]
  suffices h : ∀ (ops : List (Int × Int)) (t : BTree), t.order = M →
      Valid M true t.root → (∃ d, EqDepth d t.root) →
      Valid M true (ops.foldl (fun t p => t.insert p.1 p.2) t).root ∧
        ∃ d, EqDepth d (ops.foldl (fun t p => t.insert p.1 p.2) t).root by
    refine h ops (BTree.new M) rfl ?_ ⟨0, rfl⟩
    refine Valid.mk ?_ ?_ rfl ?_ ?_ ?_
    · show ([] : List Int).length ≤ M - 1
      simp
    · intro hc
      exact absurd hc (by decide)
    · intro _
      rfl
    · intro hc
      exact absurd hc (by decide)
    · intro x hx
      exact absurd hx (List.not_mem_nil x)
  intro ops
  induction ops with
  | nil =>
    intro t _ hv hd
    exact ⟨hv, hd⟩
  | cons p ops ih =>
    intro t hord hv hd
    obtain ⟨d, hd⟩ := hd
    rw [List.foldl_cons]
    obtain ⟨d', hv', hd', hord'⟩ := insert_preserves M hM t hord hv hd p.1 p.2
    exact ih _ hord' hv' ⟨d', hd'⟩

/-- **C5 counterexample.** For order `M = 5`, inserting `5,4,3,2,1`
into the empty tree splits the root's `[2,3,4,5]` at `mid = 2`, leaving
the right child with a single key `[5]` — fewer than the claimed
minimum `ceil(5/2) - 1 = 2` for non-root nodes. -/
theorem claim_C5_counterexample :
    ∃ c ∈ (buildTree 5 [(5, 0), (4, 0), (3, 0), (2, 0), (1, 0)]).root.children,
      c.keys.length < (5 + 1) / 2 - 1 := by
  rw [← buildTreeF_eq]
  decide

/-- Witness for C5 at order 4 with two inserts. -/
theorem claim_C5_witness :
    Valid 4 true (buildTree 4 [(1, 2), (3, 4)]).root ∧
      ∃ d, EqDepth d (buildTree 4 [(1, 2), (3, 4)]).root :=
  claim_C5 4 (by decide) [(1, 2), (3, 4)]

end BT

/-! ### Transaction manager lemmas (C1, C3, C4) -/

namespace TM

theorem lookupTxn_cons_pos {p : Nat × Transaction} {l : List (Nat × Transaction)}
    {t : Nat} (h : p.1 = t) : lookupTxn (p :: l) t = some p.2 := by
  rw [lookupTxn, List.find?_cons_of_pos _ (by simp [h])]
  rfl

theorem lookupTxn_cons_neg {p : Nat × Transaction} {l : List (Nat × Transaction)}
    {t : Nat} (h : ¬p.1 = t) : lookupTxn (p :: l) t = lookupTxn l t := by
  rw [lookupTxn, List.find?_cons_of_neg _ (by simp [h])]
  rfl

theorem lookupTxn_mem {l : List (Nat × Transaction)} {t : Nat} {txn : Transaction}
    (h : lookupTxn l t = some txn) : (t, txn) ∈ l := by
  rw [lookupTxn] at h
  cases hf : l.find? (fun p => p.1 == t) with
  | none => rw [hf] at h; cases h
  | some p =>
    rw [hf] at h
    have hp1 : p.1 = t := by simpa using List.find?_some hf
    have hp2 : p.2 = txn := by simpa using h
    have : p = (t, txn) := Prod.ext hp1 hp2
    exact this ▸ List.mem_of_find?_eq_some hf

theorem lookupTxn_updateTxn (t u : Nat) (f : Transaction → Transaction) :
    ∀ (l : List (Nat × Transaction)),
      lookupTxn (updateTxn l t f) u =
        if u = t then (lookupTxn l t).map f else lookupTxn l u := by
  intro l
  induction l with
  | nil => by_cases h : u = t <;> simp [updateTxn, lookupTxn, h]
  | cons p l ih =>
    have hsplit : updateTxn (p :: l) t f =
        (if (p.1 == t) = true then (p.1, f p.2) else p) :: updateTxn l t f := by
      rw [updateTxn, List.map_cons]
      rfl
    have hq1 : (if (p.1 == t) = true then (p.1, f p.2) else p).1 = p.1 := by
      split <;> rfl
    rw [hsplit]
    by_cases hpu : p.1 = u
    · rw [lookupTxn_cons_pos (hq1.trans hpu)]
      by_cases hut : u = t
      · rw [if_pos hut, lookupTxn_cons_pos (hpu.trans hut)]
        have hqe : (if (p.1 == t) = true then (p.1, f p.2) else p) = (p.1, f p.2) := by
          rw [if_pos (by simp [hpu.trans hut])]
        rw [hqe]
        rfl
      · rw [if_neg hut, lookupTxn_cons_pos hpu]
        have hqe : (if (p.1 == t) = true then (p.1, f p.2) else p) = p := by
          rw [if_neg (by simp only [beq_iff_eq]; rw [hpu]; exact hut)]
        rw [hqe]
    · rw [lookupTxn_cons_neg (by rw [hq1]; exact hpu), ih]
      by_cases hut : u = t
      · rw [if_pos hut, if_pos hut,
          lookupTxn_cons_neg (show ¬p.1 = t from hut ▸ hpu)]
      · rw [if_neg hut, if_neg hut, lookupTxn_cons_neg hpu]

theorem keys_updateTxn (l : List (Nat × Transaction)) (t : Nat)
    (f : Transaction → Transaction) :
    (updateTxn l t f).map Prod.fst = l.map Prod.fst := by
  rw [updateTxn, List.map_map]
  apply List.map_congr_left
  intro p _
  by_cases h : p.1 = t <;> simp [h]

theorem lookupTxn_append_single (l : List (Nat × Transaction)) (i u : Nat)
    (txn : Transaction) :
    lookupTxn (l ++ [(i, txn)]) u =
      (lookupTxn l u).or (if u = i then some txn else none) := by
  rw [lookupTxn, List.find?_append, lookupTxn]
  cases hf : l.find? (fun p => p.1 == u) with
  | some p => rfl
  | none =>
    by_cases h : u = i
    · rw [List.find?_cons_of_pos _ (by simp [h])]
      simp [h]
    · rw [List.find?_cons_of_neg _ (by simp only [beq_iff_eq]; exact fun hh => h hh.symm)]
      simp [h]

theorem lookupTxn_filter_ne {l : List (Nat × Transaction)} {t u : Nat} (h : u ≠ t) :
    lookupTxn (l.filter (fun p => p.1 != t)) u = lookupTxn l u := by
  induction l with
  | nil => rfl
  | cons p l ih =>
    rw [List.filter_cons]
    by_cases hq : p.1 = t
    · rw [if_neg (by simp [hq]), lookupTxn_cons_neg (by omega)]
      exact ih
    · rw [if_pos (by simp [hq])]
      by_cases hp : p.1 = u
      · rw [lookupTxn_cons_pos hp, lookupTxn_cons_pos hp]
      · rw [lookupTxn_cons_neg hp, lookupTxn_cons_neg hp]
        exact ih

theorem lookupTxn_filter_self (l : List (Nat × Transaction)) (t : Nat) :
    lookupTxn (l.filter (fun p => p.1 != t)) t = none := by
  induction l with
  | nil => rfl
  | cons p l ih =>
    rw [List.filter_cons]
    by_cases hq : p.1 = t
    · rw [if_neg (by simp [hq])]
      exact ih
    · rw [if_pos (by simp [hq]), lookupTxn_cons_neg hq]
      exact ih

theorem setInsert_self {α : Type} [DecidableEq α] (l : List α) (a : α) :
    a ∈ setInsert l a := by
  by_cases h : a ∈ l
  · rw [setInsert, if_pos h]
    exact h
  · rw [setInsert, if_neg h]
    exact List.mem_append_right _ (by simp)

theorem mem_setInsert_of_mem {α : Type} [DecidableEq α] {l : List α} {b : α}
    (a : α) (h : b ∈ l) : b ∈ setInsert l a := by
  by_cases ha : a ∈ l
  · rw [setInsert, if_pos ha]
    exact h
  · rw [setInsert, if_neg ha]
    exact List.mem_append_left _ h

theorem lookupTxn_eq_none {l : List (Nat × Transaction)} {t : Nat} :
    lookupTxn l t = none ↔ ∀ p ∈ l, p.1 ≠ t := by
  rw [lookupTxn, Option.map_eq_none', List.find?_eq_none]
  constructor
  · intro h p hp
    simpa using h p hp
  · intro h p hp
    simpa using h p hp

theorem lookupTxn_filter_of_none {l : List (Nat × Transaction)} {t : Nat}
    (q : Nat × Transaction → Bool) (h : lookupTxn l t = none) :
    lookupTxn (l.filter q) t = none := by
  rw [lookupTxn_eq_none] at h ⊢
  intro p hp
  exact h p (List.mem_of_mem_filter hp)

theorem mem_updateTxn {l : List (Nat × Transaction)} {t : Nat}
    {f : Transaction → Transaction} {q : Nat × Transaction}
    (h : q ∈ updateTxn l t f) :
    ∃ p ∈ l, q.1 = p.1 ∧ ((q = p ∧ p.1 ≠ t) ∨ (p.1 = t ∧ q.2 = f p.2)) := by
  rw [updateTxn] at h
  rcases List.mem_map.mp h with ⟨p, hp, he⟩
  by_cases hq : p.1 = t
  · rw [if_pos (by simp [hq])] at he
    exact ⟨p, hp, by rw [← he], Or.inr ⟨hq, by rw [← he]⟩⟩
  · rw [if_neg (by simp [hq])] at he
    exact ⟨p, hp, by rw [← he], Or.inl ⟨he.symm, hq⟩⟩

theorem mem_updateTxn_self {l : List (Nat × Transaction)} {t : Nat}
    {f : Transaction → Transaction} {q : Nat × Transaction}
    (h : q ∈ updateTxn l t f) (ht : q.1 = t) :
    ∃ p ∈ l, p.1 = t ∧ q.2 = f p.2 := by
  rcases mem_updateTxn h with ⟨p, hp, h1, ⟨_, h3⟩ | ⟨h2, h3⟩⟩
  · exact absurd (h1 ▸ ht) h3
  · exact ⟨p, hp, h2, h3⟩

theorem releaseAllLocks_proj (s : TMState) (t : Nat) :
    (releaseAllLocks s t).active_transactions = s.active_transactions ∧
    (releaseAllLocks s t).versions = s.versions ∧
    (releaseAllLocks s t).next_txn_id = s.next_txn_id := by
  cases h : lookupTxn s.active_transactions t <;>
    simp [releaseAllLocks, h]

theorem releaseAllLocks_lock_subset {s : TMState} {t : Nat} {k : Bytes}
    {h' : Nat × LockType} (hm : h' ∈ (releaseAllLocks s t).lock_table k) :
    h' ∈ s.lock_table k := by
  cases h : lookupTxn s.active_transactions t with
  | none => simpa [releaseAllLocks, h] using hm
  | some txn =>
    simp only [releaseAllLocks, h] at hm
    exact List.mem_of_mem_filter hm

theorem releaseAllLocks_no_owner {s : TMState} {t : Nat} {txn : Transaction}
    (hlook : lookupTxn s.active_transactions t = some txn)
    (hcov : ∀ k h', h' ∈ s.lock_table k → h'.1 = t → (k, h'.2) ∈ txn.locks_held) :
    ∀ k h', h' ∈ (releaseAllLocks s t).lock_table k → h'.1 ≠ t := by
  intro k h' hm ht
  simp only [releaseAllLocks, hlook] at hm
  have hpred := List.of_mem_filter hm
  have hm0 := List.mem_of_mem_filter hm
  have := hcov k h' hm0 ht
  simp [ht, this] at hpred

theorem filter_owner_idem (T : Nat) (l : List (Nat × Bytes × Nat)) :
    (l.filter (fun e => e.1 != T)).filter (fun e => e.1 != T) =
      l.filter (fun e => e.1 != T) := by
  rw [List.filter_filter]
  congr 1
  funext e
  exact Bool.and_self _

theorem abortFold_proj (T : Nat) :
    ∀ (l : List (Bytes × Option Bytes)) (s : TMState),
      ((l.foldl (fun st p =>
        { st with
          versions := fun k' =>
            if k' = p.1 then (st.versions p.1).filter (fun e => e.1 != T)
            else st.versions k' }) s).active_transactions = s.active_transactions ∧
       (l.foldl (fun st p =>
        { st with
          versions := fun k' =>
            if k' = p.1 then (st.versions p.1).filter (fun e => e.1 != T)
            else st.versions k' }) s).lock_table = s.lock_table ∧
       (l.foldl (fun st p =>
        { st with
          versions := fun k' =>
            if k' = p.1 then (st.versions p.1).filter (fun e => e.1 != T)
            else st.versions k' }) s).next_txn_id = s.next_txn_id) := by
  intro l
  induction l with
  | nil => intro s; exact ⟨rfl, rfl, rfl⟩
  | cons p l ih => intro s; exact ih _

theorem abortFold_versions (T : Nat) :
    ∀ (l : List (Bytes × Option Bytes)) (s : TMState) (k : Bytes),
      (l.foldl (fun st p =>
        { st with
          versions := fun k' =>
            if k' = p.1 then (st.versions p.1).filter (fun e => e.1 != T)
            else st.versions k' }) s).versions k =
        if k ∈ l.map Prod.fst then (s.versions k).filter (fun e => e.1 != T)
        else s.versions k := by
  intro l
  induction l with
  | nil => intro s k; simp
  | cons p l ih =>
    intro s k
    rw [List.foldl_cons, ih]
    by_cases hk : k ∈ l.map Prod.fst
    · rw [if_pos hk]
      by_cases hkp : k = p.1
      · rw [if_pos (show k ∈ (p :: l).map Prod.fst by
          rw [List.map_cons, hkp]; exact List.mem_cons_self _ _)]
        show ((if k = p.1 then (s.versions p.1).filter (fun e => e.1 != T)
          else s.versions k).filter (fun e => e.1 != T)) = _
        rw [if_pos hkp, hkp, filter_owner_idem]
      · rw [if_pos (show k ∈ (p :: l).map Prod.fst by
          rw [List.map_cons]; exact List.mem_cons_of_mem _ hk)]
        show ((if k = p.1 then (s.versions p.1).filter (fun e => e.1 != T)
          else s.versions k).filter (fun e => e.1 != T)) = _
        rw [if_neg hkp]
    · rw [if_neg hk]
      by_cases hkp : k = p.1
      · rw [if_pos (show k ∈ (p :: l).map Prod.fst by
          rw [List.map_cons, hkp]; exact List.mem_cons_self _ _)]
        show (if k = p.1 then (s.versions p.1).filter (fun e => e.1 != T)
          else s.versions k) = _
        rw [if_pos hkp, hkp]
      · rw [if_neg (show k ∉ (p :: l).map Prod.fst by
          rw [List.map_cons]
          intro hmem
          rcases List.mem_cons.mp hmem with h | h
          · exact hkp h
          · exact hk h)]
        show (if k = p.1 then (s.versions p.1).filter (fun e => e.1 != T)
          else s.versions k) = _
        rw [if_neg hkp]

theorem lookupTxn_updateTxn_exists {l : List (Nat × Transaction)} {t u : Nat}
    {f : Transaction → Transaction} {txn : Transaction}
    (hl : lookupTxn l u = some txn) :
    lookupTxn (updateTxn l t f) u = some (if u = t then f txn else txn) := by
  rw [lookupTxn_updateTxn]
  by_cases h : u = t
  · rw [if_pos h, if_pos h, ← h, hl]
    rfl
  · rw [if_neg h, if_neg h]
    exact hl

theorem abortFold_versions_subset {T : Nat} {l : List (Bytes × Option Bytes)}
    {s : TMState} {k : Bytes} {e : Nat × Bytes × Nat}
    (he : e ∈ (l.foldl (fun st p =>
      { st with
        versions := fun k' =>
          if k' = p.1 then (st.versions p.1).filter (fun e => e.1 != T)
          else st.versions k' }) s).versions k) : e ∈ s.versions k := by
  rw [abortFold_versions] at he
  by_cases hm : k ∈ l.map Prod.fst
  · rw [if_pos hm] at he
    exact List.mem_of_mem_filter he
  · rw [if_neg hm] at he
    exact he

theorem INVtm_updateTxn {s : TMState} (t : Nat) (f : Transaction → Transaction)
    (hid : ∀ txn, (f txn).txn_id = txn.txn_id)
    (hundo : ∀ txn p, p ∈ txn.undo_log → p ∈ (f txn).undo_log)
    (hlocks : ∀ txn p, p ∈ txn.locks_held → p ∈ (f txn).locks_held)
    (hI : INVtm s) :
    INVtm { s with active_transactions := updateTxn s.active_transactions t f } := by
  obtain ⟨h0, h1, h2, h3, h4⟩ := hI
  refine ⟨?_, ?_, h2, ?_, ?_⟩
  · intro q hq
    rcases mem_updateTxn hq with ⟨p, hp, he1, ⟨heq, _⟩ | ⟨hpt, he2⟩⟩
    · rw [heq]
      exact h0 p hp
    · rw [he2, hid, h0 p hp]
      exact he1.symm
  · intro q hq
    rcases mem_updateTxn hq with ⟨p, hp, he1, _⟩
    rw [he1]
    exact h1 p hp
  · intro q hq k e hev het
    rcases mem_updateTxn hq with ⟨p, hp, he1, ⟨heq, _⟩ | ⟨hpt, he2⟩⟩
    · rw [heq]
      exact h3 p hp k e hev (het.trans he1)
    · rcases h3 p hp k e hev (het.trans he1) with ⟨o, ho⟩
      exact ⟨o, by rw [he2]; exact hundo _ _ ho⟩
  · intro k h' hm
    rcases h4 k h' hm with ⟨txn, hl, hmem⟩
    rw [show ({ s with
        active_transactions := updateTxn s.active_transactions t f } : TMState).active_transactions
      = updateTxn s.active_transactions t f from rfl, lookupTxn_updateTxn_exists hl]
    by_cases ht : h'.1 = t
    · rw [if_pos ht]
      exact ⟨f txn, rfl, hlocks _ _ hmem⟩
    · rw [if_neg ht]
      exact ⟨txn, rfl, hmem⟩

theorem INVtm_beginOp {s : TMState} (iso : IsolationLevel) (hI : INVtm s) :
    INVtm (beginOp s iso).1 := by
  obtain ⟨h0, h1, h2, h3, h4⟩ := hI
  refine ⟨?_, ?_, ?_, ?_, ?_⟩
  · intro q hq
    rcases List.mem_append.mp hq with h | h
    · exact h0 q h
    · rw [List.mem_singleton.mp h]
      rfl
  · intro q hq
    rcases List.mem_append.mp hq with h | h
    · exact Nat.lt_succ_of_lt (h1 q h)
    · rw [List.mem_singleton.mp h]
      exact Nat.lt_succ_self _
  · intro k e he
    exact Nat.lt_succ_of_lt (h2 k e he)
  · intro q hq k e hev het
    rcases List.mem_append.mp hq with h | h
    · exact h3 q h k e hev het
    · have hq1 : q.1 = s.next_txn_id := by rw [List.mem_singleton.mp h]
      have := h2 k e hev
      omega
  · intro k h' hm
    rcases h4 k h' hm with ⟨txn, hl, hmem⟩
    refine ⟨txn, ?_, hmem⟩
    rw [show ((beginOp s iso).1).active_transactions
      = s.active_transactions ++ [(s.next_txn_id,
          Transaction.new s.next_txn_id iso s.clock)] from rfl,
      lookupTxn_append_single, hl]
    rfl

theorem INVtm_acquireLock {s s1 : TMState} {t : Nat} {k : Bytes} {lt : LockType}
    (hI : INVtm s) (ht : ∃ txn0, lookupTxn s.active_transactions t = some txn0)
    (h : acquireLock s t k lt = some s1) : INVtm s1 := by
  rcases ht with ⟨txn0, hl0⟩
  simp only [acquireLock] at h
  split at h
  case isFalse => cases h
  case isTrue hcan =>
    cases h
    have hIa := INVtm_updateTxn t
      (fun txn => { txn with locks_held := setInsert txn.locks_held (k, lt) })
      (fun _ => rfl) (fun _ _ hp => hp)
      (fun _ _ hp => mem_setInsert_of_mem _ hp) hI
    obtain ⟨h0, h1, h2, h3, _⟩ := hIa
    obtain ⟨_, _, _, _, h4⟩ := hI
    refine ⟨h0, h1, h2, h3, ?_⟩
    intro k' h' hm
    have hact : ({ s with
        lock_table := fun k'' =>
          if k'' = k then setInsert (s.lock_table k) (t, lt) else s.lock_table k''
        active_transactions := updateTxn s.active_transactions t
          (fun txn => { txn with
            locks_held := setInsert txn.locks_held (k, lt) }) } : TMState).active_transactions
      = updateTxn s.active_transactions t
          (fun txn => { txn with
            locks_held := setInsert txn.locks_held (k, lt) }) := rfl
    rw [show ({ s with
        lock_table := fun k'' =>
          if k'' = k then setInsert (s.lock_table k) (t, lt) else s.lock_table k''
        active_transactions := updateTxn s.active_transactions t
          (fun txn => { txn with
            locks_held := setInsert txn.locks_held (k, lt) }) } : TMState).lock_table k'
      = if k' = k then setInsert (s.lock_table k) (t, lt) else s.lock_table k'
      from rfl] at hm
    by_cases hk' : k' = k
    · rw [if_pos hk'] at hm
      rw [hk']
      rcases BPool.mem_setInsert hm with hold | hnew
      · rcases h4 k h' hold with ⟨txn, hl, hmem⟩
        rw [hact, lookupTxn_updateTxn_exists hl]
        by_cases hht : h'.1 = t
        · rw [if_pos hht]
          exact ⟨_, rfl, mem_setInsert_of_mem _ hmem⟩
        · rw [if_neg hht]
          exact ⟨txn, rfl, hmem⟩
      · rw [hact, hnew]
        rw [show ((t, lt) : Nat × LockType).1 = t from rfl,
          lookupTxn_updateTxn_exists hl0, if_pos rfl]
        exact ⟨_, rfl, setInsert_self _ _⟩
    · rw [if_neg hk'] at hm
      rcases h4 k' h' hm with ⟨txn, hl, hmem⟩
      rw [hact, lookupTxn_updateTxn_exists hl]
      by_cases hht : h'.1 = t
      · rw [if_pos hht]
        exact ⟨_, rfl, mem_setInsert_of_mem _ hmem⟩
      · rw [if_neg hht]
        exact ⟨txn, rfl, hmem⟩

theorem acquireLock_proj {s s1 : TMState} {t : Nat} {k : Bytes} {lt : LockType}
    (h : acquireLock s t k lt = some s1) :
    s1.next_txn_id = s.next_txn_id ∧ s1.versions = s.versions ∧
    s1.active_transactions.map Prod.fst = s.active_transactions.map Prod.fst := by
  simp only [acquireLock] at h
  split at h
  · cases h
    refine ⟨rfl, rfl, ?_⟩
    show List.map Prod.fst (updateTxn s.active_transactions t
      (fun txn => { txn with locks_held := setInsert txn.locks_held (k, lt) })) =
      List.map Prod.fst s.active_transactions
    exact keys_updateTxn _ _ _
  · cases h

theorem readOp_proj (s : TMState) (t : Nat) (k : Bytes) :
    (readOp s t k).1.next_txn_id = s.next_txn_id ∧
    (readOp s t k).1.versions = s.versions ∧
    (readOp s t k).1.active_transactions.map Prod.fst
      = s.active_transactions.map Prod.fst := by
  cases hl : lookupTxn s.active_transactions t with
  | none => simp [readOp, hl]
  | some txn =>
    by_cases hser : (txn.isolation_level == IsolationLevel.SERIALIZABLE) = true
    · cases hacq : acquireLock s t k .SHARED with
      | none => simp [readOp, hl, hser, hacq]
      | some s1 =>
        obtain ⟨hn, hv, hk⟩ := acquireLock_proj hacq
        simp only [readOp, hl, hser, hacq, if_true]
        refine ⟨hn, hv, ?_⟩
        rw [keys_updateTxn]
        exact hk
    · simp only [readOp, hl, if_neg hser]
      refine ⟨by trivial, by trivial, ?_⟩
      rw [keys_updateTxn]

theorem INVtm_readOp {s : TMState} (t : Nat) (k : Bytes) (hI : INVtm s) :
    INVtm (readOp s t k).1 := by
  cases hl : lookupTxn s.active_transactions t with
  | none => simpa [readOp, hl] using hI
  | some txn =>
    by_cases hser : (txn.isolation_level == IsolationLevel.SERIALIZABLE) = true
    · cases hacq : acquireLock s t k .SHARED with
      | none => simpa [readOp, hl, hser, hacq] using hI
      | some s1 =>
        simp only [readOp, hl, hser, hacq, if_true]
        exact INVtm_updateTxn t _ (fun _ => rfl) (fun _ _ hp => hp) (fun _ _ hp => hp)
          (INVtm_acquireLock hI ⟨txn, hl⟩ hacq)
    · simp only [readOp, hl, if_neg hser]
      exact INVtm_updateTxn t _ (fun _ => rfl) (fun _ _ hp => hp) (fun _ _ hp => hp) hI

theorem INVtm_writeOp {s : TMState} (t : Nat) (k v : Bytes) (hI : INVtm s) :
    INVtm (writeOp s t k v).1 := by
  cases hl : lookupTxn s.active_transactions t with
  | none => simpa [writeOp, hl] using hI
  | some txn =>
    cases hacq : acquireLock s t k .EXCLUSIVE with
    | none => simpa [writeOp, hl, hacq] using hI
    | some s1 =>
      have hI1 : INVtm s1 := INVtm_acquireLock hI ⟨txn, hl⟩ hacq
      rcases hro : readOp s1 t k with ⟨s2, r⟩
      have hI2 : INVtm s2 := by
        have h := INVtm_readOp (s := s1) t k hI1
        rw [hro] at h
        exact h
      have hnext2 : s2.next_txn_id = s.next_txn_id := by
        have hn := (readOp_proj s1 t k).1
        rw [hro] at hn
        exact hn.trans (acquireLock_proj hacq).1
      cases r with
      | newTxn i => simpa [writeOp, hl, hacq, hro] using hI2
      | done => simpa [writeOp, hl, hacq, hro] using hI2
      | keyErr => simpa [writeOp, hl, hacq, hro] using hI2
      | blocked => simpa [writeOp, hl, hacq, hro] using hI2
      | serializationFailure => simpa [writeOp, hl, hacq, hro] using hI2
      | value old =>
        simp only [writeOp, hl, hacq, hro]
        have htlt : t < s2.next_txn_id := by
          rw [hnext2]
          exact hI.2.1 _ (lookupTxn_mem hl)
        have hI3 := INVtm_updateTxn t
          (fun tx => { tx with undo_log := tx.undo_log ++ [(k, old)] })
          (fun _ => rfl) (fun _ _ hp => List.mem_append_left _ hp)
          (fun _ _ hp => hp) hI2
        have hI4 := INVtm_updateTxn t
          (fun tx => { tx with write_set := setInsert tx.write_set k })
          (fun _ => rfl) (fun _ _ hp => hp) (fun _ _ hp => hp) hI3
        obtain ⟨g0, g1, g2, g3, g4⟩ := hI4
        refine ⟨?_, ?_, ?_, ?_, ?_⟩
        · exact g0
        · exact g1
        · intro k' e he
          have he' : e ∈ (if k' = k then s2.versions k ++ [(t, v, s2.clock)]
              else s2.versions k') := he
          show e.1 < s2.next_txn_id
          by_cases hk' : k' = k
          · rw [if_pos hk'] at he'
            rcases List.mem_append.mp he' with hold | hnew
            · exact hI2.2.2.1 k e hold
            · rw [show e = (t, v, s2.clock) from List.mem_singleton.mp hnew]
              exact htlt
          · rw [if_neg hk'] at he'
            exact hI2.2.2.1 k' e he'
        · intro q hq k' e hev het
          have hq' : q ∈ updateTxn (updateTxn s2.active_transactions t
              (fun tx => { tx with undo_log := tx.undo_log ++ [(k, old)] })) t
              (fun tx => { tx with write_set := setInsert tx.write_set k }) := hq
          have hev' : e ∈ (if k' = k then s2.versions k ++ [(t, v, s2.clock)]
              else s2.versions k') := hev
          by_cases hk' : k' = k
          · rw [hk']
            rw [if_pos hk'] at hev'
            rcases List.mem_append.mp hev' with hold | hnew
            · exact g3 q hq k e hold het
            · have hqt : q.1 = t := by
                rw [← het, show e = (t, v, s2.clock) from List.mem_singleton.mp hnew]
              rcases mem_updateTxn_self hq' hqt with ⟨p, hp, hpt, hq2⟩
              rcases mem_updateTxn_self hp hpt with ⟨p2, hp2, hp2t, hpv⟩
              refine ⟨old, ?_⟩
              rw [hq2, hpv]
              exact List.mem_append_right _ (List.mem_singleton_self _)
          · rw [if_neg hk'] at hev'
            exact g3 q hq k' e hev' het
        · exact g4

theorem INVtm_releaseAllLocks {s : TMState} (t : Nat) (hI : INVtm s) :
    INVtm (releaseAllLocks s t) := by
  obtain ⟨h0, h1, h2, h3, h4⟩ := hI
  obtain ⟨ha, hv, hn⟩ := releaseAllLocks_proj s t
  refine ⟨?_, ?_, ?_, ?_, ?_⟩
  · intro q hq
    rw [ha] at hq
    exact h0 q hq
  · intro q hq
    rw [ha] at hq
    rw [hn]
    exact h1 q hq
  · intro k e he
    rw [hv] at he
    rw [hn]
    exact h2 k e he
  · intro q hq k e hev het
    rw [ha] at hq
    rw [hv] at hev
    exact h3 q hq k e hev het
  · intro k h' hm
    rcases h4 k h' (releaseAllLocks_lock_subset hm) with ⟨txn, hl', hmem⟩
    refine ⟨txn, ?_, hmem⟩
    rw [ha]
    exact hl'

theorem INVtm_deregister {s : TMState} {t : Nat} (hI : INVtm s)
    (hcov : ∀ k h', h' ∈ s.lock_table k → h'.1 ≠ t) :
    INVtm { s with
      active_transactions := s.active_transactions.filter (fun p => p.1 != t) } := by
  obtain ⟨h0, h1, h2, h3, h4⟩ := hI
  refine ⟨?_, ?_, h2, ?_, ?_⟩
  · intro q hq
    exact h0 q (List.mem_of_mem_filter hq)
  · intro q hq
    exact h1 q (List.mem_of_mem_filter hq)
  · intro q hq k e hev het
    exact h3 q (List.mem_of_mem_filter hq) k e hev het
  · intro k h' hm
    rcases h4 k h' hm with ⟨txn, hl', hmem⟩
    refine ⟨txn, ?_, hmem⟩
    show lookupTxn (s.active_transactions.filter (fun p => p.1 != t)) h'.1 = some txn
    rw [lookupTxn_filter_ne (hcov k h' hm)]
    exact hl'

theorem INVtm_abortOp {s : TMState} (t : Nat) (hI : INVtm s) :
    INVtm (abortOp s t).1 := by
  cases hl : lookupTxn s.active_transactions t with
  | none =>
    simp only [abortOp, hl]
    exact hI
  | some txn =>
    simp only [abortOp, hl]
    have hIf : INVtm (txn.undo_log.reverse.foldl (fun st p =>
        { st with
          versions := fun k' =>
            if k' = p.1 then (st.versions p.1).filter (fun e => e.1 != t)
            else st.versions k' }) s) := by
      obtain ⟨h0, h1, h2, h3, h4⟩ := hI
      obtain ⟨ha, hlk, hn⟩ := abortFold_proj t txn.undo_log.reverse s
      refine ⟨?_, ?_, ?_, ?_, ?_⟩
      · intro q hq
        rw [ha] at hq
        exact h0 q hq
      · intro q hq
        rw [ha] at hq
        rw [hn]
        exact h1 q hq
      · intro k e he
        rw [hn]
        exact h2 k e (abortFold_versions_subset he)
      · intro q hq k e hev het
        rw [ha] at hq
        exact h3 q hq k e (abortFold_versions_subset hev) het
      · intro k h' hm
        rw [hlk] at hm
        rcases h4 k h' hm with ⟨txn', hl', hmem⟩
        refine ⟨txn', ?_, hmem⟩
        rw [ha]
        exact hl'
    obtain ⟨ha, hlk, hn⟩ := abortFold_proj t txn.undo_log.reverse s
    have hI2 := INVtm_updateTxn t
      (fun tx => { tx with state := TxnState.ABORTED })
      (fun _ => rfl) (fun _ _ hp => hp) (fun _ _ hp => hp) hIf
    have hlook2 : lookupTxn (updateTxn (txn.undo_log.reverse.foldl (fun st p =>
        { st with
          versions := fun k' =>
            if k' = p.1 then (st.versions p.1).filter (fun e => e.1 != t)
            else st.versions k' }) s).active_transactions t
        (fun tx => { tx with state := TxnState.ABORTED })) t
        = some { txn with state := TxnState.ABORTED } := by
      rw [ha, lookupTxn_updateTxn_exists hl, if_pos rfl]
    have hcov0 : ∀ k h', h' ∈ (txn.undo_log.reverse.foldl (fun st p =>
        { st with
          versions := fun k' =>
            if k' = p.1 then (st.versions p.1).filter (fun e => e.1 != t)
            else st.versions k' }) s).lock_table k → h'.1 = t →
        (k, h'.2) ∈ ({ txn with state := TxnState.ABORTED } : Transaction).locks_held := by
      intro k h' hm ht
      rw [hlk] at hm
      rcases hI.2.2.2.2 k h' hm with ⟨txn', hl', hmem⟩
      rw [ht, hl] at hl'
      cases hl'
      exact hmem
    exact INVtm_deregister (INVtm_releaseAllLocks t hI2)
      (releaseAllLocks_no_owner hlook2 hcov0)

theorem INVtm_commitOp {s : TMState} (t : Nat) (hI : INVtm s) :
    INVtm (commitOp s t).1 := by
  cases hl : lookupTxn s.active_transactions t with
  | none =>
    simp only [commitOp, hl]
    exact hI
  | some txn =>
    simp only [commitOp, hl]
    split
    · -- validation failure: behaves as abort
      -- (handled below through the abort lemma)
      exact INVtm_abortOp t hI
    · have hI1 := INVtm_updateTxn t
        (fun tx => { tx with state := TxnState.COMMITTED })
        (fun _ => rfl) (fun _ _ hp => hp) (fun _ _ hp => hp) hI
      have hlook1 : lookupTxn (updateTxn s.active_transactions t
          (fun tx => { tx with state := TxnState.COMMITTED })) t
          = some { txn with state := TxnState.COMMITTED } := by
        rw [lookupTxn_updateTxn_exists hl, if_pos rfl]
      have hcov0 : ∀ k h', h' ∈ s.lock_table k → h'.1 = t →
          (k, h'.2) ∈ ({ txn with state := TxnState.COMMITTED } : Transaction).locks_held := by
        intro k h' hm ht
        rcases hI.2.2.2.2 k h' hm with ⟨txn', hl', hmem⟩
        rw [ht, hl] at hl'
        cases hl'
        exact hmem
      exact INVtm_deregister (INVtm_releaseAllLocks t hI1)
        (releaseAllLocks_no_owner hlook1 hcov0)

theorem INVtm_step (s : TMState) (op : Op) (hI : INVtm s) : INVtm (step s op).1 := by
  cases op with
  | beginTxn iso => exact INVtm_beginOp iso hI
  | readK t k => exact INVtm_readOp t k hI
  | writeK t k v => exact INVtm_writeOp t k v hI
  | commitT t => exact INVtm_commitOp t hI
  | abortT t => exact INVtm_abortOp t hI

theorem INVtm_init : INVtm tmInit := by
  refine ⟨?_, ?_, ?_, ?_, ?_⟩ <;> simp [tmInit, lookupTxn]

theorem INVtm_run (s : TMState) (ops : List Op) (hI : INVtm s) :
    INVtm (run s ops) := by
  induction ops generalizing s with
  | nil => exact hI
  | cons op ops ih => exact ih _ (INVtm_step s op hI)

theorem lookupTxn_none_iff_keys {l : List (Nat × Transaction)} {u : Nat} :
    lookupTxn l u = none ↔ u ∉ l.map Prod.fst := by
  rw [lookupTxn_eq_none]
  constructor
  · intro h hm
    rcases List.mem_map.mp hm with ⟨p, hp, he⟩
    exact h p hp he
  · intro h p hp he
    exact h (List.mem_map.mpr ⟨p, hp, he⟩)

theorem readOp_ne_done (s : TMState) (t : Nat) (k : Bytes) :
    (readOp s t k).2 ≠ Res.done := by
  cases hl : lookupTxn s.active_transactions t with
  | none => simp [readOp, hl]
  | some txn =>
    by_cases hser : (txn.isolation_level == IsolationLevel.SERIALIZABLE) = true
    · cases hacq : acquireLock s t k .SHARED with
      | none => simp [readOp, hl, hser, hacq]
      | some s1 => simp [readOp, hl, hser, hacq]
    · simp only [readOp, hl, if_neg hser]
      simp

theorem commitOp_success_proj {s : TMState} {t : Nat} {txn : Transaction}
    (hl : lookupTxn s.active_transactions t = some txn)
    (hcond : ¬((txn.isolation_level == IsolationLevel.SERIALIZABLE
        && !validateSerializable s txn) = true)) :
    (commitOp s t).1.versions = s.versions ∧
    (commitOp s t).1.next_txn_id = s.next_txn_id ∧
    (commitOp s t).1.active_transactions
      = (updateTxn s.active_transactions t
          (fun tx => { tx with state := TxnState.COMMITTED })).filter
            (fun p => p.1 != t) := by
  simp only [commitOp, hl, if_neg hcond]
  refine ⟨?_, ?_, ?_⟩
  · exact ((releaseAllLocks_proj _ t).2.1).trans rfl
  · exact ((releaseAllLocks_proj _ t).2.2).trans rfl
  · have h1 := (releaseAllLocks_proj { s with
      active_transactions := updateTxn s.active_transactions t
        (fun tx => { tx with state := TxnState.COMMITTED }) } t).1
    rw [h1]

theorem abortOp_some_proj {s : TMState} {t : Nat} {txn : Transaction}
    (hl : lookupTxn s.active_transactions t = some txn) :
    (abortOp s t).1.next_txn_id = s.next_txn_id ∧
    (abortOp s t).1.active_transactions
      = (updateTxn s.active_transactions t
          (fun tx => { tx with state := TxnState.ABORTED })).filter
            (fun p => p.1 != t) ∧
    (∀ k e, e ∈ (abortOp s t).1.versions k → e ∈ s.versions k) ∧
    (∀ k e, e ∈ s.versions k → e.1 ≠ t → e ∈ (abortOp s t).1.versions k) := by
  simp only [abortOp, hl]
  obtain ⟨ha, hlk, hn⟩ := abortFold_proj t txn.undo_log.reverse s
  refine ⟨?_, ?_, ?_, ?_⟩
  · exact ((releaseAllLocks_proj _ t).2.2).trans hn
  · have h1 := (releaseAllLocks_proj { txn.undo_log.reverse.foldl (fun st p =>
      { st with
        versions := fun k' =>
          if k' = p.1 then (st.versions p.1).filter (fun e => e.1 != t)
          else st.versions k' }) s with
      active_transactions := updateTxn (txn.undo_log.reverse.foldl (fun st p =>
        { st with
          versions := fun k' =>
            if k' = p.1 then (st.versions p.1).filter (fun e => e.1 != t)
            else st.versions k' }) s).active_transactions t
        (fun tx => { tx with state := TxnState.ABORTED }) } t).1
    rw [h1, ha]
  · intro k e he
    have h1 := (releaseAllLocks_proj { txn.undo_log.reverse.foldl (fun st p =>
      { st with
        versions := fun k' =>
          if k' = p.1 then (st.versions p.1).filter (fun e => e.1 != t)
          else st.versions k' }) s with
      active_transactions := updateTxn (txn.undo_log.reverse.foldl (fun st p =>
        { st with
          versions := fun k' =>
            if k' = p.1 then (st.versions p.1).filter (fun e => e.1 != t)
            else st.versions k' }) s).active_transactions t
        (fun tx => { tx with state := TxnState.ABORTED }) } t).2.1
    rw [h1] at he
    exact abortFold_versions_subset he
  · intro k e he hne
    have h1 := (releaseAllLocks_proj { txn.undo_log.reverse.foldl (fun st p =>
      { st with
        versions := fun k' =>
          if k' = p.1 then (st.versions p.1).filter (fun e => e.1 != t)
          else st.versions k' }) s with
      active_transactions := updateTxn (txn.undo_log.reverse.foldl (fun st p =>
        { st with
          versions := fun k' =>
            if k' = p.1 then (st.versions p.1).filter (fun e => e.1 != t)
            else st.versions k' }) s).active_transactions t
        (fun tx => { tx with state := TxnState.ABORTED }) } t).2.1
    rw [h1]
    show e ∈ (txn.undo_log.reverse.foldl (fun st p =>
      { st with
        versions := fun k' =>
          if k' = p.1 then (st.versions p.1).filter (fun e => e.1 != t)
          else st.versions k' }) s).versions k
    rw [abortFold_versions]
    by_cases hm : k ∈ (txn.undo_log.reverse).map Prod.fst
    · rw [if_pos hm]
      exact List.mem_filter.mpr ⟨he, by simp [hne]⟩
    · rw [if_neg hm]
      exact he

theorem abortOp_char {s : TMState} {t : Nat} {txn : Transaction}
    (hI : INVtm s) (hl : lookupTxn s.active_transactions t = some txn) :
    lookupTxn (abortOp s t).1.active_transactions t = none ∧
    (∀ k e, e ∈ (abortOp s t).1.versions k → e.1 ≠ t) ∧
    (∀ k h', h' ∈ (abortOp s t).1.lock_table k → h'.1 ≠ t) := by
  refine ⟨?_, ?_, ?_⟩
  · rw [(abortOp_some_proj hl).2.1]
    exact lookupTxn_filter_self _ t
  · intro k e he het
    simp only [abortOp, hl] at he
    have h1 := (releaseAllLocks_proj { txn.undo_log.reverse.foldl (fun st p =>
      { st with
        versions := fun k' =>
          if k' = p.1 then (st.versions p.1).filter (fun e => e.1 != t)
          else st.versions k' }) s with
      active_transactions := updateTxn (txn.undo_log.reverse.foldl (fun st p =>
        { st with
          versions := fun k' =>
            if k' = p.1 then (st.versions p.1).filter (fun e => e.1 != t)
            else st.versions k' }) s).active_transactions t
        (fun tx => { tx with state := TxnState.ABORTED }) } t).2.1
    rw [h1, abortFold_versions] at he
    by_cases hm : k ∈ (txn.undo_log.reverse).map Prod.fst
    · rw [if_pos hm] at he
      have := List.of_mem_filter he
      simp [het] at this
    · rw [if_neg hm] at he
      rcases hI.2.2.2.1 (t, txn) (lookupTxn_mem hl) k e he het with ⟨o, ho⟩
      exact hm (List.mem_map_of_mem Prod.fst (List.mem_reverse.mpr ho))
  · intro k h' hm hteq
    simp only [abortOp, hl] at hm
    have hlook2 : lookupTxn ({ txn.undo_log.reverse.foldl (fun st p =>
        { st with
          versions := fun k' =>
            if k' = p.1 then (st.versions p.1).filter (fun e => e.1 != t)
            else st.versions k' }) s with
        active_transactions := updateTxn (txn.undo_log.reverse.foldl (fun st p =>
          { st with
            versions := fun k' =>
              if k' = p.1 then (st.versions p.1).filter (fun e => e.1 != t)
              else st.versions k' }) s).active_transactions t
          (fun tx => { tx with state := TxnState.ABORTED }) } : TMState).active_transactions t
        = some { txn with state := TxnState.ABORTED } := by
      show lookupTxn (updateTxn (txn.undo_log.reverse.foldl (fun st p =>
        { st with
          versions := fun k' =>
            if k' = p.1 then (st.versions p.1).filter (fun e => e.1 != t)
            else st.versions k' }) s).active_transactions t
        (fun tx => { tx with state := TxnState.ABORTED })) t
        = some { txn with state := TxnState.ABORTED }
      rw [(abortFold_proj t _ s).1, lookupTxn_updateTxn_exists hl, if_pos rfl]
    have hcov2 : ∀ k2 h2, h2 ∈ ({ txn.undo_log.reverse.foldl (fun st p =>
        { st with
          versions := fun k' =>
            if k' = p.1 then (st.versions p.1).filter (fun e => e.1 != t)
            else st.versions k' }) s with
        active_transactions := updateTxn (txn.undo_log.reverse.foldl (fun st p =>
          { st with
            versions := fun k' =>
              if k' = p.1 then (st.versions p.1).filter (fun e => e.1 != t)
              else st.versions k' }) s).active_transactions t
          (fun tx => { tx with state := TxnState.ABORTED }) } : TMState).lock_table k2 →
        h2.1 = t →
        (k2, h2.2) ∈ ({ txn with state := TxnState.ABORTED } : Transaction).locks_held := by
      intro k2 h2 hm2 ht2
      have hm2' : h2 ∈ (txn.undo_log.reverse.foldl (fun st p =>
        { st with
          versions := fun k' =>
            if k' = p.1 then (st.versions p.1).filter (fun e => e.1 != t)
            else st.versions k' }) s).lock_table k2 := hm2
      rw [(abortFold_proj t _ s).2.1] at hm2'
      rcases hI.2.2.2.2 k2 h2 hm2' with ⟨txn', hl', hmem⟩
      rw [ht2, hl] at hl'
      cases hl'
      exact hmem
    exact absurd hteq (releaseAllLocks_no_owner hlook2 hcov2 k h' hm)

theorem writeOp_proj (s : TMState) (t : Nat) (k v : Bytes) :
    (writeOp s t k v).1.next_txn_id = s.next_txn_id ∧
    (writeOp s t k v).1.active_transactions.map Prod.fst
      = s.active_transactions.map Prod.fst := by
  cases hl : lookupTxn s.active_transactions t with
  | none => simp [writeOp, hl]
  | some txn =>
    cases hacq : acquireLock s t k .EXCLUSIVE with
    | none => simp [writeOp, hl, hacq]
    | some s1 =>
      rcases hro : readOp s1 t k with ⟨s2, r⟩
      have hn2 : s2.next_txn_id = s.next_txn_id := by
        have hh := (readOp_proj s1 t k).1
        rw [hro] at hh
        exact hh.trans (acquireLock_proj hacq).1
      have hkeys2 : s2.active_transactions.map Prod.fst
          = s.active_transactions.map Prod.fst := by
        have hh := (readOp_proj s1 t k).2.2
        rw [hro] at hh
        exact hh.trans (acquireLock_proj hacq).2.2
      cases r with
      | newTxn i => simp only [writeOp, hl, hacq, hro]; exact ⟨hn2, hkeys2⟩
      | done => simp only [writeOp, hl, hacq, hro]; exact ⟨hn2, hkeys2⟩
      | keyErr => simp only [writeOp, hl, hacq, hro]; exact ⟨hn2, hkeys2⟩
      | blocked => simp only [writeOp, hl, hacq, hro]; exact ⟨hn2, hkeys2⟩
      | serializationFailure =>
        simp only [writeOp, hl, hacq, hro]; exact ⟨hn2, hkeys2⟩
      | value old =>
        simp only [writeOp, hl, hacq, hro]
        refine ⟨hn2, ?_⟩
        rw [keys_updateTxn, keys_updateTxn]
        exact hkeys2

theorem writeOp_versions_mem {s : TMState} {t : Nat} {k v : Bytes} {k' : Bytes}
    {e : Nat × Bytes × Nat} (he : e ∈ (writeOp s t k v).1.versions k') :
    e ∈ s.versions k' ∨
      (e.1 = t ∧ ∃ txn, lookupTxn s.active_transactions t = some txn) := by
  cases hl : lookupTxn s.active_transactions t with
  | none =>
    simp only [writeOp, hl] at he
    exact Or.inl he
  | some txn =>
    cases hacq : acquireLock s t k .EXCLUSIVE with
    | none =>
      simp only [writeOp, hl, hacq] at he
      exact Or.inl he
    | some s1 =>
      rcases hro : readOp s1 t k with ⟨s2, r⟩
      have hv2 : s2.versions = s.versions := by
        have hh := (readOp_proj s1 t k).2.1
        rw [hro] at hh
        exact hh.trans (acquireLock_proj hacq).2.1
      cases r with
      | newTxn i => simp only [writeOp, hl, hacq, hro] at he; rw [hv2] at he; exact Or.inl he
      | done => simp only [writeOp, hl, hacq, hro] at he; rw [hv2] at he; exact Or.inl he
      | keyErr => simp only [writeOp, hl, hacq, hro] at he; rw [hv2] at he; exact Or.inl he
      | blocked => simp only [writeOp, hl, hacq, hro] at he; rw [hv2] at he; exact Or.inl he
      | serializationFailure =>
        simp only [writeOp, hl, hacq, hro] at he; rw [hv2] at he; exact Or.inl he
      | value old =>
        simp only [writeOp, hl, hacq, hro] at he
        have he' : e ∈ (if k' = k then s2.versions k ++ [(t, v, s2.clock)]
            else s2.versions k') := he
        by_cases hk' : k' = k
        · rw [if_pos hk'] at he'
          rcases List.mem_append.mp he' with hold | hnew
          · rw [hv2] at hold
            rw [hk']
            exact Or.inl hold
          · rw [List.mem_singleton.mp hnew]
            exact Or.inr ⟨rfl, txn, rfl⟩
        · rw [if_neg hk'] at he'
          rw [hv2] at he'
          exact Or.inl he'

theorem writeOp_versions_mono {s : TMState} {t : Nat} {k v : Bytes} {k' : Bytes}
    {e : Nat × Bytes × Nat} (he : e ∈ s.versions k') :
    e ∈ (writeOp s t k v).1.versions k' := by
  cases hl : lookupTxn s.active_transactions t with
  | none => simp only [writeOp, hl]; exact he
  | some txn =>
    cases hacq : acquireLock s t k .EXCLUSIVE with
    | none => simp only [writeOp, hl, hacq]; exact he
    | some s1 =>
      rcases hro : readOp s1 t k with ⟨s2, r⟩
      have hv2 : s2.versions = s.versions := by
        have hh := (readOp_proj s1 t k).2.1
        rw [hro] at hh
        exact hh.trans (acquireLock_proj hacq).2.1
      cases r with
      | newTxn i => simp only [writeOp, hl, hacq, hro]; rw [hv2]; exact he
      | done => simp only [writeOp, hl, hacq, hro]; rw [hv2]; exact he
      | keyErr => simp only [writeOp, hl, hacq, hro]; rw [hv2]; exact he
      | blocked => simp only [writeOp, hl, hacq, hro]; rw [hv2]; exact he
      | serializationFailure =>
        simp only [writeOp, hl, hacq, hro]; rw [hv2]; exact he
      | value old =>
        simp only [writeOp, hl, hacq, hro]
        show e ∈ (if k' = k then s2.versions k ++ [(t, v, s2.clock)]
          else s2.versions k')
        by_cases hk' : k' = k
        · rw [if_pos hk']
          refine List.mem_append_left _ ?_
          rw [hv2, ← hk']
          exact he
        · rw [if_neg hk', hv2]
          exact he

theorem Gone_abortOp {s : TMState} {T : Nat} (h : Gone s T) (t : Nat) :
    Gone (abortOp s t).1 T := by
  obtain ⟨hv, hr, hn⟩ := h
  cases hl : lookupTxn s.active_transactions t with
  | none =>
    simp only [abortOp, hl]
    exact ⟨hv, hr, hn⟩
  | some txn =>
    have hTt : T ≠ t := by
      intro hh
      rw [hh, hl] at hr
      cases hr
    obtain ⟨pn, pa, pv, _⟩ := abortOp_some_proj hl
    refine ⟨?_, ?_, ?_⟩
    · intro k e he
      exact hv k e (pv k e he)
    · rw [pa]
      apply lookupTxn_filter_of_none
      rw [lookupTxn_updateTxn, if_neg hTt]
      exact hr
    · rw [pn]
      exact hn

theorem Gone_step {s : TMState} {T : Nat} (h : Gone s T) (op : Op) :
    Gone (step s op).1 T := by
  obtain ⟨hv, hr, hn⟩ := h
  cases op with
  | beginTxn iso =>
    refine ⟨?_, ?_, ?_⟩
    · intro k e he
      exact hv k e he
    · show lookupTxn (s.active_transactions ++ [(s.next_txn_id,
        Transaction.new s.next_txn_id iso s.clock)]) T = none
      rw [lookupTxn_append_single, hr, if_neg (by omega)]
      rfl
    · show T < s.next_txn_id + 1
      omega
  | readK t k =>
    simp only [step]
    obtain ⟨hn', hv', hk'⟩ := readOp_proj s t k
    refine ⟨?_, ?_, ?_⟩
    · intro k2 e he
      rw [hv'] at he
      exact hv k2 e he
    · rw [lookupTxn_none_iff_keys, hk']
      exact lookupTxn_none_iff_keys.mp hr
    · rw [hn']
      exact hn
  | writeK t k v =>
    simp only [step]
    obtain ⟨hnw, hkw⟩ := writeOp_proj s t k v
    refine ⟨?_, ?_, ?_⟩
    · intro k2 e he
      rcases writeOp_versions_mem he with hold | ⟨het, txn', hl'⟩
      · exact hv k2 e hold
      · intro hT
        rw [het.symm.trans hT] at hl'
        rw [hr] at hl'
        cases hl'
    · rw [lookupTxn_none_iff_keys, hkw]
      exact lookupTxn_none_iff_keys.mp hr
    · rw [hnw]
      exact hn
  | abortT t => exact Gone_abortOp ⟨hv, hr, hn⟩ t
  | commitT t =>
    simp only [step]
    cases hl : lookupTxn s.active_transactions t with
    | none =>
      simp only [commitOp, hl]
      exact ⟨hv, hr, hn⟩
    | some txn =>
      have hTt : T ≠ t := by
        intro hh
        rw [hh, hl] at hr
        cases hr
      by_cases hcond : (txn.isolation_level == IsolationLevel.SERIALIZABLE
          && !validateSerializable s txn) = true
      · have hg := Gone_abortOp ⟨hv, hr, hn⟩ t
        simp only [commitOp, hl, if_pos hcond]
        exact hg
      · obtain ⟨cv, cn, ca⟩ := commitOp_success_proj hl hcond
        refine ⟨?_, ?_, ?_⟩
        · intro k e he
          rw [cv] at he
          exact hv k e he
        · rw [ca]
          apply lookupTxn_filter_of_none
          rw [lookupTxn_updateTxn, if_neg hTt]
          exact hr
        · rw [cn]
          exact hn

theorem Gone_run {s : TMState} {T : Nat} (h : Gone s T) (ops : List Op) :
    Gone (run s ops) T := by
  induction ops generalizing s with
  | nil => exact h
  | cons op ops ih => exact ih (Gone_step h op)

theorem Wkeep_step {s : TMState} {k : Bytes} {T : Nat} (h : Wkeep s k T)
    (op : Op) : Wkeep (step s op).1 k T := by
  obtain ⟨hn, hPor⟩ := h
  cases op with
  | beginTxn iso =>
    refine ⟨by show T < s.next_txn_id + 1; omega, ?_⟩
    rcases hPor with hP | hnone
    · exact Or.inl hP
    · right
      show lookupTxn (s.active_transactions ++ [(s.next_txn_id,
        Transaction.new s.next_txn_id iso s.clock)]) T = none
      rw [lookupTxn_append_single, hnone, if_neg (by omega)]
      rfl
  | readK t k2 =>
    simp only [step]
    obtain ⟨hn', hv', hk'⟩ := readOp_proj s t k2
    refine ⟨by rw [hn']; exact hn, ?_⟩
    rcases hPor with hP | hnone
    · left
      rcases hP with ⟨e, he, het⟩
      exact ⟨e, by rw [hv']; exact he, het⟩
    · right
      rw [lookupTxn_none_iff_keys, hk']
      exact lookupTxn_none_iff_keys.mp hnone
  | writeK t k2 v =>
    simp only [step]
    obtain ⟨hnw, hkw⟩ := writeOp_proj s t k2 v
    refine ⟨by rw [hnw]; exact hn, ?_⟩
    rcases hPor with hP | hnone
    · left
      rcases hP with ⟨e, he, het⟩
      exact ⟨e, writeOp_versions_mono he, het⟩
    · right
      rw [lookupTxn_none_iff_keys, hkw]
      exact lookupTxn_none_iff_keys.mp hnone
  | abortT t =>
    simp only [step]
    cases hl : lookupTxn s.active_transactions t with
    | none =>
      simp only [abortOp, hl]
      exact ⟨hn, hPor⟩
    | some txn =>
      obtain ⟨pn, pa, pv, pkeep⟩ := abortOp_some_proj hl
      refine ⟨by rw [pn]; exact hn, ?_⟩
      by_cases hTt : T = t
      · right
        rw [pa, hTt]
        exact lookupTxn_filter_self _ t
      · rcases hPor with hP | hnone
        · left
          rcases hP with ⟨e, he, het⟩
          exact ⟨e, pkeep k e he (by rw [het]; exact hTt), het⟩
        · right
          rw [pa]
          apply lookupTxn_filter_of_none
          rw [lookupTxn_updateTxn, if_neg hTt]
          exact hnone
  | commitT t =>
    simp only [step]
    cases hl : lookupTxn s.active_transactions t with
    | none =>
      simp only [commitOp, hl]
      exact ⟨hn, hPor⟩
    | some txn =>
      by_cases hcond : (txn.isolation_level == IsolationLevel.SERIALIZABLE
          && !validateSerializable s txn) = true
      · simp only [commitOp, hl, if_pos hcond]
        obtain ⟨pn, pa, pv, pkeep⟩ := abortOp_some_proj hl
        refine ⟨by rw [pn]; exact hn, ?_⟩
        by_cases hTt : T = t
        · right
          rw [pa, hTt]
          exact lookupTxn_filter_self _ t
        · rcases hPor with hP | hnone
          · left
            rcases hP with ⟨e, he, het⟩
            exact ⟨e, pkeep k e he (by rw [het]; exact hTt), het⟩
          · right
            rw [pa]
            apply lookupTxn_filter_of_none
            rw [lookupTxn_updateTxn, if_neg hTt]
            exact hnone
      · obtain ⟨cv, cn, ca⟩ := commitOp_success_proj hl hcond
        refine ⟨by rw [cn]; exact hn, ?_⟩
        rcases hPor with hP | hnone
        · left
          rcases hP with ⟨e, he, het⟩
          exact ⟨e, by rw [cv]; exact he, het⟩
        · right
          rw [ca]
          by_cases hTt : T = t
          · rw [hTt]
            exact lookupTxn_filter_self _ t
          · apply lookupTxn_filter_of_none
            rw [lookupTxn_updateTxn, if_neg hTt]
            exact hnone

theorem Wkeep_run {s : TMState} {k : Bytes} {T : Nat} (h : Wkeep s k T)
    (ops : List Op) : Wkeep (run s ops) k T := by
  induction ops generalizing s with
  | nil => exact h
  | cons op ops ih => exact ih (Wkeep_step h op)

theorem writeOp_done_char {s : TMState} {t : Nat} {k v : Bytes}
    (h : (writeOp s t k v).2 = Res.done) :
    (∃ txn, lookupTxn s.active_transactions t = some txn) ∧
    (∃ e ∈ (writeOp s t k v).1.versions k, e.1 = t) ∧
    (writeOp s t k v).1.next_txn_id = s.next_txn_id := by
  cases hl : lookupTxn s.active_transactions t with
  | none => simp [writeOp, hl] at h
  | some txn =>
    cases hacq : acquireLock s t k .EXCLUSIVE with
    | none => simp [writeOp, hl, hacq] at h
    | some s1 =>
      rcases hro : readOp s1 t k with ⟨s2, r⟩
      have hn2 : s2.next_txn_id = s.next_txn_id := by
        have hh := (readOp_proj s1 t k).1
        rw [hro] at hh
        exact hh.trans (acquireLock_proj hacq).1
      cases r with
      | done =>
        exfalso
        have hd := readOp_ne_done s1 t k
        rw [hro] at hd
        exact hd rfl
      | newTxn i => simp [writeOp, hl, hacq, hro] at h
      | keyErr => simp [writeOp, hl, hacq, hro] at h
      | blocked => simp [writeOp, hl, hacq, hro] at h
      | serializationFailure => simp [writeOp, hl, hacq, hro] at h
      | value old =>
        refine ⟨⟨txn, rfl⟩, ?_, ?_⟩
        · simp only [writeOp, hl, hacq, hro]
          refine ⟨(t, v, s2.clock), ?_, rfl⟩
          simp
        · simp only [writeOp, hl, hacq, hro]
          exact hn2

theorem commitOp_done_char {s : TMState} {t : Nat}
    (h : (commitOp s t).2 = Res.done) :
    ∃ txn, lookupTxn s.active_transactions t = some txn ∧
      (commitOp s t).1.versions = s.versions ∧
      (commitOp s t).1.next_txn_id = s.next_txn_id ∧
      lookupTxn (commitOp s t).1.active_transactions t = none ∧
      (∀ p ∈ (commitOp s t).1.active_transactions,
        ∃ q ∈ s.active_transactions, p.1 = q.1) := by
  cases hl : lookupTxn s.active_transactions t with
  | none => simp [commitOp, hl] at h
  | some txn =>
    by_cases hcond : (txn.isolation_level == IsolationLevel.SERIALIZABLE
        && !validateSerializable s txn) = true
    · exfalso
      simp [commitOp, hl, hcond] at h
    · obtain ⟨cv, cn, ca⟩ := commitOp_success_proj hl hcond
      refine ⟨txn, rfl, cv, cn, ?_, ?_⟩
      · rw [ca]
        exact lookupTxn_filter_self _ t
      · intro p hp
        rw [ca] at hp
        rcases mem_updateTxn (List.mem_of_mem_filter hp) with ⟨q, hq, he1, _⟩
        exact ⟨q, hq, he1⟩

theorem isVisible_rc_none {s : TMState} {txn : Transaction} {vt ts : Nat}
    (hiso : txn.isolation_level = IsolationLevel.READ_COMMITTED)
    (hnone : lookupTxn s.active_transactions vt = none) :
    isVisible s txn vt ts = true := by
  simp [isVisible, hiso, hnone]

theorem readOp_value_some {s : TMState} {t : Nat} {k : Bytes} {txn : Transaction}
    (hl : lookupTxn s.active_transactions t = some txn)
    (hiso : txn.isolation_level = IsolationLevel.READ_COMMITTED)
    (hex : ∃ e ∈ s.versions k, lookupTxn s.active_transactions e.1 = none) :
    ∃ v', (readOp s t k).2 = Res.value (some v') := by
  have hser : ¬((txn.isolation_level == IsolationLevel.SERIALIZABLE) = true) := by
    rw [hiso]
    decide
  simp only [readOp, hl, if_neg hser]
  rcases hex with ⟨e0, he0, hn0⟩
  have hvis : isVisible { s with
      active_transactions := updateTxn s.active_transactions t
        (fun tx => { tx with read_set := setInsert tx.read_set k }) } txn e0.1 e0.2.2
      = true := by
    apply isVisible_rc_none hiso
    show lookupTxn (updateTxn s.active_transactions t
      (fun tx => { tx with read_set := setInsert tx.read_set k })) e0.1 = none
    rw [lookupTxn_updateTxn]
    by_cases he0t : e0.1 = t
    · exfalso
      rw [he0t, hl] at hn0
      cases hn0
    · rw [if_neg he0t]
      exact hn0
  have hsome : ((s.versions k).reverse.find? (fun e => isVisible { s with
      active_transactions := updateTxn s.active_transactions t
        (fun tx => { tx with read_set := setInsert tx.read_set k }) } txn e.1 e.2.2)).isSome :=
    List.find?_isSome.mpr ⟨e0, List.mem_reverse.mpr he0, hvis⟩
  rcases Option.isSome_iff_exists.mp hsome with ⟨e1, hfind⟩
  exact ⟨e1.2.1, by rw [hfind]; rfl⟩

theorem fresh_read_some (s3 : TMState) (k : Bytes) (T : Nat)
    (hver : ∃ e ∈ s3.versions k, e.1 = T)
    (hTnone : lookupTxn s3.active_transactions T = none)
    (hTlt : T < s3.next_txn_id)
    (hkeys : ∀ p ∈ s3.active_transactions, p.1 < s3.next_txn_id) :
    ∃ v', (readOp (beginOp s3 .READ_COMMITTED).1 s3.next_txn_id k).2
      = Res.value (some v') := by
  have hlook4 : lookupTxn (beginOp s3 .READ_COMMITTED).1.active_transactions
      s3.next_txn_id
      = some (Transaction.new s3.next_txn_id .READ_COMMITTED s3.clock) := by
    show lookupTxn (s3.active_transactions ++ [(s3.next_txn_id,
      Transaction.new s3.next_txn_id .READ_COMMITTED s3.clock)]) s3.next_txn_id = _
    rw [lookupTxn_append_single, if_pos rfl]
    have hb : lookupTxn s3.active_transactions s3.next_txn_id = none := by
      rw [lookupTxn_eq_none]
      intro p hp
      have := hkeys p hp
      omega
    rw [hb]
    rfl
  apply readOp_value_some hlook4 rfl
  rcases hver with ⟨e0, he0, he0T⟩
  refine ⟨e0, he0, ?_⟩
  show lookupTxn (s3.active_transactions ++ [(s3.next_txn_id,
    Transaction.new s3.next_txn_id .READ_COMMITTED s3.clock)]) e0.1 = none
  rw [he0T, lookupTxn_append_single, hTnone, if_neg (by omega)]
  rfl

/-- **C1.** Atomic visibility.  Commit half: for any trace `ops1`, if a
write of key `k` by transaction `T` succeeds and, after further
arbitrary operations `ops2`, `commit(T)` succeeds, then a fresh
READ_COMMITTED transaction begun immediately afterwards (its id is the
current `next_txn_id`) reads a non-absent value for `k`.  Abort half:
once `abort(T)` succeeds, no later reachable state holds any version
owned by `T` at any key — reads only ever return stored versions, so no
subsequent transaction can observe a value `T` wrote. -/
theorem claim_C1 :
    (∀ (ops1 : List Op) (T : Nat) (k v : Bytes) (ops2 : List Op),
      (writeOp (run tmInit ops1) T k v).2 = Res.done →
      (commitOp (run (writeOp (run tmInit ops1) T k v).1 ops2) T).2 = Res.done →
      ∃ v', (readOp (beginOp
          (commitOp (run (writeOp (run tmInit ops1) T k v).1 ops2) T).1
          .READ_COMMITTED).1
        (commitOp (run (writeOp (run tmInit ops1) T k v).1 ops2) T).1.next_txn_id
        k).2 = Res.value (some v')) ∧
    (∀ (ops1 : List Op) (T : Nat),
      (abortOp (run tmInit ops1) T).2 = Res.done →
      ∀ (ops3 : List Op) (k : Bytes) (e : Nat × Bytes × Nat),
        e ∈ (run (abortOp (run tmInit ops1) T).1 ops3).versions k → e.1 ≠ T) := by
  constructor
  · intro ops1 T k v ops2 hw hc
    set s0 := run tmInit ops1 with hs0
    have hI0 : INVtm s0 := INVtm_run _ _ INVtm_init
    obtain ⟨⟨txn0, hl0⟩, hPv, hnw⟩ := writeOp_done_char hw
    set s1 := (writeOp s0 T k v).1 with hs1
    have hI1 : INVtm s1 := by
      rw [hs1]
      exact INVtm_writeOp T k v hI0
    have hTlt1 : T < s1.next_txn_id := by
      rw [hnw]
      exact hI0.2.1 _ (lookupTxn_mem hl0)
    have hW2 : Wkeep (run s1 ops2) k T := Wkeep_run ⟨hTlt1, Or.inl hPv⟩ ops2
    set s2 := run s1 ops2 with hs2
    have hI2 : INVtm s2 := by
      rw [hs2]
      exact INVtm_run s1 ops2 hI1
    obtain ⟨txn2, hl2, cv, cn, hTnone3, hsub⟩ := commitOp_done_char hc
    have hPv2 : Pver s2 k T := by
      rcases hW2.2 with hP | hnone
      · exact hP
      · rw [hnone] at hl2
        cases hl2
    have hver3 : ∃ e ∈ (commitOp s2 T).1.versions k, e.1 = T := by
      rcases hPv2 with ⟨e, he, het⟩
      exact ⟨e, by rw [cv]; exact he, het⟩
    have hTlt3 : T < (commitOp s2 T).1.next_txn_id := by
      rw [cn]
      exact hW2.1
    have hkeys3 : ∀ p ∈ (commitOp s2 T).1.active_transactions,
        p.1 < (commitOp s2 T).1.next_txn_id := by
      intro p hp
      rcases hsub p hp with ⟨q, hq, he1⟩
      rw [he1, cn]
      exact hI2.2.1 q hq
    exact fresh_read_some (commitOp s2 T).1 k T hver3 hTnone3 hTlt3 hkeys3
  · intro ops1 T hab ops3 k e he
    set s0 := run tmInit ops1 with hs0
    have hI0 : INVtm s0 := INVtm_run _ _ INVtm_init
    cases hl : lookupTxn s0.active_transactions T with
    | none =>
      exfalso
      rw [show (abortOp s0 T).2 = Res.keyErr from by simp [abortOp, hl]] at hab
      cases hab
    | some txn =>
      obtain ⟨hnone1, hnoT, _⟩ := abortOp_char hI0 hl
      have hG1 : Gone (abortOp s0 T).1 T := by
        refine ⟨hnoT, hnone1, ?_⟩
        rw [(abortOp_some_proj hl).1]
        exact hI0.2.1 _ (lookupTxn_mem hl)
      exact (Gone_run hG1 ops3).1 k e he

/-- Witness for C1 at a concrete trace: transaction 1 writes `[7] ↦ [9]`
and commits; the fresh READ_COMMITTED reader sees a value for `[7]`.
For the abort half, transactions 1 and 2 write disjoint keys, 1 aborts,
and the surviving version `(2, [5], 3)` of key `[8]` is not owned by 1. -/
theorem claim_C1_witness :
    (∃ v', (readOp (beginOp
        (commitOp (run (writeOp (run tmInit [Op.beginTxn .READ_COMMITTED])
          1 [7] [9]).1 []) 1).1 .READ_COMMITTED).1
      (commitOp (run (writeOp (run tmInit [Op.beginTxn .READ_COMMITTED])
        1 [7] [9]).1 []) 1).1.next_txn_id [7]).2 = Res.value (some v')) ∧
    (((2, [5], 3) : Nat × Bytes × Nat).1 ≠ 1) :=
  ⟨claim_C1.1 [Op.beginTxn .READ_COMMITTED] 1 [7] [9] [] (by rfl) (by rfl),
   claim_C1.2 [Op.beginTxn .READ_COMMITTED, Op.beginTxn .READ_COMMITTED,
       Op.writeK 1 [7] [9], Op.writeK 2 [8] [5]] 1 (by rfl) [] [8]
     (2, [5], 3) (by decide)⟩

/-- **C4.** Serialization failure at commit, characterised over any state
satisfying the reachable-state invariant `INVtm`: for a registered
SERIALIZABLE transaction `T`, `commit(T)` signals a serialization
failure iff some other registered transaction with an earlier start
time has a key of `T`'s write set in its own write set; and on failure
`T` has been aborted — deregistered, its uncommitted versions stripped
and its locks released. -/
theorem claim_C4 (s : TMState) (T : Nat) (txn : Transaction)
    (hI : INVtm s)
    (hl : lookupTxn s.active_transactions T = some txn)
    (hiso : txn.isolation_level = IsolationLevel.SERIALIZABLE) :
    ((commitOp s T).2 = Res.serializationFailure ↔
      ∃ p ∈ s.active_transactions, p.1 ≠ T ∧ p.2.start_time < txn.start_time ∧
        ∃ k, k ∈ txn.write_set ∧ k ∈ p.2.write_set) ∧
    ((commitOp s T).2 = Res.serializationFailure →
      lookupTxn (commitOp s T).1.active_transactions T = none ∧
      (∀ k e, e ∈ (commitOp s T).1.versions k → e.1 ≠ T) ∧
      (∀ k h', h' ∈ (commitOp s T).1.lock_table k → h'.1 ≠ T)) := by
  have hid : txn.txn_id = T := hI.1 _ (lookupTxn_mem hl)
  constructor
  · constructor
    · intro hfail
      by_cases hcond : (txn.isolation_level == IsolationLevel.SERIALIZABLE
          && !validateSerializable s txn) = true
      · have h2 := ((Bool.and_eq_true _ _).mp hcond).2
        have hval : validateSerializable s txn = false := by
          revert h2
          cases validateSerializable s txn <;> simp
        have hany : (txn.write_set.any (fun k =>
            s.active_transactions.any (fun p =>
              p.1 != txn.txn_id && decide (k ∈ p.2.write_set)
                && decide (p.2.start_time < txn.start_time)))) = true := by
          rw [validateSerializable] at hval
          revert hval
          cases hX : txn.write_set.any (fun k =>
            s.active_transactions.any (fun p =>
              p.1 != txn.txn_id && decide (k ∈ p.2.write_set)
                && decide (p.2.start_time < txn.start_time)))
          · intro hval
            cases hval
          · intro _
            rfl
        rcases List.any_eq_true.mp hany with ⟨k0, hk0, hinner⟩
        rcases List.any_eq_true.mp hinner with ⟨p, hp, hb⟩
        have hb1 := (Bool.and_eq_true _ _).mp hb
        have hb2 := (Bool.and_eq_true _ _).mp hb1.1
        refine ⟨p, hp, ?_, of_decide_eq_true hb1.2, k0, hk0, of_decide_eq_true hb2.2⟩
        have hbne := hb2.1
        rw [hid] at hbne
        exact bne_iff_ne.mp hbne
      · exfalso
        simp [commitOp, hl, hcond] at hfail
    · intro hex
      rcases hex with ⟨p, hp, hpT, hst, k0, hk1, hk2⟩
      have hany : (txn.write_set.any (fun k =>
          s.active_transactions.any (fun p =>
            p.1 != txn.txn_id && decide (k ∈ p.2.write_set)
              && decide (p.2.start_time < txn.start_time)))) = true := by
        refine List.any_eq_true.mpr ⟨k0, hk1, List.any_eq_true.mpr ⟨p, hp, ?_⟩⟩
        rw [hid]
        simp [hpT, hk2, hst]
      have hval : validateSerializable s txn = false := by
        rw [validateSerializable, hany]
        rfl
      have hcond : (txn.isolation_level == IsolationLevel.SERIALIZABLE
          && !validateSerializable s txn) = true := by
        rw [hiso, hval]
        rfl
      simp [commitOp, hl, hcond]
  · intro hfail
    by_cases hcond : (txn.isolation_level == IsolationLevel.SERIALIZABLE
        && !validateSerializable s txn) = true
    · simp only [commitOp, hl, if_pos hcond]
      exact abortOp_char hI hl
    · exfalso
      simp [commitOp, hl, hcond] at hfail

/-- Witness for C4: two registered SERIALIZABLE transactions both have
`[1]` in their write sets; transaction 2 (the later starter) commits and
the validation rejects it. -/
theorem claim_C4_witness :
    (commitOp (⟨3, [(1, ⟨1, .SERIALIZABLE, 0, [], [], [], [[1]], .ACTIVE⟩),
        (2, ⟨2, .SERIALIZABLE, 1, [], [], [], [[1]], .ACTIVE⟩)],
        fun _ => [], fun _ => [], 5⟩ : TMState) 2).2
      = Res.serializationFailure :=
  (claim_C4 _ 2 ⟨2, .SERIALIZABLE, 1, [], [], [], [[1]], .ACTIVE⟩
    ⟨by decide, by decide,
     fun k e he => absurd he (List.not_mem_nil e),
     fun p hp k e he het => absurd he (List.not_mem_nil e),
     fun k h hm => absurd hm (List.not_mem_nil h)⟩
    (by rfl) rfl).1.mpr
    ⟨(1, ⟨1, .SERIALIZABLE, 0, [], [], [], [[1]], .ACTIVE⟩),
     by decide, by decide, by decide, [1], by decide, by decide⟩

/-- **C3.** The spec claims REPEATABLE_READ snapshot stability: two
reads of the same key by transaction `R` return the same value even if
a writer commits in between.  The code violates it: writer 1 writes
`k = [107]` before `R = 2` begins; `R`'s first read returns `none`
(version owner still active and uncommitted), then after `commit(1)`
deregisters the writer the visibility check falls through to the
timestamp test (`1 ≤ start_time 2`) and `R`'s second read returns the
committed value `[118]` — a non-repeatable read. -/
theorem claim_C3 :
    runOuts tmInit
      [Op.beginTxn .READ_COMMITTED,
       Op.writeK 1 [107] [118],
       Op.beginTxn .REPEATABLE_READ,
       Op.readK 2 [107],
       Op.commitT 1,
       Op.readK 2 [107]] =
      [Res.newTxn 1, Res.done, Res.newTxn 2,
       Res.value none, Res.done, Res.value (some [118])] ∧
    (Res.value none : Res) ≠ Res.value (some [118]) := by
  constructor
  · rfl
  · decide

end TM

end S2P
